import Mathlib

/-!
Verification of the hexagon_clink repository core against its specification.

The Go sources are shallowly embedded: edge bitmask graphs become natural
numbers read through Nat.testBit, fixed-size arrays become lists indexed with
List.getD, and the global tables initialised by initEdges become functions of
the vertex count n.  Machine integers are modelled by Nat (all quantities in
the claims stay far below 2 to the 64, and every left shift appearing in the
sources has exponent below numEdges, which the run keeps at 64 or less).
-/

namespace HexClink

/-- The number of unordered vertex pairs, as computed by initEdges in
canonicalize.go, filter_maximal.go and the verifier: n * (n - 1) / 2. -/
def numEdgesN (n : ℕ) : ℕ := n * (n - 1) / 2

/-- The dense edge enumeration of initEdges: for i from 0 to n-1, for j from
i+1 to n-1, the pair (i, j).  The inner loop is rendered by letting j run as
i + 1 + d for d below n - 1 - i. -/
def edgePairsL (n : ℕ) : List (ℕ × ℕ) :=
  (List.range n).flatMap (fun i => (List.range (n - 1 - i)).map (fun d => (i, i + 1 + d)))

/-- The symmetric edge index table of initEdges: the position of the sorted
pair in the dense enumeration. -/
def edgeIdxL (n i j : ℕ) : ℕ :=
  @List.indexOf (ℕ × ℕ) instBEqOfDecidableEq (min i j, max i j) (edgePairsL n)

theorem mem_edgePairsL {n : ℕ} {p : ℕ × ℕ} :
    p ∈ edgePairsL n ↔ p.1 < p.2 ∧ p.2 < n := by
  unfold edgePairsL
  simp only [List.mem_flatMap, List.mem_map, List.mem_range]
  constructor
  · rintro ⟨i, hi, d, hd, rfl⟩
    exact ⟨by omega, by omega⟩
  · rintro ⟨h1, h2⟩
    exact ⟨p.1, by omega, p.2 - p.1 - 1, by omega, by ext <;> simp <;> omega⟩

theorem nodup_edgePairsL (n : ℕ) : (edgePairsL n).Nodup := by
  unfold edgePairsL
  rw [List.nodup_flatMap]
  constructor
  · intro i _
    exact (List.nodup_range _).map (fun a b h => by simpa using congrArg Prod.snd h)
  · refine (List.pairwise_lt_range n).imp ?_
    intro a b hab
    intro x hxa hxb
    simp only [List.mem_map, List.mem_range] at hxa hxb
    obtain ⟨d, _, rfl⟩ := hxa
    obtain ⟨e, _, he⟩ := hxb
    have : b = a := congrArg Prod.fst he
    omega

theorem length_edgePairsL (n : ℕ) : (edgePairsL n).length = numEdgesN n := by
  unfold edgePairsL numEdgesN
  rw [List.length_flatMap]
  have h1 : (List.map (List.length ∘ fun i => (List.range (n - 1 - i)).map (fun d => (i, i + 1 + d)))
      (List.range n)).sum = (List.map (fun i => n - 1 - i) (List.range n)).sum := by
    congr 1
    apply List.map_congr_left
    intro i _
    simp
  rw [h1]
  have h2 : ∀ m : ℕ, (List.map (fun i => n - 1 - i) (List.range m)).sum
      = ∑ i ∈ Finset.range m, (n - 1 - i) := by
    intro m
    induction m with
    | zero => simp
    | succ k ih => rw [List.range_succ, List.map_append, List.sum_append,
        Finset.sum_range_succ, ih]; simp
  rw [h2, Finset.sum_range_reflect (fun i => i) n, Finset.sum_range_id]

theorem edgeIdxL_lt {n i j : ℕ} (hij : i < j) (hj : j < n) :
    edgeIdxL n i j < numEdgesN n := by
  rw [← length_edgePairsL]
  unfold edgeIdxL
  rw [min_eq_left hij.le, max_eq_right hij.le]
  exact List.indexOf_lt_length.2 ((mem_edgePairsL (p := (i, j))).2 ⟨hij, hj⟩)

theorem edgePairsL_getD_edgeIdxL {n i j : ℕ} (hij : i < j) (hj : j < n) :
    (edgePairsL n).getD (edgeIdxL n i j) (0, 0) = (i, j) := by
  unfold edgeIdxL
  rw [min_eq_left hij.le, max_eq_right hij.le]
  have hm : (i, j) ∈ edgePairsL n := (mem_edgePairsL (p := (i, j))).2 ⟨hij, hj⟩
  have hl : @List.indexOf (ℕ × ℕ) instBEqOfDecidableEq (i, j) (edgePairsL n)
      < (edgePairsL n).length := List.indexOf_lt_length.2 hm
  rw [List.getD_eq_getElem _ _ hl]
  exact List.getElem_indexOf hl

theorem edgeIdxL_getD {n idx : ℕ} (h : idx < numEdgesN n) :
    edgeIdxL n ((edgePairsL n).getD idx (0, 0)).1 ((edgePairsL n).getD idx (0, 0)).2 = idx := by
  rw [← length_edgePairsL] at h
  rw [List.getD_eq_getElem _ _ h]
  have hmem : (edgePairsL n)[idx] ∈ edgePairsL n := List.getElem_mem _
  have hlt := mem_edgePairsL.1 hmem
  unfold edgeIdxL
  rw [min_eq_left hlt.1.le, max_eq_right hlt.1.le, Prod.mk.eta]
  exact List.indexOf_getElem (nodup_edgePairsL n) idx h

theorem edgePairsL_getD_prop {n idx : ℕ} (h : idx < numEdgesN n) :
    ((edgePairsL n).getD idx (0, 0)).1 < ((edgePairsL n).getD idx (0, 0)).2 ∧
      ((edgePairsL n).getD idx (0, 0)).2 < n := by
  rw [← length_edgePairsL] at h
  rw [List.getD_eq_getElem _ _ h]
  exact mem_edgePairsL.1 (List.getElem_mem _)

/-- Characterisation of a left fold that ORs single bits into an accumulator,
the shape shared by Graph.canonical, isIsomorphicSubgraphOf and parseGraph6. -/
theorem testBit_foldl_or {α : Type} (P : α → Bool) (f : α → ℕ) :
    ∀ (l : List α) (acc k : ℕ),
      (l.foldl (fun a x => if P x then a ||| (1 <<< f x) else a) acc).testBit k
        = (acc.testBit k || l.any (fun x => P x && decide (f x = k))) := by
  intro l
  induction l with
  | nil => simp
  | cons x t ih =>
    intro acc k
    simp only [List.foldl_cons, List.any_cons]
    by_cases hp : P x
    · simp only [hp, if_pos]
      rw [ih]
      rw [Nat.testBit_lor, Nat.one_shiftLeft, Nat.testBit_two_pow]
      cases hacc : acc.testBit k <;> by_cases hfk : f x = k <;> simp [hfk, hacc]
    · rw [Bool.not_eq_true] at hp
      simp only [hp, Bool.false_and, Bool.false_or, Bool.false_eq_true, if_false]
      rw [ih]

/-- An arrangement or vertex relabeling as stored by the Go code: a slice of
length n holding each of 0..n-1 exactly once. -/
def permListP (n : ℕ) (p : List ℕ) : Prop :=
  p.length = n ∧ p.Nodup ∧ ∀ x ∈ p, x < n

instance (n : ℕ) (p : List ℕ) : Decidable (permListP n p) := by
  unfold permListP; infer_instance

theorem permListP_range (n : ℕ) : permListP n (List.range n) :=
  ⟨List.length_range n, List.nodup_range n, fun x hx => List.mem_range.1 hx⟩

theorem permListP.getD_lt {n : ℕ} {p : List ℕ} (h : permListP n p) {i : ℕ} (hi : i < n) :
    p.getD i 0 < n := by
  rw [List.getD_eq_getElem p 0 (by rw [h.1]; exact hi)]
  exact h.2.2 _ (List.getElem_mem _)

theorem permListP.getD_inj {n : ℕ} {p : List ℕ} (h : permListP n p) {i j : ℕ}
    (hi : i < n) (hj : j < n) (heq : p.getD i 0 = p.getD j 0) : i = j := by
  rw [List.getD_eq_getElem p 0 (by rw [h.1]; exact hi),
    List.getD_eq_getElem p 0 (by rw [h.1]; exact hj)] at heq
  exact (List.Nodup.getElem_inj_iff h.2.1).1 heq

theorem permListP.toFinset_eq {n : ℕ} {p : List ℕ} (h : permListP n p) :
    p.toFinset = Finset.range n := by
  apply Finset.eq_of_subset_of_card_le
  · intro x hx
    simp only [List.mem_toFinset] at hx
    exact Finset.mem_range.2 (h.2.2 x hx)
  · rw [Finset.card_range, List.toFinset_card_of_nodup h.2.1, h.1]

theorem permListP.surj {n : ℕ} {p : List ℕ} (h : permListP n p) {v : ℕ} (hv : v < n) :
    ∃ i, i < n ∧ p.getD i 0 = v := by
  have hm : v ∈ p := by
    rw [← List.mem_toFinset, h.toFinset_eq]
    exact Finset.mem_range.2 hv
  obtain ⟨i, hi, rfl⟩ := List.getElem_of_mem hm
  refine ⟨i, by rw [← h.1]; exact hi, ?_⟩
  rw [List.getD_eq_getElem p 0 hi]

/-- The inverse arrangement, written the way a Go helper would recover it:
entry v is the index at which v sits in p. -/
def invPermL (n : ℕ) (p : List ℕ) : List ℕ :=
  (List.range n).map (fun v => @List.indexOf ℕ instBEqOfDecidableEq v p)

theorem invPermL_getD {n : ℕ} {p : List ℕ} {v : ℕ} (hv : v < n) :
    (invPermL n p).getD v 0 = @List.indexOf ℕ instBEqOfDecidableEq v p := by
  unfold invPermL
  rw [List.getD_eq_getElem _ 0 (by simpa using hv), List.getElem_map]
  congr 1
  exact List.getElem_range v _

theorem permListP.invPermL_right {n : ℕ} {p : List ℕ} (h : permListP n p) {v : ℕ}
    (hv : v < n) : p.getD ((invPermL n p).getD v 0) 0 = v := by
  rw [invPermL_getD hv]
  have hm : v ∈ p := by
    rw [← List.mem_toFinset, h.toFinset_eq]; exact Finset.mem_range.2 hv
  have hidx : @List.indexOf ℕ instBEqOfDecidableEq v p < p.length :=
    List.indexOf_lt_length.2 hm
  rw [List.getD_eq_getElem p 0 hidx]
  exact List.getElem_indexOf hidx

theorem permListP.invPermL_left {n : ℕ} {p : List ℕ} (h : permListP n p) {i : ℕ}
    (hi : i < n) : (invPermL n p).getD (p.getD i 0) 0 = i := by
  have hpi : p.getD i 0 < n := h.getD_lt hi
  rw [invPermL_getD hpi]
  have hi' : i < p.length := by rw [h.1]; exact hi
  rw [List.getD_eq_getElem p 0 hi']
  exact List.indexOf_getElem h.2.1 i hi'

theorem permListP.invPermL {n : ℕ} {p : List ℕ} (h : permListP n p) :
    permListP n (invPermL n p) := by
  refine ⟨by simp [HexClink.invPermL], ?_, ?_⟩
  · apply List.Nodup.map_on ?_ (List.nodup_range n)
    intro x hx y hy hxy
    rw [List.mem_range] at hx hy
    have hx' := h.invPermL_right hx
    have hy' := h.invPermL_right hy
    rw [invPermL_getD hx] at hx'
    rw [invPermL_getD hy] at hy'
    rw [← hx', ← hy', hxy]
  · intro x hx
    simp only [HexClink.invPermL, List.mem_map, List.mem_range] at hx
    obtain ⟨v, hv, rfl⟩ := hx
    have hm : v ∈ p := by
      rw [← List.mem_toFinset, h.toFinset_eq]; exact Finset.mem_range.2 hv
    have := List.indexOf_lt_length.2 hm
    rw [h.1] at this
    exact this

/-- Composition of arrangements as lists: entry i is p applied to q's entry i. -/
def compPermL (p q : List ℕ) : List ℕ := q.map (fun v => p.getD v 0)

theorem compPermL_getD {p q : List ℕ} {i : ℕ} (hi : i < q.length) :
    (compPermL p q).getD i 0 = p.getD (q.getD i 0) 0 := by
  unfold compPermL
  rw [List.getD_eq_getElem _ 0 (by simpa using hi), List.getElem_map,
    List.getD_eq_getElem q 0 hi]

theorem permListP.compPermL {n : ℕ} {p q : List ℕ} (hp : permListP n p)
    (hq : permListP n q) : permListP n (compPermL p q) := by
  refine ⟨by simp [HexClink.compPermL, hq.1], ?_, ?_⟩
  · apply List.Nodup.map_on ?_ hq.2.1
    intro x hx y hy hxy
    exact hp.getD_inj (hq.2.2 x hx) (hq.2.2 y hy) hxy
  · intro x hx
    simp only [HexClink.compPermL, List.mem_map] at hx
    obtain ⟨v, hv, rfl⟩ := hx
    exact hp.getD_lt (hq.2.2 v hv)

/-!
Graph6 codec, from parseGraph6 and Graph.toGraph6 in filter_maximal.go and the
penny verifier.  Go byte strings are lists of naturals below 256; Go ints are
modelled by Int where a negative intermediate value is possible.
-/

/-- The column-major upper-triangle enumeration used by the graph6 codec:
for j from 1 to n-1, for i from 0 to j-1, the pair (i, j). -/
def colPairsL (n : ℕ) : List (ℕ × ℕ) :=
  (List.range n).flatMap (fun j => (List.range j).map (fun i => (i, j)))

theorem mem_colPairsL {n : ℕ} {p : ℕ × ℕ} :
    p ∈ colPairsL n ↔ p.1 < p.2 ∧ p.2 < n := by
  unfold colPairsL
  simp only [List.mem_flatMap, List.mem_map, List.mem_range]
  constructor
  · rintro ⟨j, hj, i, hi, rfl⟩
    exact ⟨hi, hj⟩
  · rintro ⟨h1, h2⟩
    exact ⟨p.2, h2, p.1, h1, rfl⟩

theorem length_colPairsL (n : ℕ) : (colPairsL n).length = numEdgesN n := by
  unfold colPairsL numEdgesN
  rw [List.length_flatMap]
  have h1 : (List.map (List.length ∘ fun j => (List.range j).map (fun i => (i, j)))
      (List.range n)).sum = (List.map (fun j => j) (List.range n)).sum := by
    congr 1
    apply List.map_congr_left
    intro j _
    simp
  rw [h1]
  have h2 : ∀ m : ℕ, (List.map (fun j => j) (List.range m)).sum
      = ∑ i ∈ Finset.range m, i := by
    intro m
    induction m with
    | zero => simp
    | succ k ih => rw [List.range_succ, List.map_append, List.sum_append,
        Finset.sum_range_succ, ih]; simp
  rw [h2, Finset.sum_range_id]

/-- Go's unicode whitespace test restricted to single bytes. -/
def isSpaceB (c : ℕ) : Bool :=
  c = 9 || c = 10 || c = 11 || c = 12 || c = 13 || c = 32 || c = 133 || c = 160

/-- strings.TrimSpace on a byte string: drop whitespace from both ends. -/
def trimSpaceL (l : List ℕ) : List ℕ :=
  ((l.dropWhile isSpaceB).reverse.dropWhile isSpaceB).reverse

theorem trimSpaceL_eq_self {l : List ℕ} (h : ∀ c ∈ l, isSpaceB c = false) :
    trimSpaceL l = l := by
  unfold trimSpaceL
  have h1 : l.dropWhile isSpaceB = l := by
    apply List.dropWhile_eq_self_iff.2
    intro hl
    simp only [Bool.not_eq_true]
    exact h _ (List.get_mem l 0 hl)
  rw [h1]
  have h2 : l.reverse.dropWhile isSpaceB = l.reverse := by
    apply List.dropWhile_eq_self_iff.2
    intro hl
    simp only [Bool.not_eq_true]
    exact h _ (List.mem_reverse.1 (List.get_mem l.reverse 0 hl))
  rw [h2, List.reverse_reverse]

/-- The bit extraction applied to a run of bytes: for each byte, val is the
byte minus 63 as a Go int, and six bits are taken from bit 5 down to bit 0 by
arithmetic shift and mask. -/
def g6chunks (l : List ℕ) : List ℤ :=
  l.flatMap (fun c => [5, 4, 3, 2, 1, 0].map (fun b => Int.land (((c : ℤ) - 63) >>> b) 1))

/-- The 6-bit groups of a graph6 line after the header byte, exactly as the
decoder loop computes them. -/
def g6bits (l : List ℕ) : List ℤ := g6chunks (l.drop 1)

/-- The decoder loop guard: the running bit index is in range and the bit is 1. -/
def g6guard (bits : List ℤ) (x : ℕ × (ℕ × ℕ)) : Bool :=
  decide (x.1 < bits.length) && decide (bits.getD x.1 0 = 1)

/-- The decoder loop target: the dense edge id of the pair being set. -/
def g6target (n : ℕ) (x : ℕ × (ℕ × ℕ)) : ℕ := edgeIdxL n x.2.1 x.2.2

/-- parseGraph6: trim, check the header byte against the run's n, unpack the
6-bit groups, then set the dense-id bit for every upper-triangle position,
read column-major, whose decoded bit is a 1 within range. -/
def parseGraph6 (n : ℕ) (line : List ℕ) : ℕ :=
  if (trimSpaceL line).length = 0 then 0
  else if (((trimSpaceL line).getD 0 0 : ℤ) - 63) ≠ (n : ℤ) then 0
  else
    (colPairsL n).enum.foldl
      (fun acc x => if g6guard (g6bits (trimSpaceL line)) x then acc ||| (1 <<< g6target n x)
        else acc) 0

/-- The encoder packing loop: consume six 0/1 bits at a time, assemble a
character value, add 63.  Called only with a list whose length is a multiple
of six, as the Go code guarantees by padding. -/
def packG6 : List ℕ → List ℕ
  | b0 :: b1 :: b2 :: b3 :: b4 :: b5 :: rest =>
      ((b0 <<< 5 ||| b1 <<< 4 ||| b2 <<< 3 ||| b3 <<< 2 ||| b4 <<< 1 ||| b5) + 63) :: packG6 rest
  | _ => []

/-- Graph.toGraph6: header byte n + 63 (a Go byte, hence reduced mod 256),
then the column-major upper-triangle bits padded with zeros to a multiple of
six and packed six per character. -/
def toGraph6 (n : ℕ) (g : ℕ) : List ℕ :=
  let bits := (colPairsL n).map (fun p => if g.testBit (edgeIdxL n p.1 p.2) then (1 : ℕ) else 0)
  let padded := bits ++ List.replicate ((6 - bits.length % 6) % 6) 0
  ((n + 63) % 256) :: packG6 padded

theorem g6_chunk (b0 b1 b2 b3 b4 b5 : ℕ) (h0 : b0 ≤ 1) (h1 : b1 ≤ 1) (h2 : b2 ≤ 1)
    (h3 : b3 ≤ 1) (h4 : b4 ≤ 1) (h5 : b5 ≤ 1) :
    ([5, 4, 3, 2, 1, 0].map (fun b => Int.land
        ((((((b0 <<< 5 ||| b1 <<< 4 ||| b2 <<< 3 ||| b3 <<< 2 ||| b4 <<< 1 ||| b5) + 63 : ℕ)) : ℤ)
          - 63) >>> b) 1))
      = [(b0 : ℤ), b1, b2, b3, b4, b5]
    ∧ 63 ≤ (b0 <<< 5 ||| b1 <<< 4 ||| b2 <<< 3 ||| b3 <<< 2 ||| b4 <<< 1 ||| b5) + 63
    ∧ (b0 <<< 5 ||| b1 <<< 4 ||| b2 <<< 3 ||| b3 <<< 2 ||| b4 <<< 1 ||| b5) + 63 ≤ 126 := by
  interval_cases b0 <;> interval_cases b1 <;> interval_cases b2 <;> interval_cases b3 <;>
    interval_cases b4 <;> interval_cases b5 <;> decide

theorem g6chunks_packG6 : ∀ (m : ℕ) (l : List ℕ), l.length ≤ m → (∀ x ∈ l, x ≤ 1) →
    l.length % 6 = 0 → g6chunks (packG6 l) = l.map (fun b => Int.ofNat b) := by
  intro m
  induction m with
  | zero =>
    intro l hlen _ _
    have : l = [] := List.length_eq_zero.1 (Nat.le_zero.1 hlen)
    subst this
    rfl
  | succ m ih =>
    intro l hlen hb hmod
    match l with
    | [] => rfl
    | [a] => simp at hmod
    | [a, b] => simp at hmod
    | [a, b, c] => simp at hmod
    | [a, b, c, d] => simp at hmod
    | [a, b, c, d, e] => simp at hmod
    | b0 :: b1 :: b2 :: b3 :: b4 :: b5 :: rest =>
      have hrb : ∀ x ∈ rest, x ≤ 1 := fun x hx => hb x (by simp [hx])
      have hrlen : rest.length ≤ m := by
        simp only [List.length_cons] at hlen
        omega
      have hrmod : rest.length % 6 = 0 := by
        simp only [List.length_cons] at hmod
        omega
      have hch := g6_chunk b0 b1 b2 b3 b4 b5 (hb b0 (by simp)) (hb b1 (by simp))
        (hb b2 (by simp)) (hb b3 (by simp)) (hb b4 (by simp)) (hb b5 (by simp))
      show g6chunks (((b0 <<< 5 ||| b1 <<< 4 ||| b2 <<< 3 ||| b3 <<< 2 ||| b4 <<< 1 ||| b5) + 63)
        :: packG6 rest) = _
      unfold g6chunks
      rw [List.flatMap_cons]
      have : g6chunks (packG6 rest) = rest.map (fun b => Int.ofNat b) := ih rest hrlen hrb hrmod
      unfold g6chunks at this
      rw [this, hch.1]
      simp

theorem packG6_bytes : ∀ (m : ℕ) (l : List ℕ), l.length ≤ m → (∀ x ∈ l, x ≤ 1) →
    ∀ c ∈ packG6 l, 63 ≤ c ∧ c ≤ 126 := by
  intro m
  induction m with
  | zero =>
    intro l hlen _ c hc
    have : l = [] := List.length_eq_zero.1 (Nat.le_zero.1 hlen)
    subst this
    simp [packG6] at hc
  | succ m ih =>
    intro l hlen hb c hc
    match l with
    | [] => simp [packG6] at hc
    | [a] => simp [packG6] at hc
    | [a, b] => simp [packG6] at hc
    | [a, b, c'] => simp [packG6] at hc
    | [a, b, c', d] => simp [packG6] at hc
    | [a, b, c', d, e] => simp [packG6] at hc
    | b0 :: b1 :: b2 :: b3 :: b4 :: b5 :: rest =>
      have hch := g6_chunk b0 b1 b2 b3 b4 b5 (hb b0 (by simp)) (hb b1 (by simp))
        (hb b2 (by simp)) (hb b3 (by simp)) (hb b4 (by simp)) (hb b5 (by simp))
      rw [show packG6 (b0 :: b1 :: b2 :: b3 :: b4 :: b5 :: rest)
        = ((b0 <<< 5 ||| b1 <<< 4 ||| b2 <<< 3 ||| b3 <<< 2 ||| b4 <<< 1 ||| b5) + 63)
          :: packG6 rest from rfl] at hc
      rcases List.mem_cons.1 hc with hc | hc
      · subst hc
        exact ⟨hch.2.1, hch.2.2⟩
      · refine ih rest ?_ (fun x hx => hb x (by simp [hx])) c hc
        simp only [List.length_cons] at hlen
        omega

/-- The reading loop of the maximality filter for one input file: parse each
line, keep non-zero results and count them; a zero result is dropped and the
loop moves on. -/
def readBatchG6 (n : ℕ) (lines : List (List ℕ)) : List ℕ × ℕ :=
  lines.foldl (fun acc line =>
    if parseGraph6 n line ≠ 0 then (acc.1 ++ [parseGraph6 n line], acc.2 + 1) else acc)
    ([], 0)

theorem isSpaceB_false {c : ℕ} (h1 : 63 ≤ c) (h2 : c ≤ 126) : isSpaceB c = false := by
  simp only [isSpaceB, Bool.or_eq_false_iff, decide_eq_false_iff_not]
  omega

theorem toGraph6_bytes {n g : ℕ} (hn : n ≤ 62) :
    ∀ c ∈ toGraph6 n g, 63 ≤ c ∧ c ≤ 126 := by
  intro c hc
  unfold toGraph6 at hc
  rcases List.mem_cons.1 hc with hc | hc
  · subst hc
    constructor
    · rw [Nat.mod_eq_of_lt (by omega)]
      omega
    · rw [Nat.mod_eq_of_lt (by omega)]
      omega
  · refine packG6_bytes _ _ le_rfl ?_ c hc
    intro x hx
    rcases List.mem_append.1 hx with hx | hx
    · obtain ⟨p, _, rfl⟩ := List.mem_map.1 hx
      split <;> omega
    · rw [List.eq_of_mem_replicate hx]
      omega

theorem parseGraph6_toGraph6 {n g : ℕ} (hn : n ≤ 62) (hg : g < 2 ^ numEdgesN n) :
    parseGraph6 n (toGraph6 n g) = g := by
  have hbytes := toGraph6_bytes (g := g) hn
  have htrim : trimSpaceL (toGraph6 n g) = toGraph6 n g :=
    trimSpaceL_eq_self (fun c hc => isSpaceB_false (hbytes c hc).1 (hbytes c hc).2)
  unfold parseGraph6
  rw [htrim]
  have hne : (toGraph6 n g).length ≠ 0 := by
    unfold toGraph6
    simp
  rw [if_neg hne]
  have hhead : (toGraph6 n g).getD 0 0 = n + 63 := by
    unfold toGraph6
    simp only [List.getD_cons_zero]
    exact Nat.mod_eq_of_lt (by omega)
  have hheadz : ¬ (((toGraph6 n g).getD 0 0 : ℤ) - 63 ≠ (n : ℤ)) := by
    rw [hhead]
    push_cast
    omega
  rw [if_neg hheadz]
  -- the decoded bit list is the padded encoder bit list
  set bitsenc := (colPairsL n).map
    (fun p => if g.testBit (edgeIdxL n p.1 p.2) then (1 : ℕ) else 0) with hbitsenc
  set padded := bitsenc ++ List.replicate ((6 - bitsenc.length % 6) % 6) 0 with hpadded
  have hdrop : (toGraph6 n g).drop 1 = packG6 padded := by
    unfold toGraph6
    rfl
  have hpadbits : ∀ x ∈ padded, x ≤ 1 := by
    intro x hx
    rcases List.mem_append.1 hx with hx | hx
    · obtain ⟨p, _, rfl⟩ := List.mem_map.1 hx
      split <;> omega
    · rw [List.eq_of_mem_replicate hx]
      omega
  have hpadmod : padded.length % 6 = 0 := by
    rw [hpadded, List.length_append, List.length_replicate]
    omega
  have hdec : g6bits (toGraph6 n g) = padded.map (fun b => Int.ofNat b) := by
    unfold g6bits
    rw [hdrop]
    exact g6chunks_packG6 padded.length padded le_rfl hpadbits hpadmod
  have hblen : bitsenc.length = (colPairsL n).length := by
    rw [hbitsenc, List.length_map]
  have hval : ∀ t (ht : t < (colPairsL n).length),
      (padded.map (fun b => Int.ofNat b)).getD t 0
        = (if g.testBit (edgeIdxL n ((colPairsL n)[t]).1 ((colPairsL n)[t]).2)
            then (1 : ℤ) else 0) := by
    intro t ht
    have ht1 : t < bitsenc.length := by rw [hblen]; exact ht
    have ht2 : t < padded.length := by
      rw [hpadded, List.length_append]
      omega
    have ht3 : t < (padded.map (fun b => Int.ofNat b)).length := by
      rw [List.length_map]
      exact ht2
    rw [List.getD_eq_getElem _ _ ht3, List.getElem_map]
    have hpt : padded[t] = bitsenc[t] := List.getElem_append_left ht1
    rw [hpt]
    have hbt : bitsenc[t] = if g.testBit (edgeIdxL n ((colPairsL n)[t]).1 ((colPairsL n)[t]).2)
        then (1 : ℕ) else 0 := List.getElem_map _
    rw [hbt]
    split <;> simp
  apply Nat.eq_of_testBit_eq
  intro k
  rw [testBit_foldl_or (g6guard (g6bits (toGraph6 n g))) (g6target n) ((colPairsL n).enum) 0 k]
  rw [hdec, Nat.zero_testBit, Bool.false_or]
  cases htb : g.testBit k with
  | true =>
    apply List.any_eq_true.2
    have hkE : k < numEdgesN n := by
      by_contra hk
      push_neg at hk
      have hlt : g < 2 ^ k := lt_of_lt_of_le hg (Nat.pow_le_pow_right (by norm_num) hk)
      rw [Nat.testBit_lt_two_pow hlt] at htb
      exact Bool.false_ne_true htb
    have hpp := edgePairsL_getD_prop (n := n) hkE
    have hpk := edgeIdxL_getD (n := n) hkE
    have hmem : (edgePairsL n).getD k (0, 0) ∈ colPairsL n := mem_colPairsL.2 ⟨hpp.1, hpp.2⟩
    obtain ⟨t, ht, hgt⟩ := List.getElem_of_mem hmem
    refine ⟨(t, (edgePairsL n).getD k (0, 0)), ?_, ?_⟩
    · have he := List.getElem_enum (colPairsL n) t (by simpa using ht)
      rw [hgt] at he
      rw [← he]
      exact List.getElem_mem _
    · rw [Bool.and_eq_true]
      constructor
      · unfold g6guard
        rw [Bool.and_eq_true]
        constructor
        · apply decide_eq_true
          simp only [List.length_map]
          rw [hpadded, List.length_append]
          have := hblen
          omega
        · apply decide_eq_true
          rw [hval t ht, hgt, hpk, htb]
          simp
      · apply decide_eq_true
        exact hpk
  | false =>
    apply List.any_eq_false.2
    rintro ⟨t, p⟩ hx
    obtain ⟨ht, hp⟩ := List.mem_enum hx
    intro hcontra
    rw [Bool.and_eq_true] at hcontra
    obtain ⟨hguard, htarget⟩ := hcontra
    unfold g6guard at hguard
    rw [Bool.and_eq_true] at hguard
    obtain ⟨_, hval1⟩ := hguard
    have hval1' := of_decide_eq_true hval1
    rw [hval t ht] at hval1'
    have htarget' := of_decide_eq_true htarget
    simp only [g6target] at htarget'
    rw [hp] at htarget'
    split at hval1'
    · rename_i hbit
      rw [htarget'] at hbit
      rw [htb] at hbit
      exact Bool.false_ne_true hbit
    · exact absurd hval1' (by norm_num)

theorem parseGraph6_wrong_n {n : ℕ} {line : List ℕ}
    (hmis : ((trimSpaceL line).getD 0 0 : ℤ) - 63 ≠ (n : ℤ)) :
    parseGraph6 n line = 0 := by
  unfold parseGraph6
  split
  · rfl
  · rfl

theorem readBatchG6_skip {n : ℕ} {line : List ℕ}
    (h0 : parseGraph6 n line = 0) (pre post : List (List ℕ)) :
    readBatchG6 n (pre ++ line :: post) = readBatchG6 n (pre ++ post) := by
  unfold readBatchG6
  rw [List.foldl_append, List.foldl_append, List.foldl_cons, h0]
  simp

/-- Claim C6. Graph6 round-trip: for every edge bitmask over the C(n,2)
dense edge ids fixed by initEdges (any n the tools run with, in particular
every n below 63 so that the single-character header applies), decoding the
line produced by the encoder returns the graph itself. -/
theorem C6_graph6_roundtrip {n g : ℕ} (hn : n ≤ 62) (hg : g < 2 ^ numEdgesN n) :
    parseGraph6 n (toGraph6 n g) = g :=
  parseGraph6_toGraph6 hn hg

theorem C6_graph6_roundtrip_witness :
    5 ≤ 62 ∧ 11 < 2 ^ numEdgesN 5 ∧ parseGraph6 5 (toGraph6 5 11) = 11 :=
  ⟨by decide, by decide, C6_graph6_roundtrip (by decide) (by decide)⟩

/-- Claim C9. A graph6 line whose header byte encodes a vertex count other
than the run's n parses to the zero sentinel, and the reading loop neither
records a graph nor bumps its counter for it while the rest of the batch is
processed unchanged; no error is raised. -/
theorem C9_wrong_n_skipped (n : ℕ) (line : List ℕ)
    (hmis : ((trimSpaceL line).getD 0 0 : ℤ) - 63 ≠ (n : ℤ)) :
    parseGraph6 n line = 0 ∧
      ∀ pre post, readBatchG6 n (pre ++ line :: post) = readBatchG6 n (pre ++ post) :=
  ⟨parseGraph6_wrong_n hmis, fun pre post => readBatchG6_skip (parseGraph6_wrong_n hmis) pre post⟩

/-!
The n=13, k=3 arrangement solver (solver_13_3.go), embedded parametrically in
the item count m and the list of shape edge lists, exactly the two globals
that init() fixes to 13 and the four maximal penny graphs.  The atomic found
flag only lets other workers stop early; a single exhaustive run (the setting
of both claims about this solver) has it false throughout, so the embedding
is the flag-free search.
-/

/-- The neighbor lists built by init(): each edge appends its second endpoint
to the first endpoint's list and then its first to the second's. -/
def nbrsOf (es : List (ℕ × ℕ)) (v : ℕ) : List ℕ :=
  es.flatMap (fun e => (if e.1 = v then [e.2] else []) ++ (if e.2 = v then [e.1] else []))

/-- buildPairsTable as a lookup function: true exactly for the item pairs,
in either order, induced by laying the arrangement on the edge list. -/
def pairsTableF (es : List (ℕ × ℕ)) (arr : List ℕ) (a b : ℕ) : Bool :=
  es.any (fun e => (arr.getD e.1 0 == a && arr.getD e.2 0 == b)
    || (arr.getD e.1 0 == b && arr.getD e.2 0 == a))

/-- The needed-pairs table computed at an arr1 leaf: symmetric, false on the
diagonal and out of range, true on the pairs covered by neither prefix
table. -/
def neededF (m : ℕ) (p0 p1 : ℕ → ℕ → Bool) (a b : ℕ) : Bool :=
  decide (a ≠ b) && decide (a < m) && decide (b < m) && !p0 a b && !p1 a b

/-- The needed-pairs count: the loop over allPairs of solver_13_3.go, which
enumerates i lt j exactly as initEdges does. -/
def neededCountF (m : ℕ) (p0 p1 : ℕ → ℕ → Bool) : ℕ :=
  (edgePairsL m).countP (fun p => !p0 p.1 p.2 && !p1 p.1 p.2)

/-- The inner loop of searchArr2 over the neighbor list of the slot being
filled: count the earlier-slot edges whose item pair is still needed, and
break with the waste flag at the first one that is not.  The count on the
waste branch is never read by the caller, since the branch is pruned. -/
def scanNbrs (needed : ℕ → ℕ → Bool) (arr2 : List ℕ) (item : ℕ) : List ℕ → ℕ × Bool
  | [] => (0, false)
  | nPos :: rest =>
    if nPos < arr2.length then
      if needed item (arr2.getD nPos 0) then
        ((scanNbrs needed arr2 item rest).1 + 1, (scanNbrs needed arr2 item rest).2)
      else (0, true)
    else scanNbrs needed arr2 item rest

/-- The position-by-position backtrack of searchArr2.  The slot being filled
is the length of the partial arrangement; fuel counts the slots still open.
first success short-circuits the item loop, as the success flag does in Go. -/
def searchArr2Aux (m : ℕ) (nbrs : ℕ → List ℕ) (needed : ℕ → ℕ → Bool) (nc : ℕ) :
    ℕ → List ℕ → ℕ → Option (List ℕ)
  | 0, arr2, pc => if pc = nc then some arr2 else none
  | fuel + 1, arr2, pc =>
    (List.range m).findSome? (fun item =>
      if item ∈ arr2 then none
      else
        if (scanNbrs needed arr2 item (nbrs arr2.length)).2 then none
        else searchArr2Aux m nbrs needed nc fuel (arr2 ++ [item])
          (pc + (scanNbrs needed arr2 item (nbrs arr2.length)).1))

/-- searchArr2: fill all m slots from an empty arrangement and accept when
the covered count equals the needed count. -/
def searchArr2F (m : ℕ) (nbrs : ℕ → List ℕ) (needed : ℕ → ℕ → Bool) (nc : ℕ) :
    Option (List ℕ) :=
  searchArr2Aux m nbrs needed nc m [] 0

/-- The zero-overlap test of searchArr1Worker at one slot: some earlier
neighbor slot holds an item already paired with the candidate under arr0. -/
def hasOverlapF (p0 : ℕ → ℕ → Bool) (arr1 : List ℕ) (item : ℕ) : List ℕ → Bool
  | [] => false
  | nPos :: rest =>
    if nPos < arr1.length then
      p0 item (arr1.getD nPos 0) || hasOverlapF p0 arr1 item rest
    else hasOverlapF p0 arr1 item rest

/-- The leaf of searchArr1Worker: build the pairs table of arr1, the needed
table and count, then try each shape2 from shape1 upward. -/
def leafSolve (graphs : List (List (ℕ × ℕ))) (m : ℕ) (p0 : ℕ → ℕ → Bool) (s1 : ℕ)
    (arr1 : List ℕ) : Option (ℕ × List ℕ) :=
  (List.range' s1 (graphs.length - s1)).findSome? (fun s2 =>
    match searchArr2F m (nbrsOf (graphs.getD s2 []))
        (neededF m p0 (pairsTableF (graphs.getD s1 []) arr1))
        (neededCountF m p0 (pairsTableF (graphs.getD s1 []) arr1)) with
    | some arr2 => some (s2, arr2)
    | none => none)

/-- The backtrack over arr1 with the zero-overlap prune against arr0's
pairs; at a full arrangement the arr2 stage runs. -/
def searchArr1Aux (graphs : List (List (ℕ × ℕ))) (m : ℕ) (p0 : ℕ → ℕ → Bool) (s1 : ℕ)
    (nbrs1 : ℕ → List ℕ) : ℕ → List ℕ → Option (List ℕ × ℕ × List ℕ)
  | 0, arr1 =>
    (match leafSolve graphs m p0 s1 arr1 with
      | some r => some (arr1, r.1, r.2)
      | none => none)
  | fuel + 1, arr1 =>
    (List.range m).findSome? (fun item =>
      if item ∈ arr1 then none
      else
        if hasOverlapF p0 arr1 item (nbrs1 arr1.length) then none
        else searchArr1Aux graphs m p0 s1 nbrs1 fuel (arr1 ++ [item]))

/-- searchArr1Worker: position 0 is pinned to the worker's first item and the
backtrack starts at position 1. -/
def searchArr1WorkerF (graphs : List (List (ℕ × ℕ))) (m : ℕ) (s0 s1 firstItem : ℕ) :
    Option (List ℕ × ℕ × List ℕ) :=
  searchArr1Aux graphs m (pairsTableF (graphs.getD s0 []) (List.range m)) s1
    (nbrsOf (graphs.getD s1 [])) (m - 1) [firstItem]

/-- The full exhaustive run of main: shape0, then shape1 from shape0 upward,
then one worker per first item, first witness wins. -/
def fullSearchF (graphs : List (List (ℕ × ℕ))) (m : ℕ) :
    Option (ℕ × ℕ × List ℕ × ℕ × List ℕ) :=
  (List.range graphs.length).findSome? (fun s0 =>
    (List.range' s0 (graphs.length - s0)).findSome? (fun s1 =>
      (List.range m).findSome? (fun firstItem =>
        match searchArr1WorkerF graphs m s0 s1 firstItem with
        | some r => some (s0, s1, r.1, r.2.1, r.2.2)
        | none => none)))

/-- The four maximal penny graphs on 13 vertices, verbatim from
solver_13_3.go. -/
def allGraphs13 : List (List (ℕ × ℕ)) :=
  [[(2, 3), (1, 4), (0, 6), (5, 6), (3, 7), (5, 7),
    (2, 8), (4, 8), (0, 9), (1, 9), (6, 9), (1, 10),
    (4, 10), (8, 10), (9, 10), (5, 11), (6, 11), (7, 11),
    (9, 11), (10, 11), (2, 12), (3, 12), (7, 12), (8, 12),
    (10, 12), (11, 12)],
   [(1, 3), (2, 4), (0, 5), (0, 6), (5, 6), (3, 7),
    (6, 7), (4, 8), (5, 8), (1, 9), (2, 9), (5, 10),
    (6, 10), (7, 10), (8, 10), (1, 11), (3, 11), (7, 11),
    (9, 11), (10, 11), (2, 12), (4, 12), (8, 12), (9, 12),
    (10, 12), (11, 12)],
   [(0, 3), (1, 4), (3, 5), (4, 6), (2, 7), (5, 7),
    (2, 8), (6, 8), (0, 9), (1, 9), (0, 10), (3, 10),
    (5, 10), (7, 10), (9, 10), (1, 11), (4, 11), (6, 11),
    (8, 11), (9, 11), (2, 12), (7, 12), (8, 12), (9, 12),
    (10, 12), (11, 12)],
   [(0, 2), (1, 3), (1, 4), (0, 5), (2, 6), (4, 7),
    (3, 8), (6, 8), (5, 9), (7, 9), (0, 10), (2, 10),
    (5, 10), (6, 10), (9, 10), (1, 11), (3, 11), (4, 11),
    (7, 11), (8, 11), (6, 12), (7, 12), (8, 12), (9, 12),
    (10, 12), (11, 12)]]

/-- Coverage of every unordered item pair by the three pair tables: arr0 is
the identity on shape0, arr1 on shape1, arr2 on shape2. -/
def coversAllF (graphs : List (List (ℕ × ℕ))) (m : ℕ) (s0 s1 s2 : ℕ)
    (arr1 arr2 : List ℕ) : Prop :=
  ∀ a b : ℕ, a < b → b < m →
    (pairsTableF (graphs.getD s0 []) (List.range m) a b
      || pairsTableF (graphs.getD s1 []) arr1 a b
      || pairsTableF (graphs.getD s2 []) arr2 a b) = true

/-- Sorting a pair of items, the normal form used to compare induced pairs. -/
def sortPairP (a b : ℕ) : ℕ × ℕ := (min a b, max a b)

/-- The set of unordered item pairs induced by laying arr on the edge list. -/
def pairsFinsetF (es : List (ℕ × ℕ)) (arr : List ℕ) : Finset (ℕ × ℕ) :=
  (es.map (fun e => sortPairP (arr.getD e.1 0) (arr.getD e.2 0))).toFinset

/-- The set of all sorted item pairs on m items. -/
def allPairsFinset (m : ℕ) : Finset (ℕ × ℕ) := (edgePairsL m).toFinset

/-- Well-formedness of an edge list on m vertices, true of every shape the
solvers hardcode: endpoints ascending and below m. -/
def wfEdges (m : ℕ) (es : List (ℕ × ℕ)) : Prop := ∀ e ∈ es, e.1 < e.2 ∧ e.2 < m

instance (m : ℕ) (es : List (ℕ × ℕ)) : Decidable (wfEdges m es) := by
  unfold wfEdges
  infer_instance

/-- All edges of an arrangement land on still-needed pairs: the invariant the
waste prune of searchArr2 maintains along every surviving branch. -/
def noWasteP (m : ℕ) (nbrs : ℕ → List ℕ) (needed : ℕ → ℕ → Bool) (full : List ℕ) : Prop :=
  ∀ pos, pos < m → ∀ nPos ∈ nbrs pos, nPos < pos →
    needed (full.getD pos 0) (full.getD nPos 0) = true

/-- No edge of the arrangement lands on a pair already covered by arr0: the
invariant the overlap prune of searchArr1Worker maintains. -/
def noOverlapP (m : ℕ) (nbrs1 : ℕ → List ℕ) (p0 : ℕ → ℕ → Bool) (full : List ℕ) : Prop :=
  ∀ pos, pos < m → ∀ nPos ∈ nbrs1 pos, nPos < pos →
    p0 (full.getD pos 0) (full.getD nPos 0) = false

/-- The number of earlier-slot entries in one slot's neighbor list: what one
accepted step of searchArr2 adds to its covered count. -/
def validCountAt (nbrs : ℕ → List ℕ) (p : ℕ) : ℕ :=
  (nbrs p).countP (fun nPos => decide (nPos < p))

theorem getD_take_eq {l : List ℕ} {k i : ℕ} (h : i < k) :
    (l.take k).getD i 0 = l.getD i 0 := by
  by_cases hi : i < l.length
  · have h1 : i < (l.take k).length := by
      rw [List.length_take]
      omega
    rw [List.getD_eq_getElem _ _ h1, List.getD_eq_getElem _ _ hi]
    exact List.getElem_take _
  · push_neg at hi
    rw [List.getD_eq_default _ _ (by rw [List.length_take]; omega),
      List.getD_eq_default _ _ hi]

theorem take_succ_getD {l : List ℕ} {pos : ℕ} (h : pos < l.length) :
    l.take pos ++ [l.getD pos 0] = l.take (pos + 1) := by
  rw [List.take_succ, List.getD_eq_getElem _ _ h]
  congr 1
  rw [List.getElem?_eq_getElem h]
  rfl

theorem getD_notMem_take {l : List ℕ} {pos : ℕ} (hnd : l.Nodup) (h : pos < l.length) :
    l.getD pos 0 ∉ l.take pos := by
  intro hmem
  obtain ⟨q, hq, hql⟩ := List.getElem_of_mem hmem
  rw [List.length_take] at hq
  have hq2 : q < l.length := by omega
  have : l[q] = l.getD pos 0 := by
    rw [← hql]
    exact (List.getElem_take _).symm
  rw [List.getD_eq_getElem _ _ h] at this
  have := (List.Nodup.getElem_inj_iff hnd).1 this
  omega

theorem mem_nbrsOf {es : List (ℕ × ℕ)} {v x : ℕ} :
    x ∈ nbrsOf es v ↔ (v, x) ∈ es ∨ (x, v) ∈ es := by
  unfold nbrsOf
  rw [List.mem_flatMap]
  constructor
  · rintro ⟨e, he, hx⟩
    rcases List.mem_append.1 hx with hx | hx
    · split at hx
      · rename_i h1
        left
        rw [List.mem_singleton] at hx
        rw [← h1, hx, Prod.mk.eta]
        exact he
      · simp at hx
    · split at hx
      · rename_i h2
        right
        rw [List.mem_singleton] at hx
        rw [← h2, hx, Prod.mk.eta]
        exact he
      · simp at hx
  · rintro (h | h)
    · exact ⟨(v, x), h, by simp⟩
    · exact ⟨(x, v), h, by simp⟩

theorem scanNbrs_false_iff (needed : ℕ → ℕ → Bool) (pre : List ℕ) (item : ℕ) :
    ∀ nl : List ℕ, (scanNbrs needed pre item nl).2 = false ↔
      ∀ nPos ∈ nl, nPos < pre.length → needed item (pre.getD nPos 0) = true := by
  intro nl
  induction nl with
  | nil => simp [scanNbrs]
  | cons nPos rest ih =>
    unfold scanNbrs
    by_cases h1 : nPos < pre.length
    · rw [if_pos h1]
      by_cases h2 : needed item (pre.getD nPos 0) = true
      · rw [if_pos h2]
        simp only [ih]
        constructor
        · intro hall q hq hql
          rcases List.mem_cons.1 hq with rfl | hq2
          · exact h2
          · exact hall q hq2 hql
        · intro hall q hq hql
          exact hall q (List.mem_cons_of_mem _ hq) hql
      · rw [if_neg h2]
        simp only [show ((0, true) : ℕ × Bool).2 = true from rfl]
        constructor
        · intro h
          exact absurd h (by simp)
        · intro hall
          exact absurd (hall nPos (List.mem_cons_self _ _) h1) h2
    · rw [if_neg h1]
      rw [ih]
      constructor
      · intro hall q hq hql
        rcases List.mem_cons.1 hq with rfl | hq2
        · omega
        · exact hall q hq2 hql
      · intro hall q hq hql
        exact hall q (List.mem_cons_of_mem _ hq) hql

theorem scanNbrs_count (needed : ℕ → ℕ → Bool) (pre : List ℕ) (item : ℕ) :
    ∀ nl : List ℕ, (scanNbrs needed pre item nl).2 = false →
      (scanNbrs needed pre item nl).1 = nl.countP (fun nPos => decide (nPos < pre.length)) := by
  intro nl
  induction nl with
  | nil => intro _; simp [scanNbrs]
  | cons nPos rest ih =>
    intro hw
    unfold scanNbrs at hw ⊢
    by_cases h1 : nPos < pre.length
    · rw [if_pos h1] at hw ⊢
      by_cases h2 : needed item (pre.getD nPos 0) = true
      · rw [if_pos h2] at hw ⊢
        rw [List.countP_cons_of_pos _ _ (by simpa using h1)]
        rw [ih hw]
      · rw [if_neg h2] at hw
        exact absurd hw (by simp)
    · rw [if_neg h1] at hw ⊢
      rw [List.countP_cons_of_neg _ _ (by simpa using h1)]
      exact ih hw

theorem hasOverlapF_false_iff (p0 : ℕ → ℕ → Bool) (pre : List ℕ) (item : ℕ) :
    ∀ nl : List ℕ, hasOverlapF p0 pre item nl = false ↔
      ∀ nPos ∈ nl, nPos < pre.length → p0 item (pre.getD nPos 0) = false := by
  intro nl
  induction nl with
  | nil => simp [hasOverlapF]
  | cons nPos rest ih =>
    unfold hasOverlapF
    by_cases h1 : nPos < pre.length
    · rw [if_pos h1]
      rw [Bool.or_eq_false_iff, ih]
      constructor
      · rintro ⟨ha, hall⟩ q hq hql
        rcases List.mem_cons.1 hq with rfl | hq2
        · exact ha
        · exact hall q hq2 hql
      · intro hall
        exact ⟨hall nPos (List.mem_cons_self _ _) h1,
          fun q hq hql => hall q (List.mem_cons_of_mem _ hq) hql⟩
    · rw [if_neg h1, ih]
      constructor
      · intro hall q hq hql
        rcases List.mem_cons.1 hq with rfl | hq2
        · omega
        · exact hall q hq2 hql
      · intro hall q hq hql
        exact hall q (List.mem_cons_of_mem _ hq) hql

theorem validCountAt_total {m : ℕ} {es : List (ℕ × ℕ)} (hwf : wfEdges m es) :
    ∑ p ∈ Finset.range m, validCountAt (nbrsOf es) p = es.length := by
  induction es with
  | nil => simp [validCountAt, nbrsOf]
  | cons e es ih =>
    have hwf' : wfEdges m es := fun x hx => hwf x (List.mem_cons_of_mem _ hx)
    have he := hwf e (List.mem_cons_self _ _)
    have hsplit : ∀ p, validCountAt (nbrsOf (e :: es)) p
        = ((if e.1 = p then [e.2] else []) ++ (if e.2 = p then [e.1] else [])).countP
            (fun nPos => decide (nPos < p)) + validCountAt (nbrsOf es) p := by
      intro p
      unfold validCountAt nbrsOf
      rw [List.flatMap_cons, List.countP_append]
    rw [Finset.sum_congr rfl (fun p _ => hsplit p), Finset.sum_add_distrib, ih hwf']
    have hone : ∀ p ∈ Finset.range m,
        ((if e.1 = p then [e.2] else []) ++ (if e.2 = p then [e.1] else [])).countP
          (fun nPos => decide (nPos < p)) = if p = e.2 then 1 else 0 := by
      intro p _
      by_cases h2 : p = e.2
      · have hne1 : ¬ (e.1 = p) := by omega
        rw [if_neg hne1, if_pos h2.symm, if_pos h2]
        have h3 : e.1 < p := by omega
        simp [h3]
      · rw [if_neg h2]
        by_cases h1 : e.1 = p
        · rw [if_pos h1, if_neg (fun hc : e.2 = p => h2 hc.symm)]
          have h3 : ¬ (e.2 < p) := by omega
          simp [h3]
        · rw [if_neg h1, if_neg (fun hc : e.2 = p => h2 hc.symm)]
          simp
    rw [Finset.sum_congr rfl hone]
    rw [Finset.sum_ite_eq' (Finset.range m) e.2 (fun _ => 1)]
    rw [if_pos (Finset.mem_range.2 he.2)]
    simp [List.length_cons]
    omega

theorem pairsTableF_symm (es : List (ℕ × ℕ)) (arr : List ℕ) (a b : ℕ) :
    pairsTableF es arr a b = pairsTableF es arr b a := by
  unfold pairsTableF
  congr 1
  funext e
  exact Bool.or_comm _ _

theorem pairsTableF_iff_mem {es : List (ℕ × ℕ)} {arr : List ℕ} {a b : ℕ} (hab : a < b) :
    pairsTableF es arr a b = true ↔ (a, b) ∈ pairsFinsetF es arr := by
  unfold pairsTableF pairsFinsetF
  rw [List.any_eq_true, List.mem_toFinset, List.mem_map]
  constructor
  · rintro ⟨e, he, hcond⟩
    refine ⟨e, he, ?_⟩
    rw [Bool.or_eq_true, Bool.and_eq_true, Bool.and_eq_true] at hcond
    unfold sortPairP
    rcases hcond with ⟨h1, h2⟩ | ⟨h1, h2⟩
    · rw [beq_iff_eq] at h1 h2
      rw [h1, h2]
      rw [min_eq_left hab.le, max_eq_right hab.le]
    · rw [beq_iff_eq] at h1 h2
      rw [h1, h2]
      rw [min_eq_right hab.le, max_eq_left hab.le]
  · rintro ⟨e, he, hsort⟩
    refine ⟨e, he, ?_⟩
    unfold sortPairP at hsort
    rw [Bool.or_eq_true, Bool.and_eq_true, Bool.and_eq_true]
    have h1 := congrArg Prod.fst hsort
    have h2 := congrArg Prod.snd hsort
    simp only at h1 h2
    rcases le_total (arr.getD e.1 0) (arr.getD e.2 0) with hle | hle
    · left
      constructor
      · rw [beq_iff_eq]
        omega
      · rw [beq_iff_eq]
        omega
    · right
      constructor
      · rw [beq_iff_eq]
        omega
      · rw [beq_iff_eq]
        omega

theorem card_pairsFinsetF_le (es : List (ℕ × ℕ)) (arr : List ℕ) :
    (pairsFinsetF es arr).card ≤ es.length := by
  unfold pairsFinsetF
  calc (es.map (fun e => sortPairP (arr.getD e.1 0) (arr.getD e.2 0))).toFinset.card
      ≤ (es.map (fun e => sortPairP (arr.getD e.1 0) (arr.getD e.2 0))).length :=
        List.toFinset_card_le _
    _ = es.length := List.length_map _ _

theorem pairsFinsetF_subset {m : ℕ} {es : List (ℕ × ℕ)} {arr : List ℕ}
    (hwf : wfEdges m es) (harr : permListP m arr) :
    pairsFinsetF es arr ⊆ allPairsFinset m := by
  intro q hq
  unfold pairsFinsetF at hq
  rw [List.mem_toFinset, List.mem_map] at hq
  obtain ⟨e, he, rfl⟩ := hq
  have hew := hwf e he
  have hx := harr.getD_lt (i := e.1) (by omega)
  have hy := harr.getD_lt (i := e.2) (by omega)
  have hne : arr.getD e.1 0 ≠ arr.getD e.2 0 := by
    intro hc
    have := harr.getD_inj (i := e.1) (j := e.2) (by omega) (by omega) hc
    omega
  unfold allPairsFinset
  rw [List.mem_toFinset]
  apply mem_edgePairsL.2
  unfold sortPairP
  constructor
  · simp only
    omega
  · simp only
    omega

theorem card_allPairsFinset (m : ℕ) : (allPairsFinset m).card = numEdgesN m := by
  unfold allPairsFinset
  rw [List.toFinset_card_of_nodup (nodup_edgePairsL m), length_edgePairsL]

theorem mem_allPairsFinset {m : ℕ} {q : ℕ × ℕ} :
    q ∈ allPairsFinset m ↔ q.1 < q.2 ∧ q.2 < m := by
  unfold allPairsFinset
  rw [List.mem_toFinset]
  exact mem_edgePairsL

theorem card_pairsFinsetF_eq {m : ℕ} {es : List (ℕ × ℕ)} {arr : List ℕ}
    (hwf : wfEdges m es) (hnd : es.Nodup) (harr : permListP m arr) :
    (pairsFinsetF es arr).card = es.length := by
  unfold pairsFinsetF
  rw [List.toFinset_card_of_nodup, List.length_map]
  apply List.Nodup.map_on ?_ hnd
  intro e he e' he' heq
  have hew := hwf e he
  have hew' := hwf e' he'
  unfold sortPairP at heq
  have h1 := congrArg Prod.fst heq
  have h2 := congrArg Prod.snd heq
  simp only at h1 h2
  have hset : (arr.getD e.1 0 = arr.getD e'.1 0 ∧ arr.getD e.2 0 = arr.getD e'.2 0)
      ∨ (arr.getD e.1 0 = arr.getD e'.2 0 ∧ arr.getD e.2 0 = arr.getD e'.1 0) := by
    rcases le_total (arr.getD e.1 0) (arr.getD e.2 0) with hle | hle <;>
      rcases le_total (arr.getD e'.1 0) (arr.getD e'.2 0) with hle' | hle'
    · left; omega
    · right; omega
    · right; omega
    · left; omega
  rcases hset with ⟨ha, hb⟩ | ⟨ha, hb⟩
  · have he1 := harr.getD_inj (i := e.1) (j := e'.1) (by omega) (by omega) ha
    have he2 := harr.getD_inj (i := e.2) (j := e'.2) (by omega) (by omega) hb
    ext
    · exact he1
    · exact he2
  · have he1 := harr.getD_inj (i := e.1) (j := e'.2) (by omega) (by omega) ha
    have he2 := harr.getD_inj (i := e.2) (j := e'.1) (by omega) (by omega) hb
    omega

theorem getD_append_len {l : List ℕ} {a : ℕ} {d : ℕ} : (l ++ [a]).getD l.length d = a := by
  rw [List.getD_eq_getElem _ _ (by simp), List.getElem_append_right (le_refl _)]
  simp

theorem searchArr2Aux_sound (m : ℕ) (nbrs : ℕ → List ℕ) (needed : ℕ → ℕ → Bool) (nc : ℕ) :
    ∀ (fuel : ℕ) (pre : List ℕ) (pc : ℕ) (res : List ℕ),
      searchArr2Aux m nbrs needed nc fuel pre pc = some res →
      pre.length + fuel = m → pre.Nodup → (∀ x ∈ pre, x < m) →
      (∀ pos, pos < pre.length → ∀ nPos ∈ nbrs pos, nPos < pos →
        needed (pre.getD pos 0) (pre.getD nPos 0) = true) →
      pc = ∑ p ∈ Finset.range pre.length, validCountAt nbrs p →
      res.length = m ∧ res.Nodup ∧ (∀ x ∈ res, x < m) ∧ noWasteP m nbrs needed res
        ∧ ∑ p ∈ Finset.range m, validCountAt nbrs p = nc := by
  intro fuel
  induction fuel with
  | zero =>
    intro pre pc res hres hlen hnd hrng hnw hpc
    unfold searchArr2Aux at hres
    split at hres
    · rename_i hpcnc
      have hpre : pre = res := Option.some.inj hres
      subst hpre
      refine ⟨by omega, hnd, hrng, ?_, ?_⟩
      · intro pos hpos nPos hn hlt
        exact hnw pos (by omega) nPos hn hlt
      · rw [show m = pre.length from by omega, ← hpc]
        exact hpcnc
    · exact Option.noConfusion hres
  | succ fuel ih =>
    intro pre pc res hres hlen hnd hrng hnw hpc
    unfold searchArr2Aux at hres
    obtain ⟨l1, item, l2, hsplit, hbr, _⟩ := List.findSome?_eq_some_iff.1 hres
    have hmem : item ∈ List.range m := by
      rw [hsplit]
      exact List.mem_append_right _ (List.mem_cons_self _ _)
    have hitem : item < m := List.mem_range.1 hmem
    by_cases hin : item ∈ pre
    · rw [if_pos hin] at hbr
      exact Option.noConfusion hbr
    · rw [if_neg hin] at hbr
      by_cases hwaste : (scanNbrs needed pre item (nbrs pre.length)).2 = true
      · rw [if_pos hwaste] at hbr
        exact Option.noConfusion hbr
      · rw [Bool.not_eq_true] at hwaste
        rw [if_neg (by rw [hwaste]; exact Bool.false_ne_true)] at hbr
        have hscan := (scanNbrs_false_iff needed pre item (nbrs pre.length)).1 hwaste
        apply ih (pre ++ [item]) (pc + (scanNbrs needed pre item (nbrs pre.length)).1) res hbr
        · simp only [List.length_append, List.length_cons, List.length_nil]
          omega
        · rw [List.nodup_append]
          exact ⟨hnd, List.nodup_singleton _, by
            intro x hx hx2
            rw [List.mem_singleton] at hx2
            subst hx2
            exact hin hx⟩
        · intro x hx
          rcases List.mem_append.1 hx with hx | hx
          · exact hrng x hx
          · rw [List.mem_singleton] at hx
            subst hx
            exact hitem
        · intro pos hpos nPos hn hlt
          simp only [List.length_append, List.length_cons, List.length_nil] at hpos
          by_cases hplt : pos < pre.length
          · rw [List.getD_append _ _ _ _ (by omega), List.getD_append _ _ _ _ (by omega)]
            exact hnw pos hplt nPos hn hlt
          · have hpeq : pos = pre.length := by omega
            subst hpeq
            rw [getD_append_len, List.getD_append _ _ _ _ (by omega)]
            exact hscan nPos hn hlt
        · rw [List.length_append, List.length_cons, List.length_nil]
          rw [show pre.length + (0 + 1) = pre.length + 1 from by omega]
          rw [Finset.sum_range_succ, ← hpc]
          congr 1
          exact scanNbrs_count needed pre item (nbrs pre.length) hwaste

theorem searchArr2F_sound {m : ℕ} {nbrs : ℕ → List ℕ} {needed : ℕ → ℕ → Bool} {nc : ℕ}
    {res : List ℕ} (hres : searchArr2F m nbrs needed nc = some res) :
    permListP m res ∧ noWasteP m nbrs needed res
      ∧ ∑ p ∈ Finset.range m, validCountAt nbrs p = nc := by
  have := searchArr2Aux_sound m nbrs needed nc m [] 0 res hres (by simp) (List.nodup_nil)
    (by simp) (by simp) (by simp)
  exact ⟨⟨this.1, this.2.1, this.2.2.1⟩, this.2.2.2.1, this.2.2.2.2⟩

theorem searchArr2Aux_complete (m : ℕ) (nbrs : ℕ → List ℕ) (needed : ℕ → ℕ → Bool) (nc : ℕ)
    (full : List ℕ) (hlen : full.length = m) (hnd : full.Nodup) (hrng : ∀ x ∈ full, x < m)
    (hnw : noWasteP m nbrs needed full)
    (htot : ∑ p ∈ Finset.range m, validCountAt nbrs p = nc) :
    ∀ fuel, fuel ≤ m →
      searchArr2Aux m nbrs needed nc fuel (full.take (m - fuel))
        (∑ p ∈ Finset.range (m - fuel), validCountAt nbrs p) ≠ none := by
  intro fuel
  induction fuel with
  | zero =>
    intro _
    have htake : full.take (m - 0) = full := by
      rw [Nat.sub_zero, ← hlen]
      exact List.take_length full
    rw [htake]
    unfold searchArr2Aux
    rw [Nat.sub_zero, if_pos htot]
    simp
  | succ fuel ih =>
    intro hfm hnone
    have hpos : m - (fuel + 1) < m := by omega
    have hlt : (full.take (m - (fuel + 1))).length = m - (fuel + 1) := by
      rw [List.length_take]
      omega
    have hitem : full.getD (m - (fuel + 1)) 0 < m := by
      rw [List.getD_eq_getElem _ _ (by omega)]
      exact hrng _ (List.getElem_mem _)
    unfold searchArr2Aux at hnone
    have hall := List.findSome?_eq_none_iff.1 hnone _ (List.mem_range.2 hitem)
    rw [if_neg (getD_notMem_take hnd (by omega))] at hall
    have hscanF : (scanNbrs needed (full.take (m - (fuel + 1)))
        (full.getD (m - (fuel + 1)) 0) (nbrs (full.take (m - (fuel + 1))).length)).2 = false := by
      rw [hlt]
      apply (scanNbrs_false_iff _ _ _ _).2
      intro nPos hn hltn
      rw [hlt] at hltn
      rw [getD_take_eq hltn]
      exact hnw (m - (fuel + 1)) hpos nPos hn hltn
    rw [if_neg (by rw [hscanF]; exact Bool.false_ne_true)] at hall
    have hcount : (scanNbrs needed (full.take (m - (fuel + 1)))
        (full.getD (m - (fuel + 1)) 0) (nbrs (full.take (m - (fuel + 1))).length)).1
        = validCountAt nbrs (m - (fuel + 1)) := by
      rw [scanNbrs_count _ _ _ _ hscanF, hlt]
      rfl
    rw [hcount] at hall
    rw [take_succ_getD (by omega)] at hall
    rw [show m - (fuel + 1) + 1 = m - fuel from by omega] at hall
    rw [← Finset.sum_range_succ (validCountAt nbrs) (m - (fuel + 1))] at hall
    rw [show m - (fuel + 1) + 1 = m - fuel from by omega] at hall
    exact ih (by omega) hall

theorem searchArr1Aux_complete (graphs : List (List (ℕ × ℕ))) (m : ℕ) (p0 : ℕ → ℕ → Bool)
    (s1 : ℕ) (nbrs1 : ℕ → List ℕ) (full : List ℕ) (hlen : full.length = m)
    (hnd : full.Nodup) (hrng : ∀ x ∈ full, x < m) (hno : noOverlapP m nbrs1 p0 full)
    (hleaf : leafSolve graphs m p0 s1 full ≠ none) :
    ∀ fuel, fuel ≤ m → searchArr1Aux graphs m p0 s1 nbrs1 fuel (full.take (m - fuel)) ≠ none := by
  intro fuel
  induction fuel with
  | zero =>
    intro _
    have htake : full.take (m - 0) = full := by
      rw [Nat.sub_zero, ← hlen]
      exact List.take_length full
    rw [htake]
    unfold searchArr1Aux
    cases hls : leafSolve graphs m p0 s1 full with
    | none => exact absurd hls hleaf
    | some r => simp
  | succ fuel ih =>
    intro hfm hnone
    have hpos : m - (fuel + 1) < m := by omega
    have hlt : (full.take (m - (fuel + 1))).length = m - (fuel + 1) := by
      rw [List.length_take]
      omega
    have hitem : full.getD (m - (fuel + 1)) 0 < m := by
      rw [List.getD_eq_getElem _ _ (by omega)]
      exact hrng _ (List.getElem_mem _)
    unfold searchArr1Aux at hnone
    have hall := List.findSome?_eq_none_iff.1 hnone _ (List.mem_range.2 hitem)
    rw [if_neg (getD_notMem_take hnd (by omega))] at hall
    have hovF : hasOverlapF p0 (full.take (m - (fuel + 1))) (full.getD (m - (fuel + 1)) 0)
        (nbrs1 (full.take (m - (fuel + 1))).length) = false := by
      rw [hlt]
      apply (hasOverlapF_false_iff _ _ _ _).2
      intro nPos hn hltn
      rw [hlt] at hltn
      rw [getD_take_eq hltn]
      exact hno (m - (fuel + 1)) hpos nPos hn hltn
    rw [if_neg (by rw [hovF]; exact Bool.false_ne_true)] at hall
    rw [take_succ_getD (by omega)] at hall
    rw [show m - (fuel + 1) + 1 = m - fuel from by omega] at hall
    exact ih (by omega) hall

theorem leafSolve_some_elim {graphs : List (List (ℕ × ℕ))} {m : ℕ} {p0 : ℕ → ℕ → Bool}
    {s1 s2 : ℕ} {arr1 arr2 : List ℕ}
    (h : leafSolve graphs m p0 s1 arr1 = some (s2, arr2)) :
    s1 ≤ s2 ∧ s2 < graphs.length ∧
      searchArr2F m (nbrsOf (graphs.getD s2 []))
        (neededF m p0 (pairsTableF (graphs.getD s1 []) arr1))
        (neededCountF m p0 (pairsTableF (graphs.getD s1 []) arr1)) = some arr2 := by
  unfold leafSolve at h
  obtain ⟨l1, s2', l2, hsplit, hbr, _⟩ := List.findSome?_eq_some_iff.1 h
  have hmem : s2' ∈ List.range' s1 (graphs.length - s1) := by
    rw [hsplit]
    exact List.mem_append_right _ (List.mem_cons_self _ _)
  rw [List.mem_range'] at hmem
  obtain ⟨i, hi, rfl⟩ := hmem
  cases hsr : searchArr2F m (nbrsOf (graphs.getD (s1 + 1 * i) []))
      (neededF m p0 (pairsTableF (graphs.getD s1 []) arr1))
      (neededCountF m p0 (pairsTableF (graphs.getD s1 []) arr1)) with
  | none => rw [hsr] at hbr; exact Option.noConfusion hbr
  | some a2 =>
    rw [hsr] at hbr
    have h1 := Option.some.inj hbr
    have hs2 : s1 + 1 * i = s2 := congrArg Prod.fst h1
    have ha2 : a2 = arr2 := congrArg Prod.snd h1
    subst ha2
    rw [hs2] at hsr
    exact ⟨by omega, by omega, hsr⟩

theorem getD_mem_of_lt {graphs : List (List (ℕ × ℕ))} {s : ℕ} (h : s < graphs.length) :
    graphs.getD s [] ∈ graphs := by
  rw [List.getD_eq_getElem _ _ h]
  exact List.getElem_mem _

theorem neededF_comm {m : ℕ} {p0 p1 : ℕ → ℕ → Bool} (h0 : ∀ a b, p0 a b = p0 b a)
    (h1 : ∀ a b, p1 a b = p1 b a) (a b : ℕ) :
    neededF m p0 p1 a b = neededF m p0 p1 b a := by
  unfold neededF
  rw [h0 a b, h1 a b]
  by_cases hab : a = b
  · subst hab
    rfl
  · have hba : ¬ b = a := fun h => hab h.symm
    simp only [ne_eq, hab, hba, not_false_eq_true, decide_True, Bool.true_and]
    cases decide (a < m) <;> cases decide (b < m) <;> simp

/-- The count computed at an arr1 leaf is the size of the set of sorted pairs
covered by neither prefix table. -/
theorem neededCountF_card {m : ℕ} {p0 p1 : ℕ → ℕ → Bool} :
    neededCountF m p0 p1
      = ((allPairsFinset m).filter (fun q => (!p0 q.1 q.2 && !p1 q.1 q.2) = true)).card := by
  unfold neededCountF allPairsFinset
  rw [List.countP_eq_length_filter]
  rw [← List.toFinset_card_of_nodup (List.Nodup.filter _ (nodup_edgePairsL m))]
  rw [List.toFinset_filter]

/-- Claim C1.  Witness soundness of the arrangement search: whenever the
arr1-leaf stage of searchArr1Worker succeeds — searchArr2 finds an arr2 with
the accept condition, which is exactly when the Solution (identity, arr1,
arr2) is sent on resultChan — the pair sets of shape0 under the identity,
shape1 under arr1 and shape2 under arr2 together cover every unordered item
pair.  Stated for any item count and well-formed shape list, hence in
particular for numItems = 13 and the four hardcoded graphs of solver_13_3.go,
where every pair of the 78 is covered. -/
theorem C1_witness_soundness (graphs : List (List (ℕ × ℕ))) (m s0 s1 s2 : ℕ)
    (arr1 arr2 : List ℕ) (hwf : ∀ es ∈ graphs, wfEdges m es)
    (hndal : ∀ es ∈ graphs, es.Nodup) (harr1 : permListP m arr1)
    (hsol : leafSolve graphs m (pairsTableF (graphs.getD s0 []) (List.range m)) s1 arr1
      = some (s2, arr2)) :
    coversAllF graphs m s0 s1 s2 arr1 arr2 := by
  obtain ⟨hs12, hs2len, hsr2⟩ := leafSolve_some_elim hsol
  have hes2mem := getD_mem_of_lt hs2len
  have hwf2 := hwf _ hes2mem
  have hnd2 := hndal _ hes2mem
  obtain ⟨hperm2, hnw, htot⟩ := searchArr2F_sound hsr2
  have hE2 : ∑ p ∈ Finset.range m, validCountAt (nbrsOf (graphs.getD s2 [])) p
      = (graphs.getD s2 []).length := validCountAt_total hwf2
  -- the accepted count pins the needed count to the number of edges of shape2
  have hnc : neededCountF m (pairsTableF (graphs.getD s0 []) (List.range m))
      (pairsTableF (graphs.getD s1 []) arr1) = (graphs.getD s2 []).length := by
    rw [← htot, hE2]
  have hsym : ∀ a b, neededF m (pairsTableF (graphs.getD s0 []) (List.range m))
      (pairsTableF (graphs.getD s1 []) arr1) a b
      = neededF m (pairsTableF (graphs.getD s0 []) (List.range m))
        (pairsTableF (graphs.getD s1 []) arr1) b a :=
    neededF_comm (pairsTableF_symm _ _) (pairsTableF_symm _ _)
  -- the pairs of arr2 on shape2 form a subset of the needed set
  have hsubset : pairsFinsetF (graphs.getD s2 []) arr2
      ⊆ (allPairsFinset m).filter
        (fun q => (!pairsTableF (graphs.getD s0 []) (List.range m) q.1 q.2
          && !pairsTableF (graphs.getD s1 []) arr1 q.1 q.2) = true) := by
    intro q hq
    have hqall : q ∈ allPairsFinset m := pairsFinsetF_subset hwf2 hperm2 hq
    have hqlt := mem_allPairsFinset.1 hqall
    unfold pairsFinsetF at hq
    rw [List.mem_toFinset, List.mem_map] at hq
    obtain ⟨e, he, rfl⟩ := hq
    have hew := hwf2 e he
    have hentry : e.1 ∈ nbrsOf (graphs.getD s2 []) e.2 := by
      apply mem_nbrsOf.2
      right
      rw [Prod.mk.eta]
      exact he
    have hneed := hnw e.2 hew.2 e.1 hentry hew.1
    rw [Finset.mem_filter]
    refine ⟨hqall, ?_⟩
    -- convert needed at the placed items to needed at the sorted pair
    have hsorted : neededF m (pairsTableF (graphs.getD s0 []) (List.range m))
        (pairsTableF (graphs.getD s1 []) arr1)
        (sortPairP (arr2.getD e.1 0) (arr2.getD e.2 0)).1
        (sortPairP (arr2.getD e.1 0) (arr2.getD e.2 0)).2 = true := by
      unfold sortPairP
      rcases le_total (arr2.getD e.1 0) (arr2.getD e.2 0) with hle | hle
      · rw [min_eq_left hle, max_eq_right hle]
        rw [hsym]
        exact hneed
      · rw [min_eq_right hle, max_eq_left hle]
        exact hneed
    unfold neededF at hsorted
    rw [Bool.and_eq_true, Bool.and_eq_true, Bool.and_eq_true, Bool.and_eq_true] at hsorted
    rw [Bool.and_eq_true]
    exact ⟨hsorted.1.2, hsorted.2⟩
  have hcard2 : (pairsFinsetF (graphs.getD s2 []) arr2).card = (graphs.getD s2 []).length :=
    card_pairsFinsetF_eq hwf2 hnd2 hperm2
  have hcovered : (allPairsFinset m).filter
      (fun q => (!pairsTableF (graphs.getD s0 []) (List.range m) q.1 q.2
        && !pairsTableF (graphs.getD s1 []) arr1 q.1 q.2) = true)
      = pairsFinsetF (graphs.getD s2 []) arr2 := by
    apply (Finset.eq_of_subset_of_card_le hsubset ?_).symm
    rw [hcard2, ← neededCountF_card, hnc]
  intro a b hab hbm
  by_cases h0 : pairsTableF (graphs.getD s0 []) (List.range m) a b = true
  · rw [h0]
    rfl
  · by_cases h1 : pairsTableF (graphs.getD s1 []) arr1 a b = true
    · rw [h1]
      simp
    · have hmemall : (a, b) ∈ allPairsFinset m := mem_allPairsFinset.2 ⟨hab, hbm⟩
      have hmemneed : (a, b) ∈ (allPairsFinset m).filter
          (fun q => (!pairsTableF (graphs.getD s0 []) (List.range m) q.1 q.2
            && !pairsTableF (graphs.getD s1 []) arr1 q.1 q.2) = true) := by
        rw [Finset.mem_filter]
        refine ⟨hmemall, ?_⟩
        rw [Bool.and_eq_true, Bool.not_eq_true', Bool.not_eq_true']
        exact ⟨Bool.not_eq_true _ ▸ h0, Bool.not_eq_true _ ▸ h1⟩
      rw [hcovered] at hmemneed
      have h2 := (pairsTableF_iff_mem hab).2 hmemneed
      rw [h2]
      simp

theorem C1_witness_soundness_witness :
    (∀ es ∈ [[(0, 1)], [(0, 1)], [(0, 1)]], wfEdges 3 es) ∧
      (∀ es ∈ [[(0, 1)], [(0, 1)], [(0, 1)]], es.Nodup) ∧ permListP 3 [0, 2, 1] ∧
      leafSolve [[(0, 1)], [(0, 1)], [(0, 1)]] 3
        (pairsTableF ([[(0, 1)], [(0, 1)], [(0, 1)]].getD 0 []) (List.range 3)) 1 [0, 2, 1]
        = some (1, [1, 2, 0]) ∧
      coversAllF [[(0, 1)], [(0, 1)], [(0, 1)]] 3 0 1 1 [0, 2, 1] [1, 2, 0] :=
  ⟨by decide, by decide, by decide, by decide,
    C1_witness_soundness [[(0, 1)], [(0, 1)], [(0, 1)]] 3 0 1 1 [0, 2, 1] [1, 2, 0]
      (by decide) (by decide) (by decide) (by decide)⟩

theorem sortPairP_comm (a b : ℕ) : sortPairP a b = sortPairP b a := by
  unfold sortPairP
  rw [min_comm, max_comm]

theorem sortPairP_eq_of_lt {a b : ℕ} (h : a < b) : sortPairP a b = (a, b) := by
  unfold sortPairP
  rw [min_eq_left h.le, max_eq_right h.le]

theorem sortPair_mem_pairsFinsetF {es : List (ℕ × ℕ)} {arr : List ℕ} {pos nPos : ℕ}
    (h : (pos, nPos) ∈ es ∨ (nPos, pos) ∈ es) :
    sortPairP (arr.getD pos 0) (arr.getD nPos 0) ∈ pairsFinsetF es arr := by
  unfold pairsFinsetF
  rw [List.mem_toFinset, List.mem_map]
  rcases h with h | h
  · exact ⟨(pos, nPos), h, rfl⟩
  · exact ⟨(nPos, pos), h, (sortPairP_comm _ _).symm⟩

theorem pairsTableF_false_iff {es : List (ℕ × ℕ)} {arr : List ℕ} {a b : ℕ} (hab : a ≠ b) :
    pairsTableF es arr a b = false ↔ sortPairP a b ∉ pairsFinsetF es arr := by
  rcases Nat.lt_or_ge a b with h | h
  · rw [sortPairP_eq_of_lt h]
    rw [← Bool.not_eq_true, pairsTableF_iff_mem h]
  · have h' : b < a := by omega
    rw [sortPairP_comm, sortPairP_eq_of_lt h']
    rw [pairsTableF_symm, ← Bool.not_eq_true, pairsTableF_iff_mem h']

theorem covers_union_eq {graphs : List (List (ℕ × ℕ))} {m s0 s1 s2 : ℕ}
    {arr1 arr2 : List ℕ} (hwf : ∀ es ∈ graphs, wfEdges m es)
    (hs0 : s0 < graphs.length) (hs1 : s1 < graphs.length) (hs2 : s2 < graphs.length)
    (hp1 : permListP m arr1) (hp2 : permListP m arr2)
    (hcov : coversAllF graphs m s0 s1 s2 arr1 arr2) :
    pairsFinsetF (graphs.getD s0 []) (List.range m) ∪ pairsFinsetF (graphs.getD s1 []) arr1
      ∪ pairsFinsetF (graphs.getD s2 []) arr2 = allPairsFinset m := by
  apply Finset.Subset.antisymm
  · intro q hq
    rcases Finset.mem_union.1 hq with hq | hq
    · rcases Finset.mem_union.1 hq with hq | hq
      · exact pairsFinsetF_subset (hwf _ (getD_mem_of_lt hs0)) (permListP_range m) hq
      · exact pairsFinsetF_subset (hwf _ (getD_mem_of_lt hs1)) hp1 hq
    · exact pairsFinsetF_subset (hwf _ (getD_mem_of_lt hs2)) hp2 hq
  · intro q hq
    have hql := mem_allPairsFinset.1 hq
    have hq2 := hcov q.1 q.2 hql.1 hql.2
    rw [Bool.or_eq_true, Bool.or_eq_true] at hq2
    rw [Finset.mem_union, Finset.mem_union]
    rcases hq2 with (h | h) | h
    · exact Or.inl (Or.inl (by rw [← Prod.mk.eta (p := q)]; exact (pairsTableF_iff_mem hql.1).1 h))
    · exact Or.inl (Or.inr (by rw [← Prod.mk.eta (p := q)]; exact (pairsTableF_iff_mem hql.1).1 h))
    · exact Or.inr (by rw [← Prod.mk.eta (p := q)]; exact (pairsTableF_iff_mem hql.1).1 h)

theorem covers_disjoint {graphs : List (List (ℕ × ℕ))} {m E s0 s1 s2 : ℕ}
    {arr1 arr2 : List ℕ} (hwf : ∀ es ∈ graphs, wfEdges m es)
    (hE : ∀ es ∈ graphs, es.length = E) (h3 : 3 * E = numEdgesN m)
    (hs0 : s0 < graphs.length) (hs1 : s1 < graphs.length) (hs2 : s2 < graphs.length)
    (hp1 : permListP m arr1) (hp2 : permListP m arr2)
    (hcov : coversAllF graphs m s0 s1 s2 arr1 arr2) :
    pairsFinsetF (graphs.getD s0 []) (List.range m) ∩ pairsFinsetF (graphs.getD s1 []) arr1 = ∅
    ∧ (pairsFinsetF (graphs.getD s0 []) (List.range m) ∪ pairsFinsetF (graphs.getD s1 []) arr1)
        ∩ pairsFinsetF (graphs.getD s2 []) arr2 = ∅
    ∧ (pairsFinsetF (graphs.getD s0 []) (List.range m)
        ∪ pairsFinsetF (graphs.getD s1 []) arr1).card = E + E := by
  have hunion := covers_union_eq hwf hs0 hs1 hs2 hp1 hp2 hcov
  have hc0 : (pairsFinsetF (graphs.getD s0 []) (List.range m)).card ≤ E := by
    rw [← hE _ (getD_mem_of_lt hs0)]
    exact card_pairsFinsetF_le _ _
  have hc1 : (pairsFinsetF (graphs.getD s1 []) arr1).card ≤ E := by
    rw [← hE _ (getD_mem_of_lt hs1)]
    exact card_pairsFinsetF_le _ _
  have hc2 : (pairsFinsetF (graphs.getD s2 []) arr2).card ≤ E := by
    rw [← hE _ (getD_mem_of_lt hs2)]
    exact card_pairsFinsetF_le _ _
  have hw : (pairsFinsetF (graphs.getD s0 []) (List.range m)
      ∪ pairsFinsetF (graphs.getD s1 []) arr1
      ∪ pairsFinsetF (graphs.getD s2 []) arr2).card = 3 * E := by
    rw [hunion, card_allPairsFinset, ← h3]
  have hk1 := Finset.card_inter_add_card_union
    (pairsFinsetF (graphs.getD s0 []) (List.range m)) (pairsFinsetF (graphs.getD s1 []) arr1)
  have hk2 := Finset.card_inter_add_card_union
    (pairsFinsetF (graphs.getD s0 []) (List.range m) ∪ pairsFinsetF (graphs.getD s1 []) arr1)
    (pairsFinsetF (graphs.getD s2 []) arr2)
  refine ⟨Finset.card_eq_zero.1 (by omega), Finset.card_eq_zero.1 (by omega), by omega⟩

theorem noOverlap_of_disjoint {m : ℕ} {es0 es1 : List (ℕ × ℕ)} {arr1 : List ℕ}
    (hp1 : permListP m arr1)
    (hdisj : pairsFinsetF es0 (List.range m) ∩ pairsFinsetF es1 arr1 = ∅) :
    noOverlapP m (nbrsOf es1) (pairsTableF es0 (List.range m)) arr1 := by
  intro pos hpos nPos hn hlt
  have hedge := mem_nbrsOf.1 hn
  have hmem1 : sortPairP (arr1.getD pos 0) (arr1.getD nPos 0) ∈ pairsFinsetF es1 arr1 :=
    sortPair_mem_pairsFinsetF hedge
  have hne : arr1.getD pos 0 ≠ arr1.getD nPos 0 := by
    intro hc
    have := hp1.getD_inj (i := pos) (j := nPos) hpos (by omega) hc
    omega
  rw [pairsTableF_false_iff hne]
  intro hmem0
  have : sortPairP (arr1.getD pos 0) (arr1.getD nPos 0)
      ∈ pairsFinsetF es0 (List.range m) ∩ pairsFinsetF es1 arr1 :=
    Finset.mem_inter.2 ⟨hmem0, hmem1⟩
  rw [hdisj] at this
  exact absurd this (Finset.not_mem_empty _)

theorem noWaste_of_exact {m : ℕ} {es0 es1 es2 : List (ℕ × ℕ)} {arr1 arr2 : List ℕ}
    (hp2 : permListP m arr2)
    (hd : (pairsFinsetF es0 (List.range m) ∪ pairsFinsetF es1 arr1)
      ∩ pairsFinsetF es2 arr2 = ∅) :
    noWasteP m (nbrsOf es2)
      (neededF m (pairsTableF es0 (List.range m)) (pairsTableF es1 arr1)) arr2 := by
  intro pos hpos nPos hn hlt
  have hedge := mem_nbrsOf.1 hn
  have hmem2 : sortPairP (arr2.getD pos 0) (arr2.getD nPos 0) ∈ pairsFinsetF es2 arr2 :=
    sortPair_mem_pairsFinsetF hedge
  have hne : arr2.getD pos 0 ≠ arr2.getD nPos 0 := by
    intro hc
    have := hp2.getD_inj (i := pos) (j := nPos) hpos (by omega) hc
    omega
  have hnot : sortPairP (arr2.getD pos 0) (arr2.getD nPos 0)
      ∉ pairsFinsetF es0 (List.range m) ∪ pairsFinsetF es1 arr1 := by
    intro hmem01
    have : sortPairP (arr2.getD pos 0) (arr2.getD nPos 0)
        ∈ (pairsFinsetF es0 (List.range m) ∪ pairsFinsetF es1 arr1)
          ∩ pairsFinsetF es2 arr2 := Finset.mem_inter.2 ⟨hmem01, hmem2⟩
    rw [hd] at this
    exact absurd this (Finset.not_mem_empty _)
  have h0 : pairsTableF es0 (List.range m) (arr2.getD pos 0) (arr2.getD nPos 0) = false := by
    rw [pairsTableF_false_iff hne]
    intro hc
    exact hnot (Finset.mem_union_left _ hc)
  have h1 : pairsTableF es1 arr1 (arr2.getD pos 0) (arr2.getD nPos 0) = false := by
    rw [pairsTableF_false_iff hne]
    intro hc
    exact hnot (Finset.mem_union_right _ hc)
  unfold neededF
  rw [h0, h1]
  have hb1 : arr2.getD pos 0 < m := hp2.getD_lt hpos
  have hb2 : arr2.getD nPos 0 < m := hp2.getD_lt (by omega)
  simp only [ne_eq, hne, not_false_eq_true, decide_True, Bool.true_and, hb1, hb2,
    Bool.not_false, Bool.and_true, decide_eq_true_eq]

theorem neededCountF_of_exact {m E : ℕ} {es0 es1 : List (ℕ × ℕ)} {arr1 : List ℕ}
    (h3 : 3 * E = numEdgesN m)
    (hsub0 : pairsFinsetF es0 (List.range m) ⊆ allPairsFinset m)
    (hsub1 : pairsFinsetF es1 arr1 ⊆ allPairsFinset m)
    (hcardU : (pairsFinsetF es0 (List.range m) ∪ pairsFinsetF es1 arr1).card = E + E) :
    neededCountF m (pairsTableF es0 (List.range m)) (pairsTableF es1 arr1) = E := by
  rw [neededCountF_card]
  have hset : (allPairsFinset m).filter
      (fun q => (!pairsTableF es0 (List.range m) q.1 q.2 && !pairsTableF es1 arr1 q.1 q.2) = true)
      = allPairsFinset m \ (pairsFinsetF es0 (List.range m) ∪ pairsFinsetF es1 arr1) := by
    ext q
    rw [Finset.mem_filter, Finset.mem_sdiff, Finset.mem_union]
    constructor
    · rintro ⟨hq, hcond⟩
      have hql := mem_allPairsFinset.1 hq
      have hne : q.1 ≠ q.2 := by omega
      rw [Bool.and_eq_true, Bool.not_eq_true', Bool.not_eq_true'] at hcond
      have h0 := (pairsTableF_false_iff hne).1 hcond.1
      have h1 := (pairsTableF_false_iff hne).1 hcond.2
      rw [sortPairP_eq_of_lt hql.1, Prod.mk.eta] at h0 h1
      refine ⟨hq, ?_⟩
      push_neg
      exact ⟨h0, h1⟩
    · rintro ⟨hq, hnmem⟩
      have hql := mem_allPairsFinset.1 hq
      have hne : q.1 ≠ q.2 := by omega
      push_neg at hnmem
      refine ⟨hq, ?_⟩
      rw [Bool.and_eq_true, Bool.not_eq_true', Bool.not_eq_true']
      constructor
      · rw [pairsTableF_false_iff hne, sortPairP_eq_of_lt hql.1, Prod.mk.eta]
        exact hnmem.1
      · rw [pairsTableF_false_iff hne, sortPairP_eq_of_lt hql.1, Prod.mk.eta]
        exact hnmem.2
  rw [hset, Finset.card_sdiff (Finset.union_subset hsub0 hsub1), card_allPairsFinset, hcardU]
  omega

/-- Claim C2.  Completeness of the pruned search: when the full run — every
shape pair with shape0 at most shape1, one worker per first item, backtracking
over arr1 with the zero-overlap prune and over arr2 with the zero-waste prune,
shape2 from shape1 upward — exhausts every branch without reporting a
solution, then no completion of arr0 = identity by permutations (arr1, arr2)
on any symmetry-ordered shape triple covers all pairs.  The hypothesis that
each shape has E edges with 3E equal to the number of pairs is what makes the
prunes lossless, exactly as 3 times 26 equals 78 for numItems 13; the theorem
is stated for any such instance and applies verbatim to the hardcoded
allGraphs13. -/
theorem C2_unsat_completeness (graphs : List (List (ℕ × ℕ))) (m E s0 s1 s2 : ℕ)
    (arr1 arr2 : List ℕ) (hm : 1 ≤ m) (hwf : ∀ es ∈ graphs, wfEdges m es)
    (hE : ∀ es ∈ graphs, es.length = E) (h3 : 3 * E = numEdgesN m)
    (hs01 : s0 ≤ s1) (hs12 : s1 ≤ s2) (hs2 : s2 < graphs.length)
    (hp1 : permListP m arr1) (hp2 : permListP m arr2)
    (hsearch : fullSearchF graphs m = none) :
    ¬ coversAllF graphs m s0 s1 s2 arr1 arr2 := by
  intro hcov
  have hs0len : s0 < graphs.length := by omega
  have hs1len : s1 < graphs.length := by omega
  obtain ⟨hd01, hd012, hcardU⟩ :=
    covers_disjoint hwf hE h3 hs0len hs1len hs2 hp1 hp2 hcov
  have hwf2 := hwf _ (getD_mem_of_lt hs2)
  have hnc : neededCountF m (pairsTableF (graphs.getD s0 []) (List.range m))
      (pairsTableF (graphs.getD s1 []) arr1) = E :=
    neededCountF_of_exact h3
      (pairsFinsetF_subset (hwf _ (getD_mem_of_lt hs0len)) (permListP_range m))
      (pairsFinsetF_subset (hwf _ (getD_mem_of_lt hs1len)) hp1) hcardU
  have htotE : ∑ p ∈ Finset.range m, validCountAt (nbrsOf (graphs.getD s2 [])) p
      = neededCountF m (pairsTableF (graphs.getD s0 []) (List.range m))
        (pairsTableF (graphs.getD s1 []) arr1) := by
    rw [validCountAt_total hwf2, hE _ (getD_mem_of_lt hs2), hnc]
  have hnwaste := noWaste_of_exact hp2 hd012
  have hnov := noOverlap_of_disjoint hp1 hd01
  -- the arr2 stage succeeds on shape2
  have h2ne : searchArr2F m (nbrsOf (graphs.getD s2 []))
      (neededF m (pairsTableF (graphs.getD s0 []) (List.range m))
        (pairsTableF (graphs.getD s1 []) arr1))
      (neededCountF m (pairsTableF (graphs.getD s0 []) (List.range m))
        (pairsTableF (graphs.getD s1 []) arr1)) ≠ none := by
    have hc := searchArr2Aux_complete m (nbrsOf (graphs.getD s2 []))
      (neededF m (pairsTableF (graphs.getD s0 []) (List.range m))
        (pairsTableF (graphs.getD s1 []) arr1))
      (neededCountF m (pairsTableF (graphs.getD s0 []) (List.range m))
        (pairsTableF (graphs.getD s1 []) arr1)) arr2 hp2.1 hp2.2.1 hp2.2.2 hnwaste htotE
      m le_rfl
    rw [Nat.sub_self, List.take_zero, Finset.sum_range_zero] at hc
    exact hc
  -- hence the arr1 leaf succeeds
  have hleaf : leafSolve graphs m (pairsTableF (graphs.getD s0 []) (List.range m)) s1 arr1
      ≠ none := by
    intro hn
    have hmem : s2 ∈ List.range' s1 (graphs.length - s1) := by
      rw [List.mem_range']
      exact ⟨s2 - s1, by omega, by omega⟩
    have hall := List.findSome?_eq_none_iff.1 hn s2 hmem
    cases hs : searchArr2F m (nbrsOf (graphs.getD s2 []))
        (neededF m (pairsTableF (graphs.getD s0 []) (List.range m))
          (pairsTableF (graphs.getD s1 []) arr1))
        (neededCountF m (pairsTableF (graphs.getD s0 []) (List.range m))
          (pairsTableF (graphs.getD s1 []) arr1)) with
    | none => exact h2ne hs
    | some a2 =>
      rw [hs] at hall
      exact Option.noConfusion hall
  -- hence the worker for the first item of arr1 succeeds
  have hfi : arr1.getD 0 0 < m := hp1.getD_lt (by omega)
  have hworker : searchArr1WorkerF graphs m s0 s1 (arr1.getD 0 0) ≠ none := by
    unfold searchArr1WorkerF
    have hcomp := searchArr1Aux_complete graphs m
      (pairsTableF (graphs.getD s0 []) (List.range m)) s1 (nbrsOf (graphs.getD s1 []))
      arr1 hp1.1 hp1.2.1 hp1.2.2 hnov hleaf (m - 1) (by omega)
    rw [show m - (m - 1) = 1 from by omega] at hcomp
    have htake1 : arr1.take 1 = [arr1.getD 0 0] := by
      cases arr1 with
      | nil =>
        have := hp1.1
        simp at this
        omega
      | cons a t => rfl
    rw [htake1] at hcomp
    exact hcomp
  -- contradict the exhausted run
  have h0 := List.findSome?_eq_none_iff.1 hsearch s0 (List.mem_range.2 hs0len)
  have h1 := List.findSome?_eq_none_iff.1 h0 s1
    (by rw [List.mem_range']; exact ⟨s1 - s0, by omega, by omega⟩)
  have h2 := List.findSome?_eq_none_iff.1 h1 (arr1.getD 0 0) (List.mem_range.2 hfi)
  cases hw : searchArr1WorkerF graphs m s0 s1 (arr1.getD 0 0) with
  | none => exact hworker hw
  | some r =>
    rw [hw] at h2
    exact Option.noConfusion h2

theorem C2_unsat_completeness_witness :
    fullSearchF [[(0, 1), (0, 1)]] 4 = none ∧ (∀ es ∈ [[(0, 1), (0, 1)]], wfEdges 4 es) ∧
      3 * 2 = numEdgesN 4 ∧
      ¬ coversAllF [[(0, 1), (0, 1)]] 4 0 0 0 [0, 2, 1, 3] [1, 3, 0, 2] :=
  ⟨by decide, by decide, by decide,
    C2_unsat_completeness [[(0, 1), (0, 1)]] 4 2 0 0 0 [0, 2, 1, 3] [1, 3, 0, 2]
      (by decide) (by decide) (by decide) (by decide) (by decide) (by decide) (by decide)
      (by decide) (by decide) (by decide)⟩

theorem C9_wrong_n_skipped_witness :
    (((trimSpaceL [65]).getD 0 0 : ℤ) - 63 ≠ (3 : ℤ)) ∧
      (parseGraph6 3 [65] = 0 ∧ readBatchG6 3 ([[66, 63]] ++ [65] :: [[66, 63]])
        = readBatchG6 3 ([[66, 63]] ++ [[66, 63]])) :=
  ⟨by decide, (C9_wrong_n_skipped 3 [65] (by decide)).1,
    (C9_wrong_n_skipped 3 [65] (by decide)).2 [[66, 63]] [[66, 63]]⟩


/-!
The penny-spiral builder of find_fourth/hex.go works on float64 coordinates
that are all multiples of 0.05 of the exact constants (1.5, 0.75, 1.3, 0.1),
and every comparison it makes (vecClose within 0.1, squared-distance
tie-breaks) has a margin far wider than the accumulated rounding error.  The
embedding therefore scales all coordinates by 20 and works in exact integers:
1.5 becomes 30, 0.75 becomes 15, 1.3 becomes 26, the 0.1 tolerance becomes 2,
squared distances carry the factor 400, and the 1e9 sentinel becomes
400000000000.
-/

/-- The six hex directions of hex.go, scaled by 20. -/
def hexDirsZ : List (ℤ × ℤ) :=
  [(30, 0), (15, 26), (-15, 26), (-30, 0), (-15, -26), (15, -26)]

def vAddZ (a d : ℤ × ℤ) : ℤ × ℤ := (a.1 + d.1, a.2 + d.2)

/-- vecClose: both coordinates within the tolerance (0.1, scaled to 2). -/
def vecCloseZ (a b : ℤ × ℤ) : Bool :=
  decide ((a.1 - b.1).natAbs < 2) && decide ((a.2 - b.2).natAbs < 2)

def positionOccupiedZ (cand : ℤ × ℤ) (ps : List (ℤ × ℤ)) : Bool :=
  ps.any (vecCloseZ cand)

/-- The number of already placed nodes adjacent to the candidate. -/
def contactsZ (cand : ℤ × ℤ) (ps : List (ℤ × ℤ)) : ℕ :=
  ps.countP (fun p => hexDirsZ.any (fun d => vecCloseZ cand (vAddZ p d)))

/-- Squared distance to the origin, scaled by 400. -/
def distSqZ (c : ℤ × ℤ) : ℤ := c.1 * c.1 + c.2 * c.2

/-- The candidate selection of one spiral step: among the six neighbors of
the previous node that are unoccupied, maximise contacts, break ties by
smaller squared distance; bestContacts starts at -1, bestDist at 1e9. -/
def pickBestZ (prev : ℤ × ℤ) (ps : List (ℤ × ℤ)) : ℤ × ℤ :=
  (hexDirsZ.foldl (fun st d =>
    let cand := vAddZ prev d
    if positionOccupiedZ cand ps then st
    else
      if st.2.1 < (contactsZ cand ps : ℤ)
          ∨ (st.2.1 = (contactsZ cand ps : ℤ) ∧ distSqZ cand < st.2.2) then
        (cand, ((contactsZ cand ps : ℤ), distSqZ cand))
      else st)
    (((0 : ℤ), (0 : ℤ)), ((-1 : ℤ), (400000000000 : ℤ)))).1

/-- The edges gained by placing the new node: one per earlier node adjacent
to the chosen position. -/
def newEdgesZ (node : ℕ) (ps : List (ℤ × ℤ)) (bestPos : ℤ × ℤ) : List (ℕ × ℕ) :=
  (List.range node).filterMap (fun i =>
    if hexDirsZ.any (fun d => vecCloseZ bestPos (vAddZ (ps.getD i (0, 0)) d))
    then some (i, node) else none)

def spiralStepZ (st : List (ℤ × ℤ) × List (ℕ × ℕ)) (node : ℕ) :
    List (ℤ × ℤ) × List (ℕ × ℕ) :=
  let bestPos := pickBestZ (st.1.getD (node - 1) (0, 0)) st.1
  (st.1 ++ [bestPos], st.2 ++ newEdgesZ node st.1 bestPos)

/-- buildSpiral of find_fourth/hex.go: node 0 at the origin, each later node
at the best free neighbor of its predecessor; the edge list pairs every
earlier node with each new node it touches. -/
def buildSpiralZ (n : ℕ) : List (ℕ × ℕ) :=
  if n < 1 then []
  else ((List.range' 1 (n - 1)).foldl spiralStepZ ([(0, 0)], [])).2

set_option maxRecDepth 10000 in
/-- Claim C8.  Concrete n = 15 upper-bound witness: on the edge set produced
by buildSpiral(15), the four arrangements a0 = identity,
a1 = [4,11,7,10,6,12,1,5,14,0,9,3,8,13,2],
a2 = [12,14,9,5,8,0,10,1,3,6,11,13,7,2,4] and
a3 = [8,14,11,3,5,6,7,12,2,1,13,0,9,4,10] induce pair-sets whose union is
all 105 unordered pairs over the items 0..14. -/
theorem C8_fourth_arrangement_covers :
    pairsFinsetF (buildSpiralZ 15) (List.range 15)
      ∪ pairsFinsetF (buildSpiralZ 15) [4,11,7,10,6,12,1,5,14,0,9,3,8,13,2]
      ∪ pairsFinsetF (buildSpiralZ 15) [12,14,9,5,8,0,10,1,3,6,11,13,7,2,4]
      ∪ pairsFinsetF (buildSpiralZ 15) [8,14,11,3,5,6,7,12,2,1,13,0,9,4,10]
      = allPairsFinset 15
    ∧ (allPairsFinset 15).card = 105 := by
  exact ⟨by decide, by decide⟩


/-!
Permutation generator (permutations in filter_maximal.go, the generate
closure in Graph.canonical), graph relabeling, canonicalization and the
maximality filter.
-/

/-- The simultaneous slice swap arr[i], arr[j] = arr[j], arr[i]. -/
def listSwap (xs : List ℕ) (i j : ℕ) : List ℕ :=
  (xs.set i (xs.getD j 0)).set j (xs.getD i 0)

theorem listSwap_length (xs : List ℕ) (i j : ℕ) :
    (listSwap xs i j).length = xs.length := by
  simp [listSwap]

theorem getD_ext {xs ys : List ℕ} (hl : xs.length = ys.length)
    (h : ∀ t, xs.getD t 0 = ys.getD t 0) : xs = ys := by
  apply List.ext_getElem hl
  intro t h1 h2
  have := h t
  rwa [List.getD_eq_getElem xs 0 h1, List.getD_eq_getElem ys 0 h2] at this

theorem listSwap_getD {xs : List ℕ} {i j : ℕ} (hi : i < xs.length) (hj : j < xs.length)
    (t : ℕ) :
    (listSwap xs i j).getD t 0 =
      if t = j then xs.getD i 0 else if t = i then xs.getD j 0 else xs.getD t 0 := by
  by_cases ht : t < xs.length
  · rw [listSwap, List.getD_eq_getElem _ 0 (by simpa using ht), List.getElem_set,
      List.getElem_set]
    by_cases h1 : t = j
    · subst h1
      simp [List.getD_eq_getElem xs 0 hi]
    · rw [if_neg (fun hh => h1 hh.symm), if_neg h1]
      by_cases h2 : t = i
      · subst h2
        rw [if_pos rfl, if_pos rfl, List.getD_eq_getElem xs 0 hj]
      · rw [if_neg (fun hh => h2 hh.symm), if_neg h2, List.getD_eq_getElem xs 0 ht]
  · push_neg at ht
    rw [List.getD_eq_default _ 0 (by simpa [listSwap] using ht),
      List.getD_eq_default _ 0 ht]
    rw [if_neg (by omega), if_neg (by omega)]

theorem listSwap_drop {xs : List ℕ} {i j k : ℕ} (hik : i < k) (hjk : j < k) :
    (listSwap xs i j).drop k = xs.drop k := by
  unfold listSwap
  rw [List.drop_set_of_lt _ _ (by omega), List.drop_set_of_lt _ _ (by omega)]

theorem perm_swap_middle (a b : ℕ) (m r : List ℕ) :
    (a :: (m ++ b :: r)).Perm (b :: (m ++ a :: r)) :=
  ((List.perm_middle).cons a).trans
    ((List.Perm.swap b a (m ++ r)).trans ((List.perm_middle.symm).cons b))

theorem listSwap_decomp {xs : List ℕ} {i j : ℕ} (hij : i < j) (hj : j < xs.length) :
    listSwap xs i j = xs.take i ++ xs.getD j 0 ::
      ((xs.drop (i+1)).take (j - i - 1) ++ xs.getD i 0 :: xs.drop (j+1)) := by
  have hi : i < xs.length := lt_trans hij hj
  unfold listSwap
  rw [List.set_eq_take_cons_drop _ (by simpa using hj),
    List.drop_set_of_lt _ _ (by omega),
    List.set_eq_take_cons_drop _ hi,
    List.take_append_eq_append_take, List.take_take,
    min_eq_right (le_of_lt hij), List.length_take,
    min_eq_left (le_of_lt hi)]
  have hji : j - i = (j - i - 1) + 1 := by omega
  rw [hji, List.take_succ_cons, List.append_assoc, List.cons_append]
  simp [Nat.add_sub_cancel]

theorem list_decomp_two {xs : List ℕ} {i j : ℕ} (hij : i < j) (hj : j < xs.length) :
    xs = xs.take i ++ xs.getD i 0 ::
      ((xs.drop (i+1)).take (j - i - 1) ++ xs.getD j 0 :: xs.drop (j+1)) := by
  have hi : i < xs.length := lt_trans hij hj
  conv_lhs => rw [← List.take_append_drop i xs]
  congr 1
  rw [List.drop_eq_getElem_cons hi, ← List.getD_eq_getElem xs 0 hi]
  congr 1
  conv_lhs => rw [← List.take_append_drop (j - i - 1) (xs.drop (i+1))]
  congr 1
  rw [List.drop_drop]
  have : i + 1 + (j - i - 1) = j := by omega
  rw [this, List.drop_eq_getElem_cons hj, ← List.getD_eq_getElem xs 0 hj]

theorem listSwap_perm {xs : List ℕ} {i j : ℕ} (hi : i < xs.length) (hj : j < xs.length) :
    (listSwap xs i j).Perm xs := by
  rcases Nat.lt_trichotomy i j with hij | rfl | hij
  · rw [listSwap_decomp hij hj]
    conv_rhs => rw [list_decomp_two hij hj]
    exact List.Perm.append_left _ (perm_swap_middle _ _ _ _)
  · have : listSwap xs i i = xs := by
      apply getD_ext (listSwap_length xs i i)
      intro t
      rw [listSwap_getD hi hi t]
      by_cases h : t = i <;> simp [h]
    rw [this]
  · have hcomm : listSwap xs i j = listSwap xs j i := by
      unfold listSwap
      exact List.set_comm _ _ xs (by omega)
    rw [hcomm, listSwap_decomp hij hi]
    conv_rhs => rw [list_decomp_two hij hi]
    exact List.Perm.append_left _ (perm_swap_middle _ _ _ _)

/-- Left rotation by one of the first k entries: the window's last entry moves
to the front.  This is the net effect of one even level of the permutation
generator. -/
def rotF (k : ℕ) (xs : List ℕ) : List ℕ :=
  match k with
  | 0 => xs
  | (j+1) => xs.getD j 0 :: (xs.take j ++ xs.drop (j + 1))

theorem rotF_length {k : ℕ} {xs : List ℕ} (hk : k ≤ xs.length) :
    (rotF k xs).length = xs.length := by
  match k with
  | 0 => rfl
  | (j+1) =>
    simp only [rotF, List.length_cons, List.length_append, List.length_take,
      List.length_drop]
    omega

theorem rotF_getD {k : ℕ} {xs : List ℕ} (hk : k ≤ xs.length) (t : ℕ) :
    (rotF k xs).getD t 0 =
      if k = 0 then xs.getD t 0
      else if t = 0 then xs.getD (k-1) 0
      else if t < k then xs.getD (t-1) 0
      else xs.getD t 0 := by
  match k with
  | 0 => rfl
  | (j+1) =>
    rw [if_neg (Nat.succ_ne_zero j)]
    match t with
    | 0 => simp [rotF]
    | (s+1) =>
      rw [if_neg (Nat.succ_ne_zero s)]
      simp only [rotF, List.getD_cons_succ]
      by_cases hs : s < j
      · rw [if_pos (by omega)]
        rw [List.getD_append _ _ _ _ (by simp; omega)]
        simp only [Nat.add_sub_cancel]
        by_cases hsl : s < xs.length
        · rw [List.getD_eq_getElem _ 0 (by simp; omega), List.getElem_take,
            List.getD_eq_getElem xs 0 hsl]
        · omega
      · rw [if_neg (by omega)]
        have hlen : (xs.take j).length = j := by simp; omega
        rw [List.getD_append_right _ _ _ _ (by omega), hlen]
        by_cases hsl : s + 1 < xs.length
        · rw [List.getD_eq_getElem _ 0 (by simp; omega),
            List.getElem_drop, List.getD_eq_getElem xs 0 hsl]
          congr 1
          omega
        · rw [List.getD_eq_default _ 0 (by simp; omega),
            List.getD_eq_default _ 0 (by omega)]

theorem rotF_drop {k : ℕ} {xs : List ℕ} (hk : k ≤ xs.length) :
    (rotF k xs).drop k = xs.drop k := by
  match k with
  | 0 => rfl
  | (j+1) =>
    simp only [rotF]
    rw [List.drop_succ_cons, List.drop_append_eq_append_drop]
    have hlen : (xs.take j).length = j := by simp; omega
    rw [hlen, List.drop_of_length_le (le_of_eq hlen), Nat.sub_self, List.nil_append,
      List.drop_drop]

theorem rotF_perm {k : ℕ} {xs : List ℕ} (hk : k ≤ xs.length) :
    (rotF k xs).Perm xs := by
  match k with
  | 0 => exact List.Perm.refl xs
  | (j+1) =>
    have hj : j < xs.length := by omega
    conv_rhs => rw [← List.take_append_drop j xs, List.drop_eq_getElem_cons hj,
      ← List.getD_eq_getElem xs 0 hj]
    exact List.perm_middle.symm


/-- The states of a loop that rewrites s by H s i at iteration i. -/
def iterStates {σ : Type} (H : σ → ℕ → σ) (s : σ) : ℕ → σ
  | 0 => s
  | (i+1) => H (iterStates H s i) i

/-- A fold over 0..n-1 that appends G of the current state and then steps the
state by H: the result collects G along the orbit of H. -/
theorem foldl_pair_range {α σ : Type} (G : σ → ℕ → List α) (H : σ → ℕ → σ)
    (n : ℕ) (a : List α) (s : σ) :
    (List.range n).foldl (fun st i => (st.1 ++ G st.2 i, H st.2 i)) (a, s)
      = (a ++ ((List.range n).map (fun i => G (iterStates H s i) i)).flatten,
         iterStates H s n) := by
  induction n with
  | zero => simp [iterStates]
  | succ n ih =>
    rw [List.range_succ, List.foldl_append, ih, List.map_append, List.flatten_append]
    simp [iterStates, List.append_assoc]

/-- The recursive permutation generator shared by Graph.canonical and the
maximality filter: at level k it emits a copy of the working array for each
rearrangement of its first k entries, swapping entries i and k-1 (k even) or
0 and k-1 (k odd) after each recursive call.  The pair holds the emitted
copies and the final state of the array. -/
def heapGen : ℕ → List ℕ → List (List ℕ) × List ℕ
  | 0, arr => ([], arr)
  | 1, arr => ([arr], arr)
  | (k+2), arr =>
    (List.range (k+2)).foldl (fun st i =>
      (st.1 ++ (heapGen (k+1) st.2).1,
        if (k+2) % 2 = 0 then listSwap (heapGen (k+1) st.2).2 i (k+1)
        else listSwap (heapGen (k+1) st.2).2 0 (k+1)))
      ([], arr)

/-- The state transformer of one iteration at level k+2. -/
def heapH (k : ℕ) (s : List ℕ) (i : ℕ) : List ℕ :=
  if (k+2) % 2 = 0 then listSwap (heapGen (k+1) s).2 i (k+1)
  else listSwap (heapGen (k+1) s).2 0 (k+1)

theorem heapGen_two (k : ℕ) (arr : List ℕ) :
    heapGen (k+2) arr
      = (((List.range (k+2)).map (fun i =>
            (heapGen (k+1) (iterStates (heapH k) arr i)).1)).flatten,
         iterStates (heapH k) arr (k+2)) := by
  rw [heapGen]
  have h := foldl_pair_range (fun s _ => (heapGen (k+1) s).1) (heapH k) (k+2) [] arr
  simp only [List.nil_append] at h
  exact h

/-- What one level of the generator guarantees about an emitted copy: same
length, untouched tail, first k entries rearranged. -/
def heapOut (k : ℕ) (arr p : List ℕ) : Prop :=
  p.length = arr.length ∧ p.drop k = arr.drop k ∧ (p.take k).Perm (arr.take k)

theorem heapOut_refl (k : ℕ) (arr : List ℕ) : heapOut k arr arr :=
  ⟨rfl, rfl, List.Perm.refl _⟩

theorem perm_take_of_perm_of_drop_eq {xs ys : List ℕ} {k : ℕ} (hp : xs.Perm ys)
    (hd : xs.drop k = ys.drop k) : (xs.take k).Perm (ys.take k) := by
  have hx := List.take_append_drop k xs
  have hy := List.take_append_drop k ys
  rw [← hx, ← hy, hd] at hp
  exact (List.perm_append_right_iff _).1 hp

theorem heapOut_perm {k : ℕ} {arr p : List ℕ} (h : heapOut k arr p) : p.Perm arr := by
  obtain ⟨h1, h2, h3⟩ := h
  have hp : p = p.take k ++ arr.drop k := by
    rw [← h2]
    exact (List.take_append_drop k p).symm
  rw [hp]
  conv_rhs => rw [← List.take_append_drop k arr]
  exact List.Perm.append h3 (List.Perm.refl _)

theorem heapOut_trans {k : ℕ} {arr q p : List ℕ} (h1 : heapOut k arr q)
    (h2 : heapOut k q p) : heapOut k arr p :=
  ⟨h2.1.trans h1.1, h2.2.1.trans h1.2.1, h2.2.2.trans h1.2.2⟩

theorem heapOut_of_le {k j : ℕ} {arr p : List ℕ} (hjk : j ≤ k) (h : heapOut j arr p) :
    heapOut k arr p := by
  refine ⟨h.1, ?_, ?_⟩
  · have := h.2.1
    calc p.drop k = (p.drop j).drop (k - j) := by rw [List.drop_drop]; congr 1; omega
      _ = (arr.drop j).drop (k - j) := by rw [this]
      _ = arr.drop k := by rw [List.drop_drop]; congr 1; omega
  · exact perm_take_of_perm_of_drop_eq (heapOut_perm h)
      (by
        have := h.2.1
        calc p.drop k = (p.drop j).drop (k - j) := by rw [List.drop_drop]; congr 1; omega
          _ = (arr.drop j).drop (k - j) := by rw [this]
          _ = arr.drop k := by rw [List.drop_drop]; congr 1; omega)

/-- Swapping the rotated window's front with the next entry extends the
rotation window by one. -/
theorem rotF_swap {j : ℕ} {xs : List ℕ} (hlen : j + 2 ≤ xs.length) :
    listSwap (rotF (j+1) xs) 0 (j+1) = rotF (j+2) xs := by
  have hr : (rotF (j+1) xs).length = xs.length := rotF_length (by omega)
  apply getD_ext
  · rw [listSwap_length, hr, rotF_length hlen]
  · intro t
    have hA : (rotF (j+1) xs).getD 0 0 = xs.getD j 0 := by
      rw [rotF_getD (by omega) 0, if_neg (Nat.succ_ne_zero j), if_pos rfl]
      simp
    have hB : (rotF (j+1) xs).getD (j+1) 0 = xs.getD (j+1) 0 := by
      rw [rotF_getD (by omega) (j+1), if_neg (Nat.succ_ne_zero j),
        if_neg (Nat.succ_ne_zero j), if_neg (by omega)]
    rw [listSwap_getD (by omega) (by omega) t, rotF_getD hlen t,
      if_neg (Nat.succ_ne_zero (j+1))]
    by_cases h1 : t = j + 1
    · subst h1
      rw [if_pos rfl, hA, if_neg (Nat.succ_ne_zero j), if_pos (by omega)]
      simp
    · rw [if_neg h1]
      by_cases h2 : t = 0
      · subst h2
        rw [if_pos rfl, hB, if_pos rfl]
        simp
      · rw [if_neg h2, if_neg h2, rotF_getD (by omega) t, if_neg (Nat.succ_ne_zero j),
          if_neg h2]
        by_cases h3 : t < j + 1
        · rw [if_pos h3, if_pos (by omega)]
        · rw [if_neg h3, if_neg (by omega)]


theorem iterStates_length {H : List ℕ → ℕ → List ℕ}
    (hH : ∀ s i, (H s i).length = s.length) (s : List ℕ) :
    ∀ i, (iterStates H s i).length = s.length
  | 0 => rfl
  | (i+1) => by
    show (H (iterStates H s i) i).length = s.length
    rw [hH, iterStates_length hH s i]

theorem heapGen_snd_length : ∀ (k : ℕ) (s : List ℕ), (heapGen k s).2.length = s.length := by
  intro k
  induction k using Nat.strong_induction_on with
  | _ k ih =>
    match k with
    | 0 => intro s; rfl
    | 1 => intro s; rfl
    | (k+2) =>
      intro s
      rw [heapGen_two]
      show (iterStates (heapH k) s (k+2)).length = s.length
      refine iterStates_length (fun r i => ?_) s (k+2)
      unfold heapH
      split <;> rw [listSwap_length, ih (k+1) (by omega)]

theorem heapH_length (k : ℕ) (s : List ℕ) (i : ℕ) : (heapH k s i).length = s.length := by
  unfold heapH
  split <;> rw [listSwap_length, heapGen_snd_length]

theorem heapH_even {k : ℕ} (hk : (k+2) % 2 = 0) (s : List ℕ) (i : ℕ) :
    heapH k s i = listSwap (heapGen (k+1) s).2 i (k+1) := by
  unfold heapH
  rw [if_pos hk]

theorem heapH_odd {k : ℕ} (hk : ¬((k+2) % 2 = 0)) (s : List ℕ) (i : ℕ) :
    heapH k s i = listSwap (heapGen (k+1) s).2 0 (k+1) := by
  unfold heapH
  rw [if_neg hk]

/-- The loop states of an even level k+2, assuming the odd inner level k+1
returns its array unchanged: position 0 freezes to the old last entry after
the first swap, already visited positions shift back by one, the last
position walks through the original entries. -/
theorem even_states (k : ℕ) (arr : List ℕ)
    (hfin : ∀ s : List ℕ, k + 1 ≤ s.length → (heapGen (k+1) s).2 = s)
    (hk : (k+2) % 2 = 0) (hlen : k + 2 ≤ arr.length) :
    ∀ i, i ≤ k + 2 → ∀ t, (iterStates (heapH k) arr i).getD t 0 =
      (if i = 0 then arr.getD t 0
       else if t = 0 then arr.getD (k+1) 0
       else if t < i then arr.getD (t-1) 0
       else if t = k+1 then arr.getD (i-1) 0
       else arr.getD t 0) := by
  intro i
  induction i with
  | zero =>
    intro _ t
    rw [if_pos rfl]
    rfl
  | succ i ihi =>
    intro hi t
    have hsl : (iterStates (heapH k) arr i).length = arr.length :=
      iterStates_length (heapH_length k) arr i
    have ih := ihi (by omega)
    have h1 : k + 1 ≤ (iterStates (heapH k) arr i).length := by omega
    have h2 : i < (iterStates (heapH k) arr i).length := by omega
    have h3 : k + 1 < (iterStates (heapH k) arr i).length := by omega
    show (heapH k (iterStates (heapH k) arr i) i).getD t 0 = _
    rw [heapH_even hk, hfin _ h1, listSwap_getD h2 h3 t, ih t, ih i, ih (k+1)]
    split_ifs <;>
      first
        | rfl
        | contradiction
        | (exfalso; omega)
        | exact congrArg (fun z => arr.getD z 0) (by omega)

/-- The loop states of an odd level k+2, assuming the even inner level k+1
rotates its window: each iteration rotates the full k+2 window once more. -/
theorem odd_states (k : ℕ) (arr : List ℕ)
    (hfin : ∀ s : List ℕ, k + 1 ≤ s.length → (heapGen (k+1) s).2 = rotF (k+1) s)
    (hk : ¬((k+2) % 2 = 0)) (hlen : k + 2 ≤ arr.length) :
    ∀ i, i ≤ k + 2 → ∀ t, (iterStates (heapH k) arr i).getD t 0 =
      (if t < i then arr.getD (k+2-i+t) 0
       else if t < k+2 then arr.getD (t-i) 0
       else arr.getD t 0) := by
  intro i
  induction i with
  | zero =>
    intro _ t
    rw [if_neg (by omega)]
    by_cases h : t < k + 2
    · rw [if_pos h]
      rfl
    · rw [if_neg h]
      rfl
  | succ i ihi =>
    intro hi t
    have hsl : (iterStates (heapH k) arr i).length = arr.length :=
      iterStates_length (heapH_length k) arr i
    have ih := ihi (by omega)
    have h1 : k + 1 ≤ (iterStates (heapH k) arr i).length := by omega
    show (heapH k (iterStates (heapH k) arr i) i).getD t 0 = _
    rw [heapH_odd hk, hfin _ h1, rotF_swap (by omega), rotF_getD (by omega) t,
      if_neg (by omega)]
    by_cases h2 : t = 0
    · subst h2
      rw [if_pos rfl, ih (k+2-1), if_neg (by omega), if_pos (by omega), if_pos (by omega)]
      exact congrArg (fun z => arr.getD z 0) (by omega)
    · rw [if_neg h2]
      by_cases h3 : t < k + 2
      · rw [if_pos h3, ih (t-1)]
        split_ifs <;>
          first
            | rfl
            | (exfalso; omega)
            | exact congrArg (fun z => arr.getD z 0) (by omega)
      · rw [if_neg h3, ih t]
        split_ifs <;>
          first
            | rfl
            | (exfalso; omega)
            | exact congrArg (fun z => arr.getD z 0) (by omega)


theorem getD_drop_add {l : List ℕ} {m n : ℕ} : (l.drop m).getD n 0 = l.getD (m + n) 0 := by
  by_cases h : m + n < l.length
  · rw [List.getD_eq_getElem _ 0 (by simp; omega), List.getD_eq_getElem l 0 h,
      List.getElem_drop]
  · rw [List.getD_eq_default _ 0 (by simp; omega), List.getD_eq_default _ 0 (by omega)]

theorem heapOut_one_eq {arr σ : List ℕ} (hl1 : 1 ≤ arr.length) (h : heapOut 1 arr σ) :
    σ = arr := by
  obtain ⟨hl, hd, hp⟩ := h
  apply getD_ext hl
  intro t
  match t with
  | 0 =>
    have h0σ : 0 < σ.length := by omega
    have h0a : 0 < arr.length := by omega
    have hσ1 : [σ.getD 0 0] = σ.take 1 := by
      have := take_succ_getD h0σ
      simpa using this
    have ha1 : [arr.getD 0 0] = arr.take 1 := by
      have := take_succ_getD h0a
      simpa using this
    have hp1 := hp
    rw [← hσ1, ← ha1] at hp1
    exact List.singleton_perm_singleton.1 hp1
  | (t+1) =>
    have h' := congrArg (fun l => List.getD l t 0) hd
    simp only at h'
    rw [getD_drop_add, getD_drop_add] at h'
    rw [Nat.add_comm 1 t] at h'
    exact h'

theorem listSwap_heapOut {r : List ℕ} {x y K : ℕ} (hx : x < K) (hy : y < K)
    (hK : K ≤ r.length) : heapOut K r (listSwap r x y) :=
  ⟨listSwap_length r x y, listSwap_drop hx hy,
   perm_take_of_perm_of_drop_eq (listSwap_perm (by omega) (by omega))
     (listSwap_drop hx hy)⟩

theorem heapH_heapOut (k : ℕ) (s : List ℕ) (i : ℕ)
    (hf2 : (heapGen (k+1) s).2 = s ∨ (heapGen (k+1) s).2 = rotF (k+1) s)
    (hi : i < k + 2) (hslen : k + 2 ≤ s.length) :
    heapOut (k+2) s (heapH k s i) := by
  have hdropR : (rotF (k+1) s).drop (k+2) = s.drop (k+2) := by
    have h1 : ((rotF (k+1) s).drop (k+1)).drop 1 = (s.drop (k+1)).drop 1 := by
      rw [rotF_drop (by omega)]
    rw [List.drop_drop, List.drop_drop] at h1
    exact h1
  have hstep : heapOut (k+2) s (heapGen (k+1) s).2 := by
    rcases hf2 with h | h
    · rw [h]
      exact heapOut_refl _ _
    · rw [h]
      exact ⟨rotF_length (by omega), hdropR,
        perm_take_of_perm_of_drop_eq (rotF_perm (by omega)) hdropR⟩
  have hrlen : (heapGen (k+1) s).2.length = s.length := heapGen_snd_length _ _
  refine heapOut_trans hstep ?_
  unfold heapH
  split
  · exact listSwap_heapOut hi (by omega) (by omega)
  · exact listSwap_heapOut (by omega) (by omega) (by omega)

/-- Correctness of the recursive permutation generator: the final array is the
input (odd levels) or its rotated window (even levels of size at least 2), and
the emitted copies are exactly the rearrangements of the first k entries. -/
theorem heapGen_spec : ∀ (k : ℕ) (arr : List ℕ), k ≤ arr.length →
    ((heapGen k arr).2 = if k % 2 = 0 ∧ 2 ≤ k then rotF k arr else arr)
    ∧ (∀ p ∈ (heapGen k arr).1, heapOut k arr p)
    ∧ (∀ σ : List ℕ, 1 ≤ k → heapOut k arr σ → σ ∈ (heapGen k arr).1) := by
  intro k
  induction k using Nat.strong_induction_on with
  | _ k ih =>
    match k with
    | 0 =>
      intro arr _
      refine ⟨by rw [if_neg (by omega)]; rfl, ?_, ?_⟩
      · intro p hp
        exact absurd hp (List.not_mem_nil p)
      · intro σ h1 _
        omega
    | 1 =>
      intro arr hlen
      refine ⟨by rw [if_neg (by omega)]; rfl, ?_, ?_⟩
      · intro p hp
        rw [show (heapGen 1 arr).1 = [arr] from rfl, List.mem_singleton] at hp
        rw [hp]
        exact heapOut_refl 1 arr
      · intro σ _ hσ
        rw [show (heapGen 1 arr).1 = [arr] from rfl, List.mem_singleton]
        exact heapOut_one_eq hlen hσ
    | (k+2) =>
      intro arr hlen
      have hOr : ∀ s : List ℕ, k + 1 ≤ s.length →
          (heapGen (k+1) s).2 = s ∨ (heapGen (k+1) s).2 = rotF (k+1) s := by
        intro s hs
        have hf := (ih (k+1) (by omega) s hs).1
        by_cases hc : (k+1) % 2 = 0 ∧ 2 ≤ k+1
        · right
          rwa [if_pos hc] at hf
        · left
          rwa [if_neg hc] at hf
      have hslen : ∀ i, (iterStates (heapH k) arr i).length = arr.length :=
        iterStates_length (heapH_length k) arr
      have hinv : ∀ i, i ≤ k + 2 → heapOut (k+2) arr (iterStates (heapH k) arr i) := by
        intro i
        induction i with
        | zero =>
          intro _
          exact heapOut_refl _ _
        | succ i ihi =>
          intro hi
          exact heapOut_trans (ihi (by omega))
            (heapH_heapOut k _ i (hOr _ (by rw [hslen i]; omega)) (by omega)
              (by rw [hslen i]; omega))
      have hsound : ∀ p ∈ (heapGen (k+2) arr).1, heapOut (k+2) arr p := by
        intro p hp
        rw [heapGen_two] at hp
        simp only [List.mem_flatten, List.mem_map, List.mem_range] at hp
        obtain ⟨l, ⟨i, hi, rfl⟩, hpl⟩ := hp
        have hout : heapOut (k+1) (iterStates (heapH k) arr i) p :=
          (ih (k+1) (by omega) _ (by rw [hslen i]; omega)).2.1 p hpl
        exact heapOut_trans (hinv i (by omega)) (heapOut_of_le (by omega) hout)
      have hlast : ∀ v : ℕ, (∃ j, j < k + 2 ∧ arr.getD j 0 = v) →
          ∃ i, i < k + 2 ∧ (iterStates (heapH k) arr i).getD (k+1) 0 = v := by
        by_cases hk : (k+2) % 2 = 0
        · have hfin : ∀ s : List ℕ, k + 1 ≤ s.length → (heapGen (k+1) s).2 = s := by
            intro s hs
            rcases hOr s hs with h | h
            · exact h
            · have hf := (ih (k+1) (by omega) s hs).1
              rwa [if_neg (by omega)] at hf
          have hst := even_states k arr hfin hk hlen
          rintro v ⟨j, hj, hv⟩
          by_cases hjl : j = k + 1
          · refine ⟨0, by omega, ?_⟩
            rw [hst 0 (by omega) (k+1), if_pos rfl, ← hjl]
            exact hv
          · refine ⟨j + 1, by omega, ?_⟩
            rw [hst (j+1) (by omega) (k+1), if_neg (by omega), if_neg (by omega),
              if_neg (by omega), if_pos rfl]
            simpa using hv
        · have hfin : ∀ s : List ℕ, k + 1 ≤ s.length →
              (heapGen (k+1) s).2 = rotF (k+1) s := by
            intro s hs
            rcases hOr s hs with h | h
            · have hf := (ih (k+1) (by omega) s hs).1
              rwa [if_pos (by omega)] at hf
            · exact h
          have hst := odd_states k arr hfin hk hlen
          rintro v ⟨j, hj, hv⟩
          refine ⟨k + 1 - j, by omega, ?_⟩
          rw [hst (k+1-j) (by omega) (k+1), if_neg (by omega), if_pos (by omega),
            show k + 1 - (k + 1 - j) = j from by omega]
          exact hv
      refine ⟨?_, hsound, ?_⟩
      · -- final state
        by_cases hk : (k+2) % 2 = 0
        · have hfin : ∀ s : List ℕ, k + 1 ≤ s.length → (heapGen (k+1) s).2 = s := by
            intro s hs
            rcases hOr s hs with h | h
            · exact h
            · have hf := (ih (k+1) (by omega) s hs).1
              rwa [if_neg (by omega)] at hf
          have hst := even_states k arr hfin hk hlen
          rw [heapGen_two, if_pos ⟨hk, by omega⟩]
          show iterStates (heapH k) arr (k+2) = rotF (k+2) arr
          apply getD_ext
          · rw [hslen (k+2), rotF_length hlen]
          · intro t
            rw [hst (k+2) (le_refl _) t, rotF_getD hlen t]
            split_ifs <;>
              first
                | rfl
                | contradiction
                | (exfalso; omega)
                | exact congrArg (fun z => arr.getD z 0) (by omega)
        · have hfin : ∀ s : List ℕ, k + 1 ≤ s.length →
              (heapGen (k+1) s).2 = rotF (k+1) s := by
            intro s hs
            rcases hOr s hs with h | h
            · have hf := (ih (k+1) (by omega) s hs).1
              rwa [if_pos (by omega)] at hf
            · exact h
          have hst := odd_states k arr hfin hk hlen
          rw [heapGen_two, if_neg (by omega)]
          show iterStates (heapH k) arr (k+2) = arr
          apply getD_ext (hslen (k+2))
          intro t
          rw [hst (k+2) (le_refl _) t]
          split_ifs <;>
            first
              | rfl
              | contradiction
              | (exfalso; omega)
              | exact congrArg (fun z => arr.getD z 0) (by omega)
      · -- completeness
        intro σ _ hσ
        obtain ⟨hl, hd, hp⟩ := hσ
        have hσlen : k + 2 ≤ σ.length := by omega
        have hvmem : σ.getD (k+1) 0 ∈ arr.take (k+2) := by
          have hm : σ.getD (k+1) 0 ∈ σ.take (k+2) := by
            rw [← take_succ_getD (show k + 1 < σ.length by omega)]
            exact List.mem_append_right _ (List.mem_singleton.2 rfl)
          exact hp.mem_iff.1 hm
        obtain ⟨j, hj, hjv⟩ : ∃ j, j < k + 2 ∧ arr.getD j 0 = σ.getD (k+1) 0 := by
          obtain ⟨jj, hjj, hje⟩ := List.getElem_of_mem hvmem
          have hjj2 : jj < k + 2 := by
            have := hjj
            simp only [List.length_take] at this
            omega
          have hjj3 : jj < arr.length := by omega
          refine ⟨jj, hjj2, ?_⟩
          rw [List.getD_eq_getElem arr 0 hjj3, ← hje]
          exact (List.getElem_take _).symm
        obtain ⟨i, hi, hiv⟩ := hlast (σ.getD (k+1) 0) ⟨j, hj, hjv⟩
        have hinvi := hinv i (by omega)
        have hout : heapOut (k+1) (iterStates (heapH k) arr i) σ := by
          refine ⟨hl.trans (hslen i).symm, ?_, ?_⟩
          · rw [List.drop_eq_getElem_cons (show k + 1 < σ.length by omega),
              List.drop_eq_getElem_cons (show k + 1 < (iterStates (heapH k) arr i).length
                by rw [hslen i]; omega)]
            congr 1
            · rw [← List.getD_eq_getElem σ 0 (by omega),
                ← List.getD_eq_getElem _ 0 (by rw [hslen i]; omega)]
              exact hiv.symm
            · show σ.drop (k+2) = (iterStates (heapH k) arr i).drop (k+2)
              rw [hd]
              exact hinvi.2.1.symm
          · have h2 : (σ.take (k+2)).Perm ((iterStates (heapH k) arr i).take (k+2)) :=
              hp.trans hinvi.2.2.symm
            have e1 : σ.take (k+1) ++ [σ.getD (k+1) 0] = σ.take (k+2) :=
              take_succ_getD (show k + 1 < σ.length by omega)
            have e2 : (iterStates (heapH k) arr i).take (k+1) ++ [σ.getD (k+1) 0]
                = (iterStates (heapH k) arr i).take (k+2) := by
              rw [← hiv]
              exact take_succ_getD (show k + 1 < (iterStates (heapH k) arr i).length
                by rw [hslen i]; omega)
            rw [← e1, ← e2] at h2
            exact (List.perm_append_right_iff _).1 h2
        have hmem : σ ∈ (heapGen (k+1) (iterStates (heapH k) arr i)).1 :=
          (ih (k+1) (by omega) _ (by rw [hslen i]; omega)).2.2 σ (by omega) hout
        rw [heapGen_two]
        simp only [List.mem_flatten, List.mem_map, List.mem_range]
        exact ⟨_, ⟨i, hi, rfl⟩, hmem⟩


/-- permutations(n) of filter_maximal.go: the identity array fed through the
recursive generator; n = 0 returns the single empty permutation. -/
def permutationsL (n : ℕ) : List (List ℕ) :=
  if n = 0 then [[]] else (heapGen n (List.range n)).1

theorem mem_heapPerms {m : ℕ} {p : List ℕ} (hm : 1 ≤ m) :
    p ∈ (heapGen m (List.range m)).1 ↔ permListP m p := by
  have hlen : m ≤ (List.range m).length := by simp
  constructor
  · intro hp
    obtain ⟨h1, _, h3⟩ := (heapGen_spec m (List.range m) hlen).2.1 p hp
    rw [List.length_range] at h1
    rw [List.take_of_length_le (by omega), List.take_of_length_le (by simp)] at h3
    exact ⟨h1, h3.nodup_iff.2 (List.nodup_range m),
      fun x hx => List.mem_range.1 (h3.mem_iff.1 hx)⟩
  · intro hp
    refine (heapGen_spec m (List.range m) hlen).2.2 p hm ⟨?_, ?_, ?_⟩
    · rw [hp.1, List.length_range]
    · rw [List.drop_of_length_le (by rw [hp.1]), List.drop_of_length_le (by simp)]
    · rw [List.take_of_length_le (by rw [hp.1]), List.take_of_length_le (by simp)]
      refine List.perm_of_nodup_nodup_toFinset_eq hp.2.1 (List.nodup_range m) ?_
      rw [hp.toFinset_eq]
      ext x
      simp [List.mem_toFinset, List.mem_range, Finset.mem_range]

theorem mem_permutationsL {m : ℕ} {p : List ℕ} (hm : 1 ≤ m) :
    p ∈ permutationsL m ↔ permListP m p := by
  unfold permutationsL
  rw [if_neg (by omega)]
  exact mem_heapPerms hm

theorem edgeIdxL_comm (n i j : ℕ) : edgeIdxL n i j = edgeIdxL n j i := by
  unfold edgeIdxL
  rw [min_comm, max_comm]

theorem edgeIdxL_lt_of_ne {n a b : ℕ} (hab : a ≠ b) (ha : a < n) (hb : b < n) :
    edgeIdxL n a b < numEdgesN n := by
  rcases Nat.lt_or_ge a b with h | h
  · exact edgeIdxL_lt h hb
  · rw [edgeIdxL_comm]
    exact edgeIdxL_lt (by omega) ha

theorem edgePairsL_getD_edgeIdxL_of_ne {n a b : ℕ} (hab : a ≠ b) (ha : a < n)
    (hb : b < n) :
    (edgePairsL n).getD (edgeIdxL n a b) (0, 0) = (min a b, max a b) := by
  rcases Nat.lt_or_ge a b with h | h
  · rw [edgePairsL_getD_edgeIdxL h hb, min_eq_left h.le, max_eq_right h.le]
  · have h' : b < a := by omega
    rw [edgeIdxL_comm, edgePairsL_getD_edgeIdxL h' ha, min_eq_right h'.le,
      max_eq_left h'.le]

/-- The edge-index action of a relabeling: the set edge idx = (i, j) moves to
the index of the sorted pair (perm[i], perm[j]). -/
def permEdgeIdx (m : ℕ) (p : List ℕ) (idx : ℕ) : ℕ :=
  edgeIdxL m (p.getD ((edgePairsL m).getD idx (0, 0)).1 0)
    (p.getD ((edgePairsL m).getD idx (0, 0)).2 0)

theorem permEdgeIdx_lt {m : ℕ} {p : List ℕ} (hp : permListP m p) {idx : ℕ}
    (hidx : idx < numEdgesN m) : permEdgeIdx m p idx < numEdgesN m := by
  obtain ⟨h1, h2⟩ := edgePairsL_getD_prop hidx
  unfold permEdgeIdx
  exact edgeIdxL_lt_of_ne
    (fun h => absurd (hp.getD_inj (by omega) h2 h) (by omega))
    (hp.getD_lt (by omega)) (hp.getD_lt h2)

theorem permEdgeIdx_congr {m : ℕ} {p q : List ℕ}
    (hpq : ∀ x, x < m → p.getD x 0 = q.getD x 0) {idx : ℕ}
    (hidx : idx < numEdgesN m) : permEdgeIdx m p idx = permEdgeIdx m q idx := by
  obtain ⟨h1, h2⟩ := edgePairsL_getD_prop hidx
  unfold permEdgeIdx
  rw [hpq _ (by omega), hpq _ h2]

theorem permEdgeIdx_id {m idx : ℕ} (hidx : idx < numEdgesN m) :
    permEdgeIdx m (List.range m) idx = idx := by
  obtain ⟨h1, h2⟩ := edgePairsL_getD_prop hidx
  have hi1 : ((edgePairsL m).getD idx (0, 0)).1 < m := by omega
  have hg1 : (List.range m).getD ((edgePairsL m).getD idx (0, 0)).1 0
      = ((edgePairsL m).getD idx (0, 0)).1 := by
    rw [List.getD_eq_getElem (List.range m) 0 (by simpa using hi1)]
    exact List.getElem_range _ _
  have hg2 : (List.range m).getD ((edgePairsL m).getD idx (0, 0)).2 0
      = ((edgePairsL m).getD idx (0, 0)).2 := by
    rw [List.getD_eq_getElem (List.range m) 0 (by simpa using h2)]
    exact List.getElem_range _ _
  unfold permEdgeIdx
  rw [hg1, hg2]
  exact edgeIdxL_getD hidx

theorem permEdgeIdx_comp {m : ℕ} {p q : List ℕ} (hp : permListP m p)
    (hq : permListP m q) {idx : ℕ} (hidx : idx < numEdgesN m) :
    permEdgeIdx m p (permEdgeIdx m q idx) = permEdgeIdx m (compPermL p q) idx := by
  obtain ⟨h1, h2⟩ := edgePairsL_getD_prop hidx
  have hi : ((edgePairsL m).getD idx (0, 0)).1 < m := by omega
  have hqidx : q.getD ((edgePairsL m).getD idx (0, 0)).1 0
      ≠ q.getD ((edgePairsL m).getD idx (0, 0)).2 0 :=
    fun h => absurd (hq.getD_inj hi h2 h) (by omega)
  have hqa : q.getD ((edgePairsL m).getD idx (0, 0)).1 0 < m := hq.getD_lt hi
  have hqb : q.getD ((edgePairsL m).getD idx (0, 0)).2 0 < m := hq.getD_lt h2
  show permEdgeIdx m p (edgeIdxL m _ _) = _
  unfold permEdgeIdx
  rw [edgePairsL_getD_edgeIdxL_of_ne hqidx hqa hqb]
  rw [compPermL_getD (by rw [hq.1]; exact hi), compPermL_getD (by rw [hq.1]; exact h2)]
  rcases le_or_lt (q.getD ((edgePairsL m).getD idx (0, 0)).1 0)
      (q.getD ((edgePairsL m).getD idx (0, 0)).2 0) with h | h
  · rw [show (min (q.getD ((edgePairsL m).getD idx (0, 0)).1 0)
          (q.getD ((edgePairsL m).getD idx (0, 0)).2 0),
        max (q.getD ((edgePairsL m).getD idx (0, 0)).1 0)
          (q.getD ((edgePairsL m).getD idx (0, 0)).2 0)).1
        = q.getD ((edgePairsL m).getD idx (0, 0)).1 0 from min_eq_left h,
      show (min (q.getD ((edgePairsL m).getD idx (0, 0)).1 0)
          (q.getD ((edgePairsL m).getD idx (0, 0)).2 0),
        max (q.getD ((edgePairsL m).getD idx (0, 0)).1 0)
          (q.getD ((edgePairsL m).getD idx (0, 0)).2 0)).2
        = q.getD ((edgePairsL m).getD idx (0, 0)).2 0 from max_eq_right h]
  · rw [show (min (q.getD ((edgePairsL m).getD idx (0, 0)).1 0)
          (q.getD ((edgePairsL m).getD idx (0, 0)).2 0),
        max (q.getD ((edgePairsL m).getD idx (0, 0)).1 0)
          (q.getD ((edgePairsL m).getD idx (0, 0)).2 0)).1
        = q.getD ((edgePairsL m).getD idx (0, 0)).2 0 from min_eq_right h.le,
      show (min (q.getD ((edgePairsL m).getD idx (0, 0)).1 0)
          (q.getD ((edgePairsL m).getD idx (0, 0)).2 0),
        max (q.getD ((edgePairsL m).getD idx (0, 0)).1 0)
          (q.getD ((edgePairsL m).getD idx (0, 0)).2 0)).2
        = q.getD ((edgePairsL m).getD idx (0, 0)).1 0 from max_eq_left h.le,
      edgeIdxL_comm]


/-- The relabeling loop shared by Graph.canonical (canonicalize.go) and
isIsomorphicSubgraphOf (filter_maximal.go): every set edge index idx with
endpoints (i, j) contributes the bit at the index of the sorted pair
(perm[i], perm[j]). -/
def relabelG (m : ℕ) (p : List ℕ) (g : ℕ) : ℕ :=
  (List.range (numEdgesN m)).foldl (fun acc idx =>
    if g.testBit idx then acc ||| (1 <<< permEdgeIdx m p idx) else acc) 0

theorem relabelG_testBit (m : ℕ) (p : List ℕ) (g t : ℕ) :
    (relabelG m p g).testBit t
      = (List.range (numEdgesN m)).any
          (fun idx => g.testBit idx && decide (permEdgeIdx m p idx = t)) := by
  unfold relabelG
  rw [testBit_foldl_or]
  simp

theorem relabelG_testBit_iff {m : ℕ} {p : List ℕ} {g t : ℕ} :
    (relabelG m p g).testBit t = true
      ↔ ∃ idx, idx < numEdgesN m ∧ g.testBit idx = true ∧ permEdgeIdx m p idx = t := by
  rw [relabelG_testBit, List.any_eq_true]
  constructor
  · rintro ⟨idx, hmem, hcond⟩
    rw [Bool.and_eq_true] at hcond
    exact ⟨idx, List.mem_range.1 hmem, hcond.1, of_decide_eq_true hcond.2⟩
  · rintro ⟨idx, hlt, hbit, heq⟩
    exact ⟨idx, List.mem_range.2 hlt, by rw [hbit, heq]; simp⟩

theorem foldl_or_lt {E : ℕ} (P : ℕ → Bool) (f : ℕ → ℕ) :
    ∀ (l : List ℕ), (∀ x ∈ l, f x < E) → ∀ acc, acc < 2 ^ E →
      (l.foldl (fun a x => if P x then a ||| (1 <<< f x) else a) acc) < 2 ^ E := by
  intro l
  induction l with
  | nil =>
    intro _ acc hacc
    exact hacc
  | cons x xs ihl =>
    intro hf acc hacc
    simp only [List.foldl_cons]
    refine ihl (fun y hy => hf y (List.mem_cons_of_mem x hy)) _ ?_
    by_cases hP : P x
    · rw [if_pos hP]
      refine Nat.or_lt_two_pow hacc ?_
      rw [Nat.one_shiftLeft]
      exact Nat.pow_lt_pow_right (by omega) (hf x (List.mem_cons_self x xs))
    · rwa [if_neg hP]

theorem relabelG_lt {m : ℕ} {p : List ℕ} (hp : permListP m p) (g : ℕ) :
    relabelG m p g < 2 ^ numEdgesN m := by
  unfold relabelG
  refine foldl_or_lt _ _ _ ?_ 0 (Nat.two_pow_pos _)
  intro idx hidx
  exact permEdgeIdx_lt hp (List.mem_range.1 hidx)

theorem relabelG_congr {m : ℕ} {p q : List ℕ}
    (hpq : ∀ x, x < m → p.getD x 0 = q.getD x 0) (g : ℕ) :
    relabelG m p g = relabelG m q g := by
  unfold relabelG
  have hfun : ∀ idx ∈ List.range (numEdgesN m),
      permEdgeIdx m p idx = permEdgeIdx m q idx := by
    intro idx hidx
    exact permEdgeIdx_congr hpq (List.mem_range.1 hidx)
  have hgen : ∀ (l : List ℕ) (acc : ℕ),
      (∀ idx ∈ l, permEdgeIdx m p idx = permEdgeIdx m q idx) →
      l.foldl (fun acc idx => if g.testBit idx then acc ||| (1 <<< permEdgeIdx m p idx)
        else acc) acc
      = l.foldl (fun acc idx => if g.testBit idx then acc ||| (1 <<< permEdgeIdx m q idx)
        else acc) acc := by
    intro l
    induction l with
    | nil => intro acc _; rfl
    | cons x xs ihl =>
      intro acc hx
      simp only [List.foldl_cons]
      rw [hx x (List.mem_cons_self x xs)]
      exact ihl _ (fun idx hidx => hx idx (List.mem_cons_of_mem x hidx))
  exact hgen _ 0 hfun

theorem testBit_lt_two_pow_false {g E t : ℕ} (hg : g < 2 ^ E) (ht : E ≤ t) :
    g.testBit t = false := by
  by_contra hbit
  rw [Bool.not_eq_false] at hbit
  have h1 : 2 ^ t ≤ g := Nat.testBit_implies_ge hbit
  have h2 : (2:ℕ) ^ E ≤ 2 ^ t := Nat.pow_le_pow_right (by omega) ht
  omega

theorem relabelG_id {m g : ℕ} (hg : g < 2 ^ numEdgesN m) :
    relabelG m (List.range m) g = g := by
  apply Nat.eq_of_testBit_eq
  intro t
  by_cases ht : t < numEdgesN m
  · rw [Bool.eq_iff_iff, relabelG_testBit_iff]
    constructor
    · rintro ⟨idx, hidx, hbit, heq⟩
      rw [permEdgeIdx_id hidx] at heq
      rwa [← heq]
    · intro hbit
      exact ⟨t, ht, hbit, permEdgeIdx_id ht⟩
  · rw [testBit_lt_two_pow_false hg (by omega)]
    rw [relabelG_testBit, List.any_eq_false]
    intro idx hidx
    simp only [Bool.and_eq_true, decide_eq_true_eq, not_and]
    intro hbit heq
    have hlt : idx < numEdgesN m := List.mem_range.1 hidx
    rw [permEdgeIdx_id hlt] at heq
    omega

theorem relabelG_comp {m : ℕ} {p q : List ℕ} (hp : permListP m p) (hq : permListP m q)
    (g : ℕ) : relabelG m p (relabelG m q g) = relabelG m (compPermL p q) g := by
  apply Nat.eq_of_testBit_eq
  intro t
  rw [Bool.eq_iff_iff, relabelG_testBit_iff, relabelG_testBit_iff]
  constructor
  · rintro ⟨idx, hidx, hbit, heq⟩
    obtain ⟨idx0, hidx0, hbit0, heq0⟩ := relabelG_testBit_iff.1 hbit
    refine ⟨idx0, hidx0, hbit0, ?_⟩
    rw [← permEdgeIdx_comp hp hq hidx0, heq0, heq]
  · rintro ⟨idx, hidx, hbit, heq⟩
    refine ⟨permEdgeIdx m q idx, permEdgeIdx_lt hq hidx, ?_, ?_⟩
    · exact relabelG_testBit_iff.2 ⟨idx, hidx, hbit, rfl⟩
    · rw [permEdgeIdx_comp hp hq hidx, heq]

theorem relabelG_inv {m : ℕ} {p : List ℕ} (hp : permListP m p) {g : ℕ}
    (hg : g < 2 ^ numEdgesN m) :
    relabelG m (invPermL m p) (relabelG m p g) = g := by
  rw [relabelG_comp hp.invPermL hp g]
  rw [relabelG_congr (q := List.range m) ?_ g]
  · exact relabelG_id hg
  · intro x hx
    rw [compPermL_getD (by rw [hp.1]; exact hx), hp.invPermL_left hx,
      List.getD_eq_getElem (List.range m) 0 (by simpa using hx)]
    exact (List.getElem_range _ _).symm

/-- Graph.edgeCount of filter_maximal.go: sum of the low bit while shifting
right, rendered with fuel 64 covering every uint64. -/
def edgeCountAux : ℕ → ℕ → ℕ
  | 0, _ => 0
  | (f+1), g => if g = 0 then 0 else g % 2 + edgeCountAux f (g / 2)

def edgeCountF (g : ℕ) : ℕ := edgeCountAux 64 g

theorem edgeCountAux_card : ∀ (f g : ℕ), g < 2 ^ f →
    edgeCountAux f g = ((Finset.range f).filter (fun t => g.testBit t)).card := by
  intro f
  induction f with
  | zero =>
    intro g hg
    interval_cases g
    rfl
  | succ f ihf =>
    intro g hg
    by_cases h0 : g = 0
    · subst h0
      show 0 = _
      rw [Finset.filter_false_of_mem, Finset.card_empty]
      intro t _
      simp
    · show (if g = 0 then 0 else g % 2 + edgeCountAux f (g / 2)) = _
      rw [if_neg h0, ihf (g / 2) (by omega), Finset.card_filter, Finset.card_filter,
        Finset.sum_range_succ']
      have h2 : (if g.testBit 0 then (1:ℕ) else 0) = g % 2 := by
        rw [Nat.testBit_zero]
        rcases Nat.mod_two_eq_zero_or_one g with h | h <;> rw [h] <;> simp
      have h1 : ∀ i ∈ Finset.range f, (if g.testBit (i + 1) then (1:ℕ) else 0)
          = if (g / 2).testBit i then (1:ℕ) else 0 := by
        intro i _
        rw [Nat.testBit_add_one]
      rw [Finset.sum_congr rfl h1, h2]
      omega

theorem edgeCountF_card {g : ℕ} (hg : g < 2 ^ 64) :
    edgeCountF g = ((Finset.range 64).filter (fun t => g.testBit t)).card :=
  edgeCountAux_card 64 g hg


theorem compPermL_inv_left_getD {m : ℕ} {p : List ℕ} (hp : permListP m p) :
    ∀ x, x < m → (compPermL (invPermL m p) p).getD x 0 = (List.range m).getD x 0 := by
  intro x hx
  rw [compPermL_getD (by rw [hp.1]; exact hx), hp.invPermL_left hx,
    List.getD_eq_getElem (List.range m) 0 (by simpa using hx)]
  exact (List.getElem_range _ _).symm

theorem permEdgeIdx_inj {m : ℕ} {p : List ℕ} (hp : permListP m p) {idx idx' : ℕ}
    (h1 : idx < numEdgesN m) (h2 : idx' < numEdgesN m)
    (heq : permEdgeIdx m p idx = permEdgeIdx m p idx') : idx = idx' := by
  have e1 : permEdgeIdx m (invPermL m p) (permEdgeIdx m p idx) = idx := by
    rw [permEdgeIdx_comp hp.invPermL hp h1,
      permEdgeIdx_congr (compPermL_inv_left_getD hp) h1, permEdgeIdx_id h1]
  have e2 : permEdgeIdx m (invPermL m p) (permEdgeIdx m p idx') = idx' := by
    rw [permEdgeIdx_comp hp.invPermL hp h2,
      permEdgeIdx_congr (compPermL_inv_left_getD hp) h2, permEdgeIdx_id h2]
  rw [← e1, ← e2, heq]

theorem bitsFinset_eq_of_lt {g E : ℕ} (hg : g < 2 ^ E) (hE : E ≤ 64) :
    (Finset.range 64).filter (fun t => g.testBit t)
      = (Finset.range E).filter (fun t => g.testBit t) := by
  ext t
  simp only [Finset.mem_filter, Finset.mem_range]
  constructor
  · rintro ⟨h64, hbit⟩
    refine ⟨?_, hbit⟩
    by_contra hte
    push_neg at hte
    rw [testBit_lt_two_pow_false hg hte] at hbit
    exact absurd hbit (by simp)
  · rintro ⟨htE, hbit⟩
    exact ⟨by omega, hbit⟩

theorem edgeCountF_relabel {m : ℕ} {p : List ℕ} (hp : permListP m p)
    (hE : numEdgesN m ≤ 64) {g : ℕ} (hg : g < 2 ^ numEdgesN m) :
    edgeCountF (relabelG m p g) = edgeCountF g := by
  have hg64 : g < 2 ^ 64 :=
    lt_of_lt_of_le hg (Nat.pow_le_pow_right (by omega) hE)
  have hr64 : relabelG m p g < 2 ^ 64 :=
    lt_of_lt_of_le (relabelG_lt hp g) (Nat.pow_le_pow_right (by omega) hE)
  rw [edgeCountF_card hg64, edgeCountF_card hr64,
    bitsFinset_eq_of_lt hg hE, bitsFinset_eq_of_lt (relabelG_lt hp g) hE]
  have himg : (Finset.range (numEdgesN m)).filter (fun t => (relabelG m p g).testBit t)
      = Finset.image (permEdgeIdx m p)
          ((Finset.range (numEdgesN m)).filter (fun t => g.testBit t)) := by
    ext t
    simp only [Finset.mem_filter, Finset.mem_range, Finset.mem_image]
    constructor
    · rintro ⟨htE, hbit⟩
      obtain ⟨idx, hidx, hgb, heq⟩ := relabelG_testBit_iff.1 hbit
      exact ⟨idx, ⟨hidx, hgb⟩, heq⟩
    · rintro ⟨idx, ⟨hidx, hgb⟩, heq⟩
      refine ⟨?_, relabelG_testBit_iff.2 ⟨idx, hidx, hgb, heq⟩⟩
      rw [← heq]
      exact permEdgeIdx_lt hp hidx
  rw [himg]
  apply Finset.card_image_of_injOn
  intro x hx y hy hxy
  simp only [Finset.coe_filter, Set.mem_setOf_eq, Finset.mem_range] at hx hy
  exact permEdgeIdx_inj hp hx.1 hy.1 hxy

theorem testBit_of_land_self {a b t : ℕ} (h : a &&& b = a)
    (hbit : a.testBit t = true) : b.testBit t = true := by
  have hc := congrArg (fun x => Nat.testBit x t) h
  simp only [Nat.testBit_land] at hc
  rw [hbit] at hc
  simpa using hc

theorem edgeCountF_le_of_land {a b : ℕ} (ha : a < 2 ^ 64) (hb : b < 2 ^ 64)
    (h : a &&& b = a) : edgeCountF a ≤ edgeCountF b := by
  rw [edgeCountF_card ha, edgeCountF_card hb]
  apply Finset.card_le_card
  intro t ht
  simp only [Finset.mem_filter] at ht ⊢
  exact ⟨ht.1, testBit_of_land_self h ht.2⟩

theorem eq_of_land_of_count {a b : ℕ} (ha : a < 2 ^ 64) (hb : b < 2 ^ 64)
    (h : a &&& b = a) (hc : edgeCountF a = edgeCountF b) : a = b := by
  rw [edgeCountF_card ha, edgeCountF_card hb] at hc
  have hsub : (Finset.range 64).filter (fun t => a.testBit t)
      ⊆ (Finset.range 64).filter (fun t => b.testBit t) := by
    intro t ht
    simp only [Finset.mem_filter] at ht ⊢
    exact ⟨ht.1, testBit_of_land_self h ht.2⟩
  have heqs := Finset.eq_of_subset_of_card_le hsub (le_of_eq hc.symm)
  apply Nat.eq_of_testBit_eq
  intro t
  by_cases ht : t < 64
  · have := congrArg (fun s => t ∈ s) heqs
    simp only [Finset.mem_filter, Finset.mem_range, eq_iff_iff] at this
    by_cases h1 : a.testBit t = true
    · have h2 : b.testBit t = true := testBit_of_land_self h h1
      rw [h1, h2]
    · have h2 : ¬ b.testBit t = true := by
        intro hb2
        exact h1 (this.2 ⟨ht, hb2⟩).2
      rw [Bool.not_eq_true] at h1 h2
      rw [h1, h2]
  · rw [testBit_lt_two_pow_false ha (by omega), testBit_lt_two_pow_false hb (by omega)]

/-- Graph.canonical of canonicalize.go: the running minimum of the relabeled
bitmasks over every permutation the generator emits, started at g itself. -/
def canonicalG (m g : ℕ) : ℕ :=
  ((heapGen m (List.range m)).1).foldl
    (fun best p => if relabelG m p g < best then relabelG m p g else best) g

theorem foldl_best_le_init {m g : ℕ} :
    ∀ (l : List (List ℕ)) (a : ℕ),
      l.foldl (fun best p => if relabelG m p g < best then relabelG m p g else best) a
        ≤ a := by
  intro l
  induction l with
  | nil =>
    intro a
    exact le_refl a
  | cons x xs ihl =>
    intro a
    simp only [List.foldl_cons]
    refine le_trans (ihl _) ?_
    split <;> omega

theorem foldl_best_le_mem {m g : ℕ} :
    ∀ (l : List (List ℕ)) (a : ℕ) (p : List ℕ), p ∈ l →
      l.foldl (fun best p => if relabelG m p g < best then relabelG m p g else best) a
        ≤ relabelG m p g := by
  intro l
  induction l with
  | nil =>
    intro a p hp
    exact absurd hp (List.not_mem_nil p)
  | cons x xs ihl =>
    intro a p hp
    simp only [List.foldl_cons]
    rcases List.mem_cons.1 hp with rfl | hp
    · refine le_trans (foldl_best_le_init xs _) ?_
      split <;> omega
    · exact ihl _ p hp

theorem foldl_best_cases {m g : ℕ} :
    ∀ (l : List (List ℕ)) (a : ℕ),
      l.foldl (fun best p => if relabelG m p g < best then relabelG m p g else best) a = a
      ∨ ∃ p ∈ l,
          l.foldl (fun best p => if relabelG m p g < best then relabelG m p g else best) a
            = relabelG m p g := by
  intro l
  induction l with
  | nil =>
    intro a
    exact Or.inl rfl
  | cons x xs ihl =>
    intro a
    simp only [List.foldl_cons]
    rcases ihl (if relabelG m x g < a then relabelG m x g else a) with h | ⟨p, hp, h⟩
    · by_cases hxa : relabelG m x g < a
      · right
        refine ⟨x, List.mem_cons_self x xs, ?_⟩
        rw [h, if_pos hxa]
      · left
        rw [h, if_neg hxa]
    · right
      exact ⟨p, List.mem_cons_of_mem x hp, h⟩

theorem canonicalG_le {m g : ℕ} (hm : 1 ≤ m) {q : List ℕ} (hq : permListP m q) :
    canonicalG m g ≤ relabelG m q g :=
  foldl_best_le_mem _ g q ((mem_heapPerms hm).2 hq)

theorem canonicalG_is_relabel {m g : ℕ} (hm : 1 ≤ m) (hg : g < 2 ^ numEdgesN m) :
    ∃ p, permListP m p ∧ canonicalG m g = relabelG m p g := by
  rcases foldl_best_cases ((heapGen m (List.range m)).1) g with h | ⟨p, hp, h⟩
  · exact ⟨List.range m, permListP_range m, by rw [relabelG_id hg]; exact h⟩
  · exact ⟨p, (mem_heapPerms hm).1 hp, h⟩

/-- Claim C7.  Canonicalization is idempotent and relabeling-invariant: for a
graph bitmask on m vertices, canonical(canonical(G)) = canonical(G), and for
every vertex permutation pi, canonical(pi(G)) = canonical(G), where canonical
is the minimum relabeled bitmask over the n! permutations the generator
emits. -/
theorem C7_canonical_idempotent_invariant (m g : ℕ) (hm : 1 ≤ m)
    (hg : g < 2 ^ numEdgesN m) :
    canonicalG m (canonicalG m g) = canonicalG m g
    ∧ ∀ p, permListP m p → canonicalG m (relabelG m p g) = canonicalG m g := by
  have hinv : ∀ p, permListP m p → canonicalG m (relabelG m p g) = canonicalG m g := by
    intro p hp
    have hrg : relabelG m p g < 2 ^ numEdgesN m := relabelG_lt hp g
    obtain ⟨p1, hp1, he1⟩ := canonicalG_is_relabel hm hg
    obtain ⟨p0, hp0, he0⟩ := canonicalG_is_relabel hm hrg
    apply le_antisymm
    · have hcomp : relabelG m (compPermL p1 (invPermL m p)) (relabelG m p g)
          = relabelG m p1 g := by
        rw [← relabelG_comp hp1 hp.invPermL, relabelG_inv hp hg]
      rw [he1, ← hcomp]
      exact canonicalG_le hm (hp1.compPermL hp.invPermL)
    · rw [he0, relabelG_comp hp0 hp]
      exact canonicalG_le hm (hp0.compPermL hp)
  refine ⟨?_, hinv⟩
  obtain ⟨p1, hp1, he1⟩ := canonicalG_is_relabel hm hg
  exact (congrArg (fun x => canonicalG m x) he1).trans (hinv p1 hp1)

theorem C7_canonical_idempotent_invariant_witness :
    (1 ≤ 3 ∧ 5 < 2 ^ numEdgesN 3)
    ∧ (canonicalG 3 (canonicalG 3 5) = canonicalG 3 5
       ∧ ∀ p, permListP 3 p → canonicalG 3 (relabelG 3 p 5) = canonicalG 3 5) :=
  ⟨⟨by decide, by decide⟩, C7_canonical_idempotent_invariant 3 5 (by decide) (by decide)⟩


/-- Graph.isIsomorphicSubgraphOf of filter_maximal.go: some permutation
relabels g into a subset (bitwise and) of other. -/
def isIsomorphicSubgraphOf (m g other : ℕ) : Bool :=
  (permutationsL m).any (fun p => relabelG m p g &&& other == relabelG m p g)

theorem isIso_true_iff {m g other : ℕ} (hm : 1 ≤ m) :
    isIsomorphicSubgraphOf m g other = true
      ↔ ∃ p, permListP m p ∧ relabelG m p g &&& other = relabelG m p g := by
  unfold isIsomorphicSubgraphOf
  rw [List.any_eq_true]
  constructor
  · rintro ⟨p, hmem, hcond⟩
    exact ⟨p, (mem_permutationsL hm).1 hmem, by simpa using hcond⟩
  · rintro ⟨p, hp, hcond⟩
    exact ⟨p, (mem_permutationsL hm).2 hp, by simpa using hcond⟩

theorem iso_false_of_accepted {m : ℕ} (hm : 1 ≤ m) (hE : numEdgesN m ≤ 64)
    {G g : ℕ} (hG : G < 2 ^ numEdgesN m) (hg : g < 2 ^ numEdgesN m)
    (hcnt : edgeCountF g ≤ edgeCountF G)
    (hnot : isIsomorphicSubgraphOf m g G = false) :
    isIsomorphicSubgraphOf m G g = false := by
  by_contra hiso
  rw [Bool.not_eq_false] at hiso
  obtain ⟨p, hp, hsub⟩ := (isIso_true_iff hm).1 hiso
  have h64 : ∀ x : ℕ, x < 2 ^ numEdgesN m → x < 2 ^ 64 :=
    fun x hx => lt_of_lt_of_le hx (Nat.pow_le_pow_right (by omega) hE)
  have hrel : edgeCountF (relabelG m p G) = edgeCountF G := edgeCountF_relabel hp hE hG
  have hle : edgeCountF (relabelG m p G) ≤ edgeCountF g :=
    edgeCountF_le_of_land (h64 _ (relabelG_lt hp G)) (h64 _ hg) hsub
  have heq : relabelG m p G = g :=
    eq_of_land_of_count (h64 _ (relabelG_lt hp G)) (h64 _ hg) hsub (by omega)
  have hback : isIsomorphicSubgraphOf m g G = true := by
    refine (isIso_true_iff hm).2 ⟨invPermL m p, hp.invPermL, ?_⟩
    rw [← heq, relabelG_inv hp hG]
    exact Nat.eq_of_testBit_eq (fun t => by rw [Nat.testBit_land, Bool.and_self])
  rw [hback] at hnot
  exact absurd hnot (by simp)

/-- The maximality filter loop of filter_maximal.go: keep a graph iff it is
not an isomorphic subgraph of an already kept one. -/
def filterMaximalF (m : ℕ) (graphs : List ℕ) : List ℕ :=
  graphs.foldl (fun maximal g =>
    if maximal.any (fun h => isIsomorphicSubgraphOf m g h) then maximal
    else maximal ++ [g]) []

theorem filterMaximal_aux {m : ℕ} (hm : 1 ≤ m) (hE : numEdgesN m ≤ 64) :
    ∀ (rest acc : List ℕ),
      (∀ h ∈ acc, h < 2 ^ numEdgesN m) →
      (∀ g ∈ rest, g < 2 ^ numEdgesN m) →
      (∀ h ∈ acc, ∀ g ∈ rest, edgeCountF g ≤ edgeCountF h) →
      List.Pairwise (fun a b => edgeCountF b ≤ edgeCountF a) rest →
      (∀ G ∈ acc, ∀ H ∈ acc, G ≠ H → isIsomorphicSubgraphOf m G H = false) →
      ∀ G ∈ rest.foldl (fun maximal g =>
          if maximal.any (fun h => isIsomorphicSubgraphOf m g h) then maximal
          else maximal ++ [g]) acc,
        ∀ H ∈ rest.foldl (fun maximal g =>
          if maximal.any (fun h => isIsomorphicSubgraphOf m g h) then maximal
          else maximal ++ [g]) acc,
        G ≠ H → isIsomorphicSubgraphOf m G H = false := by
  intro rest
  induction rest with
  | nil =>
    intro acc _ _ _ _ hpair
    exact hpair
  | cons g rest ihr =>
    intro acc hacc hrest hcnt hsorted hpair
    simp only [List.foldl_cons]
    obtain ⟨hhd, htl⟩ := List.pairwise_cons.1 hsorted
    by_cases hany : acc.any (fun h => isIsomorphicSubgraphOf m g h)
    · rw [if_pos hany]
      refine ihr acc hacc (fun x hx => hrest x (List.mem_cons_of_mem g hx))
        (fun h hh x hx => hcnt h hh x (List.mem_cons_of_mem g hx)) htl hpair
    · rw [if_neg hany]
      rw [Bool.not_eq_true] at hany
      have hanyf : ∀ x ∈ acc, isIsomorphicSubgraphOf m g x = false := by
        intro x hx
        have := List.any_eq_false.1 hany x hx
        rwa [Bool.not_eq_true] at this
      have hgwf : g < 2 ^ numEdgesN m := hrest g (List.mem_cons_self g rest)
      refine ihr (acc ++ [g]) ?_ (fun x hx => hrest x (List.mem_cons_of_mem g hx))
        ?_ htl ?_
      · intro h hh
        rcases List.mem_append.1 hh with hh | hh
        · exact hacc h hh
        · rw [List.mem_singleton.1 hh]
          exact hgwf
      · intro h hh x hx
        rcases List.mem_append.1 hh with hh | hh
        · exact hcnt h hh x (List.mem_cons_of_mem g hx)
        · rw [List.mem_singleton.1 hh]
          exact hhd x hx
      · intro G hG H hH hGH
        rcases List.mem_append.1 hG with hG | hG <;>
          rcases List.mem_append.1 hH with hH | hH
        · exact hpair G hG H hH hGH
        · rw [List.mem_singleton.1 hH]
          exact iso_false_of_accepted hm hE (hacc G hG) hgwf
            (hcnt G hG g (List.mem_cons_self g rest)) (hanyf G hG)
        · rw [List.mem_singleton.1 hG]
          exact hanyf H hH
        · exact absurd ((List.mem_singleton.1 hG).trans
            (List.mem_singleton.1 hH).symm) hGH

/-- Claim C4.  Pairwise maximality of the filter output: processing a pool
sorted by non-increasing edge count and keeping a graph iff it is not an
isomorphic subgraph of an already kept one, no kept graph is an isomorphic
subgraph of any other kept graph, in either acceptance order. -/
theorem C4_filter_pairwise_maximal (m : ℕ) (graphs : List ℕ) (hm : 1 ≤ m)
    (hE : numEdgesN m ≤ 64) (hwf : ∀ g ∈ graphs, g < 2 ^ numEdgesN m)
    (hsorted : List.Pairwise (fun a b => edgeCountF b ≤ edgeCountF a) graphs) :
    ∀ G ∈ filterMaximalF m graphs, ∀ H ∈ filterMaximalF m graphs,
      G ≠ H → isIsomorphicSubgraphOf m G H = false := by
  unfold filterMaximalF
  exact filterMaximal_aux hm hE graphs []
    (by intro h hh; exact absurd hh (List.not_mem_nil h)) hwf
    (by intro h hh; exact absurd hh (List.not_mem_nil h)) hsorted
    (by intro G hG; exact absurd hG (List.not_mem_nil G))

theorem C4_filter_pairwise_maximal_witness :
    (1 ≤ 3 ∧ numEdgesN 3 ≤ 64 ∧ (∀ g ∈ [(3:ℕ), 1], g < 2 ^ numEdgesN 3)
      ∧ List.Pairwise (fun a b => edgeCountF b ≤ edgeCountF a) [(3:ℕ), 1])
    ∧ ∀ G ∈ filterMaximalF 3 [3, 1], ∀ H ∈ filterMaximalF 3 [3, 1],
        G ≠ H → isIsomorphicSubgraphOf 3 G H = false :=
  ⟨⟨by decide, by decide, by decide, by decide⟩,
   C4_filter_pairwise_maximal 3 [3, 1] (by decide) (by decide) (by decide) (by decide)⟩


/-!
The SAT encoding of find_fourth/main.go solveSAT.  DIMACS-style literals are
integers: a positive literal v asserts variable v, a negative literal -v
denies it.  An assignment is a function from variable numbers to Bool.
-/

/-- Placement variable numbering of solveSAT: item*n + slot + 1. -/
def varIdx (n item slot : ℕ) : ℕ := item * n + slot + 1

/-- The adjacent ordered slot pairs in the row-major order the aux-variable
loop visits them. -/
def adjListL (n : ℕ) (adj : ℕ → ℕ → Bool) : List (ℕ × ℕ) :=
  (List.range n).flatMap (fun s1 =>
    (List.range n).filterMap (fun s2 => if adj s1 s2 then some (s1, s2) else none))

/-- The auxiliary variable for the j-th adjacent slot pair of the k-th
uncovered pair: nextVar starts at n*n + 1 and each pair consumes one variable
per adjacent ordered slot pair. -/
def auxVar (n A k j : ℕ) : ℕ := n * n + 1 + k * A + j

def litSatB (ν : ℕ → Bool) (l : ℤ) : Bool :=
  if 0 < l then ν l.toNat else !(ν (-l).toNat)

def clauseSatB (ν : ℕ → Bool) (c : List ℤ) : Bool := c.any (litSatB ν)

def cnfSatB (ν : ℕ → Bool) (F : List (List ℤ)) : Bool := F.all (clauseSatB ν)

/-- The clause list solveSAT hands to the solver: at-least/at-most-one in both
directions over the placement variables, then per uncovered pair the
definition clauses of its auxiliary variables followed by their disjunction. -/
def solveSATClauses (n : ℕ) (pairs : List (ℕ × ℕ)) (adj : ℕ → ℕ → Bool) :
    List (List ℤ) :=
  ((List.range n).map (fun item =>
    (List.range n).map (fun slot => (varIdx n item slot : ℤ))))
  ++ ((List.range n).flatMap (fun item => (List.range n).flatMap (fun s1 =>
       (List.range' (s1+1) (n - (s1+1))).map (fun s2 =>
         [-(varIdx n item s1 : ℤ), -(varIdx n item s2 : ℤ)]))))
  ++ ((List.range n).map (fun slot =>
       (List.range n).map (fun item => (varIdx n item slot : ℤ))))
  ++ ((List.range n).flatMap (fun slot => (List.range n).flatMap (fun i1 =>
       (List.range' (i1+1) (n - (i1+1))).map (fun i2 =>
         [-(varIdx n i1 slot : ℤ), -(varIdx n i2 slot : ℤ)]))))
  ++ ((List.range pairs.length).flatMap (fun k =>
       ((List.range (adjListL n adj).length).flatMap (fun j =>
         [[-(auxVar n (adjListL n adj).length k j : ℤ),
           (varIdx n (pairs.getD k (0, 0)).1 ((adjListL n adj).getD j (0, 0)).1 : ℤ)],
          [-(auxVar n (adjListL n adj).length k j : ℤ),
           (varIdx n (pairs.getD k (0, 0)).2 ((adjListL n adj).getD j (0, 0)).2 : ℤ)],
          [-(varIdx n (pairs.getD k (0, 0)).1 ((adjListL n adj).getD j (0, 0)).1 : ℤ),
           -(varIdx n (pairs.getD k (0, 0)).2 ((adjListL n adj).getD j (0, 0)).2 : ℤ),
           (auxVar n (adjListL n adj).length k j : ℤ)]]))
       ++ [(List.range (adjListL n adj).length).map (fun j =>
            (auxVar n (adjListL n adj).length k j : ℤ))]))

/-- The model decoding loop of solveSAT: for each item take the first slot
whose placement variable is true and write the item there. -/
def decodeArr3 (n : ℕ) (ν : ℕ → Bool) : List ℕ :=
  (List.range n).foldl (fun arr3 item =>
    match (List.range n).find? (fun slot => ν (varIdx n item slot)) with
    | some slot => arr3.set slot item
    | none => arr3) (List.replicate n 0)

theorem varIdx_pos (n item slot : ℕ) : 0 < varIdx n item slot := by
  unfold varIdx
  omega

theorem varIdx_le {n item slot : ℕ} (hi : item < n) (hs : slot < n) :
    varIdx n item slot ≤ n * n := by
  unfold varIdx
  have : item * n + n ≤ n * n := by
    have := Nat.mul_le_mul_right n (show item + 1 ≤ n by omega)
    calc item * n + n = (item + 1) * n := by ring
      _ ≤ n * n := this
  omega

theorem varIdx_inj {n i1 s1 i2 s2 : ℕ} (h1 : s1 < n) (h2 : s2 < n)
    (h : varIdx n i1 s1 = varIdx n i2 s2) : i1 = i2 ∧ s1 = s2 := by
  unfold varIdx at h
  constructor
  · by_contra hne
    rcases Nat.lt_or_ge i1 i2 with hlt | hge
    · have : i1 * n + n ≤ i2 * n := by
        calc i1 * n + n = (i1 + 1) * n := by ring
          _ ≤ i2 * n := Nat.mul_le_mul_right n (by omega)
      omega
    · have hlt : i2 < i1 := by omega
      have : i2 * n + n ≤ i1 * n := by
        calc i2 * n + n = (i2 + 1) * n := by ring
          _ ≤ i1 * n := Nat.mul_le_mul_right n (by omega)
      omega
  · have hi : i1 = i2 := by
      by_contra hne
      rcases Nat.lt_or_ge i1 i2 with hlt | hge
      · have : i1 * n + n ≤ i2 * n := by
          calc i1 * n + n = (i1 + 1) * n := by ring
            _ ≤ i2 * n := Nat.mul_le_mul_right n (by omega)
        omega
      · have hlt : i2 < i1 := by omega
        have : i2 * n + n ≤ i1 * n := by
          calc i2 * n + n = (i2 + 1) * n := by ring
            _ ≤ i1 * n := Nat.mul_le_mul_right n (by omega)
        omega
    subst hi
    omega

theorem auxVar_gt {n A k j : ℕ} : n * n < auxVar n A k j := by
  unfold auxVar
  omega

theorem auxVar_inj {n A k1 j1 k2 j2 : ℕ} (h1 : j1 < A) (h2 : j2 < A)
    (h : auxVar n A k1 j1 = auxVar n A k2 j2) : k1 = k2 ∧ j1 = j2 := by
  unfold auxVar at h
  have hk : k1 = k2 := by
    by_contra hne
    rcases Nat.lt_or_ge k1 k2 with hlt | hge
    · have : k1 * A + A ≤ k2 * A := by
        calc k1 * A + A = (k1 + 1) * A := by ring
          _ ≤ k2 * A := Nat.mul_le_mul_right A (by omega)
      omega
    · have hlt : k2 < k1 := by omega
      have : k2 * A + A ≤ k1 * A := by
        calc k2 * A + A = (k2 + 1) * A := by ring
          _ ≤ k1 * A := Nat.mul_le_mul_right A (by omega)
      omega
  subst hk
  omega

theorem litSatB_pos (ν : ℕ → Bool) {v : ℕ} (hv : 0 < v) :
    litSatB ν (v : ℤ) = ν v := by
  unfold litSatB
  rw [if_pos (by exact_mod_cast hv)]
  simp

theorem litSatB_neg (ν : ℕ → Bool) (v : ℕ) (hv : 0 < v) :
    litSatB ν (-(v : ℤ)) = !(ν v) := by
  unfold litSatB
  rw [if_neg (by omega), neg_neg]
  simp

theorem cnfSatB_iff {ν : ℕ → Bool} {F : List (List ℤ)} :
    cnfSatB ν F = true ↔ ∀ c ∈ F, clauseSatB ν c = true := by
  unfold cnfSatB
  rw [List.all_eq_true]

theorem clauseSatB_iff {ν : ℕ → Bool} {c : List ℤ} :
    clauseSatB ν c = true ↔ ∃ l ∈ c, litSatB ν l = true := by
  unfold clauseSatB
  rw [List.any_eq_true]

theorem mem_adjListL {n : ℕ} {adj : ℕ → ℕ → Bool} {p : ℕ × ℕ} :
    p ∈ adjListL n adj ↔ p.1 < n ∧ p.2 < n ∧ adj p.1 p.2 = true := by
  unfold adjListL
  simp only [List.mem_flatMap, List.mem_filterMap, List.mem_range]
  constructor
  · rintro ⟨s1, hs1, s2, hs2, hif⟩
    split at hif
    · obtain ⟨rfl, rfl⟩ : s1 = p.1 ∧ s2 = p.2 := by
        have := Option.some_inj.1 hif
        rw [← this]
        exact ⟨rfl, rfl⟩
      refine ⟨hs1, hs2, by assumption⟩
    · exact absurd hif (by simp)
  · rintro ⟨h1, h2, hadj⟩
    exact ⟨p.1, h1, p.2, h2, by rw [if_pos hadj]⟩

theorem adjListL_getD_mem {n : ℕ} {adj : ℕ → ℕ → Bool} {j : ℕ}
    (hj : j < (adjListL n adj).length) :
    ((adjListL n adj).getD j (0, 0)).1 < n
    ∧ ((adjListL n adj).getD j (0, 0)).2 < n
    ∧ adj ((adjListL n adj).getD j (0, 0)).1 ((adjListL n adj).getD j (0, 0)).2
        = true := by
  rw [List.getD_eq_getElem _ _ hj]
  exact mem_adjListL.1 (List.getElem_mem _)


theorem memSAT_itemAtLeast {n : ℕ} {pairs : List (ℕ × ℕ)} {adj : ℕ → ℕ → Bool}
    {item : ℕ} (hi : item < n) :
    ((List.range n).map (fun slot => (varIdx n item slot : ℤ)))
      ∈ solveSATClauses n pairs adj := by
  unfold solveSATClauses
  exact List.mem_append_left _ (List.mem_append_left _ (List.mem_append_left _
    (List.mem_append_left _ (List.mem_map.2 ⟨item, List.mem_range.2 hi, rfl⟩))))

theorem memSAT_itemAtMost {n : ℕ} {pairs : List (ℕ × ℕ)} {adj : ℕ → ℕ → Bool}
    {item s1 s2 : ℕ} (hi : item < n) (h12 : s1 < s2) (h2 : s2 < n) :
    [-(varIdx n item s1 : ℤ), -(varIdx n item s2 : ℤ)]
      ∈ solveSATClauses n pairs adj := by
  unfold solveSATClauses
  refine List.mem_append_left _ (List.mem_append_left _ (List.mem_append_left _
    (List.mem_append_right _ ?_)))
  refine List.mem_flatMap.2 ⟨item, List.mem_range.2 hi, ?_⟩
  refine List.mem_flatMap.2 ⟨s1, List.mem_range.2 (by omega), ?_⟩
  exact List.mem_map.2 ⟨s2, List.mem_range'_1.2 ⟨by omega, by omega⟩, rfl⟩

theorem memSAT_slotAtLeast {n : ℕ} {pairs : List (ℕ × ℕ)} {adj : ℕ → ℕ → Bool}
    {slot : ℕ} (hs : slot < n) :
    ((List.range n).map (fun item => (varIdx n item slot : ℤ)))
      ∈ solveSATClauses n pairs adj := by
  unfold solveSATClauses
  exact List.mem_append_left _ (List.mem_append_left _ (List.mem_append_right _
    (List.mem_map.2 ⟨slot, List.mem_range.2 hs, rfl⟩)))

theorem memSAT_slotAtMost {n : ℕ} {pairs : List (ℕ × ℕ)} {adj : ℕ → ℕ → Bool}
    {slot i1 i2 : ℕ} (hs : slot < n) (h12 : i1 < i2) (h2 : i2 < n) :
    [-(varIdx n i1 slot : ℤ), -(varIdx n i2 slot : ℤ)]
      ∈ solveSATClauses n pairs adj := by
  unfold solveSATClauses
  refine List.mem_append_left _ (List.mem_append_right _ ?_)
  refine List.mem_flatMap.2 ⟨slot, List.mem_range.2 hs, ?_⟩
  refine List.mem_flatMap.2 ⟨i1, List.mem_range.2 (by omega), ?_⟩
  exact List.mem_map.2 ⟨i2, List.mem_range'_1.2 ⟨by omega, by omega⟩, rfl⟩

theorem memSAT_auxDef1 {n : ℕ} {pairs : List (ℕ × ℕ)} {adj : ℕ → ℕ → Bool}
    {k j : ℕ} (hk : k < pairs.length) (hj : j < (adjListL n adj).length) :
    [-(auxVar n (adjListL n adj).length k j : ℤ),
     (varIdx n (pairs.getD k (0, 0)).1 ((adjListL n adj).getD j (0, 0)).1 : ℤ)]
      ∈ solveSATClauses n pairs adj := by
  unfold solveSATClauses
  refine List.mem_append_right _ ?_
  refine List.mem_flatMap.2 ⟨k, List.mem_range.2 hk, List.mem_append_left _ ?_⟩
  refine List.mem_flatMap.2 ⟨j, List.mem_range.2 hj, ?_⟩
  exact List.mem_cons_self _ _

theorem memSAT_auxDef2 {n : ℕ} {pairs : List (ℕ × ℕ)} {adj : ℕ → ℕ → Bool}
    {k j : ℕ} (hk : k < pairs.length) (hj : j < (adjListL n adj).length) :
    [-(auxVar n (adjListL n adj).length k j : ℤ),
     (varIdx n (pairs.getD k (0, 0)).2 ((adjListL n adj).getD j (0, 0)).2 : ℤ)]
      ∈ solveSATClauses n pairs adj := by
  unfold solveSATClauses
  refine List.mem_append_right _ ?_
  refine List.mem_flatMap.2 ⟨k, List.mem_range.2 hk, List.mem_append_left _ ?_⟩
  refine List.mem_flatMap.2 ⟨j, List.mem_range.2 hj, ?_⟩
  exact List.mem_cons_of_mem _ (List.mem_cons_self _ _)

theorem memSAT_auxDef3 {n : ℕ} {pairs : List (ℕ × ℕ)} {adj : ℕ → ℕ → Bool}
    {k j : ℕ} (hk : k < pairs.length) (hj : j < (adjListL n adj).length) :
    [-(varIdx n (pairs.getD k (0, 0)).1 ((adjListL n adj).getD j (0, 0)).1 : ℤ),
     -(varIdx n (pairs.getD k (0, 0)).2 ((adjListL n adj).getD j (0, 0)).2 : ℤ),
     (auxVar n (adjListL n adj).length k j : ℤ)]
      ∈ solveSATClauses n pairs adj := by
  unfold solveSATClauses
  refine List.mem_append_right _ ?_
  refine List.mem_flatMap.2 ⟨k, List.mem_range.2 hk, List.mem_append_left _ ?_⟩
  refine List.mem_flatMap.2 ⟨j, List.mem_range.2 hj, ?_⟩
  exact List.mem_cons_of_mem _ (List.mem_cons_of_mem _ (List.mem_cons_self _ _))

theorem memSAT_auxDisj {n : ℕ} {pairs : List (ℕ × ℕ)} {adj : ℕ → ℕ → Bool}
    {k : ℕ} (hk : k < pairs.length) :
    ((List.range (adjListL n adj).length).map
      (fun j => (auxVar n (adjListL n adj).length k j : ℤ)))
      ∈ solveSATClauses n pairs adj := by
  unfold solveSATClauses
  refine List.mem_append_right _ ?_
  refine List.mem_flatMap.2 ⟨k, List.mem_range.2 hk, List.mem_append_right _ ?_⟩
  exact List.mem_singleton.2 rfl

theorem auxVar_pos (n A k j : ℕ) : 0 < auxVar n A k j := by
  unfold auxVar
  omega

theorem solveSAT_model_facts {n : ℕ} {pairs : List (ℕ × ℕ)} {adj : ℕ → ℕ → Bool}
    {ν : ℕ → Bool} (hsat : cnfSatB ν (solveSATClauses n pairs adj) = true) :
    (∀ item, item < n → ∃ slot, slot < n ∧ ν (varIdx n item slot) = true)
    ∧ (∀ item s1 s2, item < n → s1 < s2 → s2 < n →
        ¬(ν (varIdx n item s1) = true ∧ ν (varIdx n item s2) = true))
    ∧ (∀ slot, slot < n → ∃ item, item < n ∧ ν (varIdx n item slot) = true)
    ∧ (∀ slot i1 i2, slot < n → i1 < i2 → i2 < n →
        ¬(ν (varIdx n i1 slot) = true ∧ ν (varIdx n i2 slot) = true))
    ∧ (∀ k, k < pairs.length → ∃ j, j < (adjListL n adj).length
        ∧ ν (varIdx n (pairs.getD k (0, 0)).1 ((adjListL n adj).getD j (0, 0)).1) = true
        ∧ ν (varIdx n (pairs.getD k (0, 0)).2 ((adjListL n adj).getD j (0, 0)).2)
            = true) := by
  rw [cnfSatB_iff] at hsat
  refine ⟨?_, ?_, ?_, ?_, ?_⟩
  · intro item hi
    obtain ⟨l, hl, hsl⟩ := clauseSatB_iff.1 (hsat _ (memSAT_itemAtLeast hi))
    simp only [List.mem_map, List.mem_range] at hl
    obtain ⟨slot, hs, rfl⟩ := hl
    rw [litSatB_pos ν (varIdx_pos n item slot)] at hsl
    exact ⟨slot, hs, hsl⟩
  · intro item s1 s2 hi h12 h2
    rintro ⟨ha, hb⟩
    obtain ⟨l, hl, hsl⟩ := clauseSatB_iff.1 (hsat _ (memSAT_itemAtMost hi h12 h2))
    rcases List.mem_cons.1 hl with rfl | hl
    · rw [litSatB_neg ν _ (varIdx_pos n item s1), ha] at hsl
      exact absurd hsl (by simp)
    · rcases List.mem_cons.1 hl with rfl | hl
      · rw [litSatB_neg ν _ (varIdx_pos n item s2), hb] at hsl
        exact absurd hsl (by simp)
      · exact absurd hl (List.not_mem_nil l)
  · intro slot hs
    obtain ⟨l, hl, hsl⟩ := clauseSatB_iff.1 (hsat _ (memSAT_slotAtLeast hs))
    simp only [List.mem_map, List.mem_range] at hl
    obtain ⟨item, hi, rfl⟩ := hl
    rw [litSatB_pos ν (varIdx_pos n item slot)] at hsl
    exact ⟨item, hi, hsl⟩
  · intro slot i1 i2 hs h12 h2
    rintro ⟨ha, hb⟩
    obtain ⟨l, hl, hsl⟩ := clauseSatB_iff.1 (hsat _ (memSAT_slotAtMost hs h12 h2))
    rcases List.mem_cons.1 hl with rfl | hl
    · rw [litSatB_neg ν _ (varIdx_pos n i1 slot), ha] at hsl
      exact absurd hsl (by simp)
    · rcases List.mem_cons.1 hl with rfl | hl
      · rw [litSatB_neg ν _ (varIdx_pos n i2 slot), hb] at hsl
        exact absurd hsl (by simp)
      · exact absurd hl (List.not_mem_nil l)
  · intro k hk
    obtain ⟨l, hl, hsl⟩ := clauseSatB_iff.1 (hsat _ (memSAT_auxDisj hk))
    simp only [List.mem_map, List.mem_range] at hl
    obtain ⟨j, hj, rfl⟩ := hl
    rw [litSatB_pos ν (auxVar_pos n (adjListL n adj).length k j)] at hsl
    refine ⟨j, hj, ?_, ?_⟩
    · obtain ⟨l, hl, hsl1⟩ := clauseSatB_iff.1 (hsat _ (memSAT_auxDef1 hk hj))
      rcases List.mem_cons.1 hl with rfl | hl
      · rw [litSatB_neg ν _ (auxVar_pos n (adjListL n adj).length k j), hsl] at hsl1
        exact absurd hsl1 (by simp)
      · rcases List.mem_cons.1 hl with rfl | hl
        · rwa [litSatB_pos ν (varIdx_pos n _ _)] at hsl1
        · exact absurd hl (List.not_mem_nil l)
    · obtain ⟨l, hl, hsl2⟩ := clauseSatB_iff.1 (hsat _ (memSAT_auxDef2 hk hj))
      rcases List.mem_cons.1 hl with rfl | hl
      · rw [litSatB_neg ν _ (auxVar_pos n (adjListL n adj).length k j), hsl] at hsl2
        exact absurd hsl2 (by simp)
      · rcases List.mem_cons.1 hl with rfl | hl
        · rwa [litSatB_pos ν (varIdx_pos n _ _)] at hsl2
        · exact absurd hl (List.not_mem_nil l)


theorem getD_set_ne' {l : List ℕ} {i j v : ℕ} (hij : i ≠ j) :
    (l.set i v).getD j 0 = l.getD j 0 := by
  by_cases hj : j < l.length
  · rw [List.getD_eq_getElem _ 0 (by simpa using hj), List.getElem_set_ne hij,
      List.getD_eq_getElem _ 0 hj]
  · rw [List.getD_eq_default _ 0 (by simpa using (by omega : l.length ≤ j)),
      List.getD_eq_default _ 0 (by omega)]

theorem getD_set_self' {l : List ℕ} {i v : ℕ} (hi : i < l.length) :
    (l.set i v).getD i 0 = v := by
  rw [List.getD_eq_getElem _ 0 (by simpa using hi)]
  exact List.getElem_set_self _

theorem find?_unique {P : ℕ → Bool} :
    ∀ (l : List ℕ) (s : ℕ), s ∈ l → P s = true →
      (∀ x ∈ l, P x = true → x = s) → l.find? P = some s := by
  intro l
  induction l with
  | nil =>
    intro s hs
    exact absurd hs (List.not_mem_nil s)
  | cons x xs ihl =>
    intro s hs hP huniq
    by_cases hPx : P x = true
    · have hxs : x = s := huniq x (List.mem_cons_self x xs) hPx
      rw [List.find?_cons, hPx]
      rw [hxs]
    · rw [List.find?_cons]
      rw [Bool.not_eq_true] at hPx
      rw [hPx]
      have hsxs : s ∈ xs := by
        rcases List.mem_cons.1 hs with rfl | h
        · rw [hP] at hPx
          exact absurd hPx (by simp)
        · exact h
      exact ihl s hsxs hP (fun y hy => huniq y (List.mem_cons_of_mem x hy))

theorem decode_fold_length {n : ℕ} {ν : ℕ → Bool} :
    ∀ (l : List ℕ) (acc : List ℕ),
      (l.foldl (fun arr3 item =>
        match (List.range n).find? (fun slot => ν (varIdx n item slot)) with
        | some slot => arr3.set slot item
        | none => arr3) acc).length = acc.length := by
  intro l
  induction l with
  | nil =>
    intro acc
    rfl
  | cons x xs ihl =>
    intro acc
    simp only [List.foldl_cons]
    rw [ihl]
    split <;> simp

theorem decodeArr3_length (n : ℕ) (ν : ℕ → Bool) : (decodeArr3 n ν).length = n := by
  unfold decodeArr3
  rw [decode_fold_length]
  exact List.length_replicate n 0

theorem decode_fold_frame {n : ℕ} {ν : ℕ → Bool} {s : ℕ} :
    ∀ (l : List ℕ) (acc : List ℕ),
      (∀ x ∈ l, ν (varIdx n x s) = false) →
      (l.foldl (fun arr3 item =>
        match (List.range n).find? (fun slot => ν (varIdx n item slot)) with
        | some slot => arr3.set slot item
        | none => arr3) acc).getD s 0 = acc.getD s 0 := by
  intro l
  induction l with
  | nil =>
    intro acc _
    rfl
  | cons x xs ihl =>
    intro acc hall
    simp only [List.foldl_cons]
    rw [ihl _ (fun y hy => hall y (List.mem_cons_of_mem x hy))]
    rcases hfind : (List.range n).find? (fun slot => ν (varIdx n x slot)) with _ | slot
    · rfl
    · have hPslot : ν (varIdx n x slot) = true := by
        have := List.find?_some hfind
        simpa using this
      have hne : slot ≠ s := by
        intro hc
        rw [hc, hall x (List.mem_cons_self x xs)] at hPslot
        exact absurd hPslot (by simp)
      exact getD_set_ne' hne

theorem decode_fold_getD {n : ℕ} {ν : ℕ → Bool} {item0 s : ℕ} (hs : s < n)
    (htrue : ν (varIdx n item0 s) = true)
    (huitem : ∀ s', s' < n → ν (varIdx n item0 s') = true → s' = s) :
    ∀ (l : List ℕ) (acc : List ℕ), acc.length = n → l.Nodup → item0 ∈ l →
      (∀ x ∈ l, x ≠ item0 → ν (varIdx n x s) = false) →
      (l.foldl (fun arr3 item =>
        match (List.range n).find? (fun slot => ν (varIdx n item slot)) with
        | some slot => arr3.set slot item
        | none => arr3) acc).getD s 0 = item0 := by
  intro l
  induction l with
  | nil =>
    intro acc _ _ hmem
    exact absurd hmem (List.not_mem_nil item0)
  | cons x xs ihl =>
    intro acc hlen hnd hmem hother
    obtain ⟨hx, hndxs⟩ := List.nodup_cons.1 hnd
    simp only [List.foldl_cons]
    by_cases hxi : x = item0
    · subst hxi
      have hfind : (List.range n).find? (fun slot => ν (varIdx n x slot)) = some s := by
        refine find?_unique _ s (List.mem_range.2 hs) htrue ?_
        intro y hy hPy
        exact huitem y (List.mem_range.1 hy) hPy
      rw [hfind]
      rw [decode_fold_frame xs _ ?_]
      · exact getD_set_self' (by omega)
      · intro y hy
        exact hother y (List.mem_cons_of_mem x hy) (fun hc => hx (hc ▸ hy))
    · have hxf : ν (varIdx n x s) = false :=
        hother x (List.mem_cons_self x xs) hxi
      have hmemxs : item0 ∈ xs := by
        rcases List.mem_cons.1 hmem with rfl | h
        · exact absurd rfl hxi
        · exact h
      have hstep : ∀ acc' : List ℕ, acc'.length = n →
          ((match (List.range n).find? (fun slot => ν (varIdx n x slot)) with
            | some slot => acc'.set slot x
            | none => acc') : List ℕ).length = n := by
        intro acc' h
        split <;> simp [h]
      refine ihl _ (hstep acc hlen) hndxs hmemxs
        (fun y hy => hother y (List.mem_cons_of_mem x hy))


theorem memSAT_elim {n : ℕ} {pairs : List (ℕ × ℕ)} {adj : ℕ → ℕ → Bool}
    {c : List ℤ} (hc : c ∈ solveSATClauses n pairs adj) :
    (∃ item, item < n
      ∧ c = (List.range n).map (fun slot => (varIdx n item slot : ℤ)))
    ∨ (∃ item s1 s2, item < n ∧ s1 < s2 ∧ s2 < n
        ∧ c = [-(varIdx n item s1 : ℤ), -(varIdx n item s2 : ℤ)])
    ∨ (∃ slot, slot < n
        ∧ c = (List.range n).map (fun item => (varIdx n item slot : ℤ)))
    ∨ (∃ slot i1 i2, slot < n ∧ i1 < i2 ∧ i2 < n
        ∧ c = [-(varIdx n i1 slot : ℤ), -(varIdx n i2 slot : ℤ)])
    ∨ (∃ k j, k < pairs.length ∧ j < (adjListL n adj).length
        ∧ (c = [-(auxVar n (adjListL n adj).length k j : ℤ),
            (varIdx n (pairs.getD k (0, 0)).1 ((adjListL n adj).getD j (0, 0)).1 : ℤ)]
          ∨ c = [-(auxVar n (adjListL n adj).length k j : ℤ),
            (varIdx n (pairs.getD k (0, 0)).2 ((adjListL n adj).getD j (0, 0)).2 : ℤ)]
          ∨ c = [-(varIdx n (pairs.getD k (0, 0)).1
              ((adjListL n adj).getD j (0, 0)).1 : ℤ),
            -(varIdx n (pairs.getD k (0, 0)).2 ((adjListL n adj).getD j (0, 0)).2 : ℤ),
            (auxVar n (adjListL n adj).length k j : ℤ)]))
    ∨ (∃ k, k < pairs.length ∧ c = (List.range (adjListL n adj).length).map
        (fun j => (auxVar n (adjListL n adj).length k j : ℤ))) := by
  unfold solveSATClauses at hc
  rcases List.mem_append.1 hc with hc | hc
  case _ =>
    rcases List.mem_append.1 hc with hc | hc
    case _ =>
      rcases List.mem_append.1 hc with hc | hc
      case _ =>
        rcases List.mem_append.1 hc with hc | hc
        case _ =>
          obtain ⟨item, hi, rfl⟩ := List.mem_map.1 hc
          exact Or.inl ⟨item, List.mem_range.1 hi, rfl⟩
        case _ =>
          obtain ⟨item, hi, hc2⟩ := List.mem_flatMap.1 hc
          obtain ⟨s1, hs1, hc3⟩ := List.mem_flatMap.1 hc2
          obtain ⟨s2, hs2, rfl⟩ := List.mem_map.1 hc3
          have hb := List.mem_range'_1.1 hs2
          exact Or.inr (Or.inl ⟨item, s1, s2, List.mem_range.1 hi, by omega, by omega,
            rfl⟩)
      case _ =>
        obtain ⟨slot, hs, rfl⟩ := List.mem_map.1 hc
        exact Or.inr (Or.inr (Or.inl ⟨slot, List.mem_range.1 hs, rfl⟩))
    case _ =>
      obtain ⟨slot, hs, hc2⟩ := List.mem_flatMap.1 hc
      obtain ⟨i1, hi1, hc3⟩ := List.mem_flatMap.1 hc2
      obtain ⟨i2, hi2, rfl⟩ := List.mem_map.1 hc3
      have hb := List.mem_range'_1.1 hi2
      exact Or.inr (Or.inr (Or.inr (Or.inl ⟨slot, i1, i2, List.mem_range.1 hs,
        by omega, by omega, rfl⟩)))
  case _ =>
    obtain ⟨k, hk, hc2⟩ := List.mem_flatMap.1 hc
    rcases List.mem_append.1 hc2 with hc3 | hc3
    · obtain ⟨j, hj, hc4⟩ := List.mem_flatMap.1 hc3
      rcases List.mem_cons.1 hc4 with rfl | hc5
      · exact Or.inr (Or.inr (Or.inr (Or.inr (Or.inl ⟨k, j, List.mem_range.1 hk,
          List.mem_range.1 hj, Or.inl rfl⟩))))
      · rcases List.mem_cons.1 hc5 with rfl | hc6
        · exact Or.inr (Or.inr (Or.inr (Or.inr (Or.inl ⟨k, j, List.mem_range.1 hk,
            List.mem_range.1 hj, Or.inr (Or.inl rfl)⟩))))
        · rcases List.mem_cons.1 hc6 with rfl | hc7
          · exact Or.inr (Or.inr (Or.inr (Or.inr (Or.inl ⟨k, j, List.mem_range.1 hk,
              List.mem_range.1 hj, Or.inr (Or.inr rfl)⟩))))
          · exact absurd hc7 (List.not_mem_nil c)
    · rw [List.mem_singleton.1 hc3]
      exact Or.inr (Or.inr (Or.inr (Or.inr (Or.inr ⟨k, List.mem_range.1 hk, rfl⟩))))


/-- The assignment read off from an arrangement: a placement variable is true
iff the arrangement holds the item at the slot, an auxiliary variable is true
iff its two defining placements hold. -/
def assignOf (n : ℕ) (pairs : List (ℕ × ℕ)) (adj : ℕ → ℕ → Bool) (arr3 : List ℕ) :
    ℕ → Bool := fun v =>
  if v ≤ n * n then
    decide (arr3.getD ((v - 1) % n) 0 = (v - 1) / n)
  else
    decide (arr3.getD ((adjListL n adj).getD
        ((v - (n * n + 1)) % (adjListL n adj).length) (0, 0)).1 0
      = (pairs.getD ((v - (n * n + 1)) / (adjListL n adj).length) (0, 0)).1)
    && decide (arr3.getD ((adjListL n adj).getD
        ((v - (n * n + 1)) % (adjListL n adj).length) (0, 0)).2 0
      = (pairs.getD ((v - (n * n + 1)) / (adjListL n adj).length) (0, 0)).2)

theorem assignOf_varIdx {n : ℕ} {pairs : List (ℕ × ℕ)} {adj : ℕ → ℕ → Bool}
    {arr3 : List ℕ} {item slot : ℕ} (hi : item < n) (hs : slot < n) :
    assignOf n pairs adj arr3 (varIdx n item slot)
      = decide (arr3.getD slot 0 = item) := by
  unfold assignOf
  rw [if_pos (varIdx_le hi hs)]
  have h0 : varIdx n item slot - 1 = slot + item * n := by
    unfold varIdx
    omega
  rw [h0, Nat.add_mul_mod_self_right, Nat.mod_eq_of_lt hs,
    Nat.add_mul_div_right _ _ (show 0 < n by omega), Nat.div_eq_of_lt hs]
  simp

theorem assignOf_auxVar {n : ℕ} {pairs : List (ℕ × ℕ)} {adj : ℕ → ℕ → Bool}
    {arr3 : List ℕ} {k j : ℕ} (hj : j < (adjListL n adj).length) :
    assignOf n pairs adj arr3 (auxVar n (adjListL n adj).length k j)
      = (decide (arr3.getD ((adjListL n adj).getD j (0, 0)).1 0
            = (pairs.getD k (0, 0)).1)
         && decide (arr3.getD ((adjListL n adj).getD j (0, 0)).2 0
            = (pairs.getD k (0, 0)).2)) := by
  unfold assignOf
  rw [if_neg (by
    have := auxVar_gt (n := n) (A := (adjListL n adj).length) (k := k) (j := j)
    omega)]
  have h0 : auxVar n (adjListL n adj).length k j - (n * n + 1)
      = j + k * (adjListL n adj).length := by
    unfold auxVar
    omega
  rw [h0, Nat.add_mul_mod_self_right, Nat.mod_eq_of_lt hj,
    Nat.add_mul_div_right _ _ (show 0 < (adjListL n adj).length by omega),
    Nat.div_eq_of_lt hj]
  simp

theorem assignOf_sat {n : ℕ} {pairs : List (ℕ × ℕ)} {adj : ℕ → ℕ → Bool}
    {arr3 : List ℕ}
    (hpairs : ∀ p ∈ pairs, p.1 < p.2 ∧ p.2 < n)
    (hp3 : permListP n arr3)
    (hcov : ∀ p ∈ pairs, ∃ s1 s2, s1 < n ∧ s2 < n ∧ adj s1 s2 = true
        ∧ arr3.getD s1 0 = p.1 ∧ arr3.getD s2 0 = p.2) :
    cnfSatB (assignOf n pairs adj arr3) (solveSATClauses n pairs adj) = true := by
  rw [cnfSatB_iff]
  intro c hc
  rcases memSAT_elim hc with ⟨item, hi, rfl⟩ | ⟨item, s1, s2, hi, h12, h2, rfl⟩
    | ⟨slot, hs, rfl⟩ | ⟨slot, i1, i2, hs, h12, h2, rfl⟩
    | ⟨k, j, hk, hj, hc3⟩ | ⟨k, hk, rfl⟩
  · obtain ⟨slot, hslt, hval⟩ := hp3.surj hi
    rw [clauseSatB_iff]
    refine ⟨(varIdx n item slot : ℤ),
      List.mem_map.2 ⟨slot, List.mem_range.2 hslt, rfl⟩, ?_⟩
    rw [litSatB_pos _ (varIdx_pos n item slot), assignOf_varIdx hi hslt]
    exact decide_eq_true hval
  · rw [clauseSatB_iff]
    by_cases hb : arr3.getD s1 0 = item
    · refine ⟨-(varIdx n item s2 : ℤ),
        List.mem_cons_of_mem _ (List.mem_cons_self _ _), ?_⟩
      rw [litSatB_neg _ _ (varIdx_pos n item s2), assignOf_varIdx hi h2]
      have hne : arr3.getD s2 0 ≠ item := by
        intro hc2
        have := hp3.getD_inj (show s1 < n by omega) h2 (by rw [hb, hc2])
        omega
      rw [decide_eq_false hne]
      rfl
    · refine ⟨-(varIdx n item s1 : ℤ), List.mem_cons_self _ _, ?_⟩
      rw [litSatB_neg _ _ (varIdx_pos n item s1), assignOf_varIdx hi (by omega)]
      rw [decide_eq_false hb]
      rfl
  · have hit : arr3.getD slot 0 < n := hp3.getD_lt hs
    rw [clauseSatB_iff]
    refine ⟨(varIdx n (arr3.getD slot 0) slot : ℤ),
      List.mem_map.2 ⟨arr3.getD slot 0, List.mem_range.2 hit, rfl⟩, ?_⟩
    rw [litSatB_pos _ (varIdx_pos n _ _), assignOf_varIdx hit hs]
    exact decide_eq_true rfl
  · rw [clauseSatB_iff]
    by_cases hb : arr3.getD slot 0 = i1
    · refine ⟨-(varIdx n i2 slot : ℤ),
        List.mem_cons_of_mem _ (List.mem_cons_self _ _), ?_⟩
      rw [litSatB_neg _ _ (varIdx_pos n i2 slot), assignOf_varIdx h2 hs]
      have hne : arr3.getD slot 0 ≠ i2 := by
        rw [hb]
        omega
      rw [decide_eq_false hne]
      rfl
    · refine ⟨-(varIdx n i1 slot : ℤ), List.mem_cons_self _ _, ?_⟩
      rw [litSatB_neg _ _ (varIdx_pos n i1 slot), assignOf_varIdx (by omega) hs]
      rw [decide_eq_false hb]
      rfl
  · have hjb := adjListL_getD_mem hj
    have hpk : (pairs.getD k (0, 0)).1 < (pairs.getD k (0, 0)).2
        ∧ (pairs.getD k (0, 0)).2 < n := by
      have hm : pairs.getD k (0, 0) ∈ pairs := by
        rw [List.getD_eq_getElem _ _ hk]
        exact List.getElem_mem _
      exact hpairs _ hm
    rcases hc3 with rfl | rfl | rfl
    · rw [clauseSatB_iff]
      by_cases ha : assignOf n pairs adj arr3 (auxVar n (adjListL n adj).length k j)
          = true
      · have ha2 := ha
        rw [assignOf_auxVar hj, Bool.and_eq_true] at ha2
        refine ⟨(varIdx n (pairs.getD k (0, 0)).1
            ((adjListL n adj).getD j (0, 0)).1 : ℤ),
          List.mem_cons_of_mem _ (List.mem_cons_self _ _), ?_⟩
        rw [litSatB_pos _ (varIdx_pos n _ _), assignOf_varIdx (by omega) hjb.1]
        exact ha2.1
      · refine ⟨-(auxVar n (adjListL n adj).length k j : ℤ),
          List.mem_cons_self _ _, ?_⟩
        rw [litSatB_neg _ _ (auxVar_pos n _ k j)]
        rw [Bool.not_eq_true] at ha
        rw [ha]
        rfl
    · rw [clauseSatB_iff]
      by_cases ha : assignOf n pairs adj arr3 (auxVar n (adjListL n adj).length k j)
          = true
      · have ha2 := ha
        rw [assignOf_auxVar hj, Bool.and_eq_true] at ha2
        refine ⟨(varIdx n (pairs.getD k (0, 0)).2
            ((adjListL n adj).getD j (0, 0)).2 : ℤ),
          List.mem_cons_of_mem _ (List.mem_cons_self _ _), ?_⟩
        rw [litSatB_pos _ (varIdx_pos n _ _), assignOf_varIdx (by omega) hjb.2.1]
        exact ha2.2
      · refine ⟨-(auxVar n (adjListL n adj).length k j : ℤ),
          List.mem_cons_self _ _, ?_⟩
        rw [litSatB_neg _ _ (auxVar_pos n _ k j)]
        rw [Bool.not_eq_true] at ha
        rw [ha]
        rfl
    · rw [clauseSatB_iff]
      by_cases hx1 : arr3.getD ((adjListL n adj).getD j (0, 0)).1 0
          = (pairs.getD k (0, 0)).1
      · by_cases hx2 : arr3.getD ((adjListL n adj).getD j (0, 0)).2 0
            = (pairs.getD k (0, 0)).2
        · refine ⟨(auxVar n (adjListL n adj).length k j : ℤ),
            List.mem_cons_of_mem _ (List.mem_cons_of_mem _ (List.mem_cons_self _ _)),
            ?_⟩
          rw [litSatB_pos _ (auxVar_pos n _ k j), assignOf_auxVar hj]
          rw [decide_eq_true hx1, decide_eq_true hx2]
          rfl
        · refine ⟨-(varIdx n (pairs.getD k (0, 0)).2
              ((adjListL n adj).getD j (0, 0)).2 : ℤ),
            List.mem_cons_of_mem _ (List.mem_cons_self _ _), ?_⟩
          rw [litSatB_neg _ _ (varIdx_pos n _ _), assignOf_varIdx (by omega) hjb.2.1]
          rw [decide_eq_false hx2]
          rfl
      · refine ⟨-(varIdx n (pairs.getD k (0, 0)).1
            ((adjListL n adj).getD j (0, 0)).1 : ℤ),
          List.mem_cons_self _ _, ?_⟩
        rw [litSatB_neg _ _ (varIdx_pos n _ _), assignOf_varIdx (by omega) hjb.1]
        rw [decide_eq_false hx1]
        rfl
  · have hm : pairs.getD k (0, 0) ∈ pairs := by
      rw [List.getD_eq_getElem _ _ hk]
      exact List.getElem_mem _
    obtain ⟨s1, s2, hs1, hs2, hadj, he1, he2⟩ := hcov _ hm
    have hmemAL : ((s1, s2) : ℕ × ℕ) ∈ adjListL n adj :=
      mem_adjListL.2 ⟨hs1, hs2, hadj⟩
    obtain ⟨j, hj, hje⟩ := List.getElem_of_mem hmemAL
    rw [clauseSatB_iff]
    refine ⟨(auxVar n (adjListL n adj).length k j : ℤ),
      List.mem_map.2 ⟨j, List.mem_range.2 hj, rfl⟩, ?_⟩
    rw [litSatB_pos _ (auxVar_pos n _ k j), assignOf_auxVar hj]
    have hgd : (adjListL n adj).getD j (0, 0) = (s1, s2) := by
      rw [List.getD_eq_getElem _ _ hj]
      exact hje
    rw [hgd]
    rw [decide_eq_true he1, decide_eq_true he2]
    rfl


theorem nodup_of_getD_inj {l : List ℕ}
    (h : ∀ i j, i < l.length → j < l.length → l.getD i 0 = l.getD j 0 → i = j) :
    l.Nodup := by
  rw [List.nodup_iff_injective_get]
  intro a b hab
  apply Fin.ext
  refine h a.1 b.1 a.2 b.2 ?_
  rw [List.getD_eq_getElem _ 0 a.2, List.getD_eq_getElem _ 0 b.2]
  rw [← List.get_eq_getElem, ← List.get_eq_getElem, hab]

/-- Claim C3.  Correctness of the solveSAT encoding: the generated CNF is
satisfiable iff some arrangement arr3 (a bijection from slots to items) puts
every uncovered pair on two adjacent slots; and every model places each item
in exactly one slot and each slot holds exactly one item, and the arrangement
decoded from the model covers every uncovered pair through adjacent slots. -/
theorem C3_solveSAT_encoding (n : ℕ) (pairs : List (ℕ × ℕ)) (adj : ℕ → ℕ → Bool)
    (hpairs : ∀ p ∈ pairs, p.1 < p.2 ∧ p.2 < n) :
    ((∃ ν, cnfSatB ν (solveSATClauses n pairs adj) = true)
      ↔ ∃ arr3, permListP n arr3 ∧ ∀ p ∈ pairs, ∃ s1 s2, s1 < n ∧ s2 < n
          ∧ adj s1 s2 = true ∧ arr3.getD s1 0 = p.1 ∧ arr3.getD s2 0 = p.2)
    ∧ ∀ ν, cnfSatB ν (solveSATClauses n pairs adj) = true →
        (∀ item, item < n → ∃! slot, slot < n ∧ ν (varIdx n item slot) = true)
        ∧ (∀ slot, slot < n → ∃! item, item < n ∧ ν (varIdx n item slot) = true)
        ∧ permListP n (decodeArr3 n ν)
        ∧ ∀ p ∈ pairs, ∃ s1 s2, s1 < n ∧ s2 < n ∧ adj s1 s2 = true
            ∧ (decodeArr3 n ν).getD s1 0 = p.1 ∧ (decodeArr3 n ν).getD s2 0 = p.2 := by
  have hmodel : ∀ ν, cnfSatB ν (solveSATClauses n pairs adj) = true →
      (∀ item, item < n → ∃! slot, slot < n ∧ ν (varIdx n item slot) = true)
      ∧ (∀ slot, slot < n → ∃! item, item < n ∧ ν (varIdx n item slot) = true)
      ∧ permListP n (decodeArr3 n ν)
      ∧ ∀ p ∈ pairs, ∃ s1 s2, s1 < n ∧ s2 < n ∧ adj s1 s2 = true
          ∧ (decodeArr3 n ν).getD s1 0 = p.1 ∧ (decodeArr3 n ν).getD s2 0 = p.2 := by
    intro ν hν
    obtain ⟨F1, F2, F3, F4, F5⟩ := solveSAT_model_facts hν
    have hxo : ∀ item, item < n → ∃! slot, slot < n ∧ ν (varIdx n item slot) = true := by
      intro item hi
      obtain ⟨s, hs, hst⟩ := F1 item hi
      refine ⟨s, ⟨hs, hst⟩, ?_⟩
      rintro s' ⟨hs', hst'⟩
      by_contra hne
      rcases Nat.lt_or_ge s' s with h | h
      · exact F2 item s' s hi h hs ⟨hst', hst⟩
      · exact F2 item s s' hi (by omega) hs' ⟨hst, hst'⟩
    have hso : ∀ slot, slot < n → ∃! item, item < n ∧ ν (varIdx n item slot) = true := by
      intro slot hs
      obtain ⟨i, hi, hit⟩ := F3 slot hs
      refine ⟨i, ⟨hi, hit⟩, ?_⟩
      rintro i' ⟨hi', hit'⟩
      by_contra hne
      rcases Nat.lt_or_ge i' i with h | h
      · exact F4 slot i' i hs h hi ⟨hit', hit⟩
      · exact F4 slot i i' hs (by omega) hi' ⟨hit, hit'⟩
    have hdec : ∀ s item, s < n → item < n → ν (varIdx n item s) = true →
        (decodeArr3 n ν).getD s 0 = item := by
      intro s item hs hi htrue
      unfold decodeArr3
      refine decode_fold_getD hs htrue ?_ (List.range n) _ (by simp)
        (List.nodup_range n) (List.mem_range.2 hi) ?_
      · intro s' hs' ht'
        obtain ⟨sl, hsl, huniq⟩ := hxo item hi
        have e1 := huniq s' ⟨hs', ht'⟩
        have e2 := huniq s ⟨hs, htrue⟩
        rw [e1, e2]
      · intro x hx hxne
        rw [List.mem_range] at hx
        by_contra hxx
        rw [Bool.not_eq_false] at hxx
        obtain ⟨it, hit, huniq⟩ := hso s hs
        have e1 := huniq x ⟨hx, hxx⟩
        have e2 := huniq item ⟨hi, htrue⟩
        exact hxne (e1.trans e2.symm)
    have hperm : permListP n (decodeArr3 n ν) := by
      refine ⟨decodeArr3_length n ν, ?_, ?_⟩
      · refine nodup_of_getD_inj ?_
        intro i j hi hj hij
        rw [decodeArr3_length] at hi hj
        obtain ⟨vi, hvi, hvit⟩ := F3 i hi
        obtain ⟨vj, hvj, hvjt⟩ := F3 j hj
        have e1 := hdec i vi hi hvi hvit
        have e2 := hdec j vj hj hvj hvjt
        have hv : vi = vj := by
          rw [← e1, ← e2, hij]
        subst hv
        obtain ⟨sl, hsl, huniq⟩ := hxo vi hvi
        have g1 := huniq i ⟨hi, hvit⟩
        have g2 := huniq j ⟨hj, hvjt⟩
        rw [g1, g2]
      · intro x hxmem
        obtain ⟨idx, hidx, hval⟩ := List.getElem_of_mem hxmem
        have hidx' : idx < n := by
          have := hidx
          rw [decodeArr3_length] at this
          exact this
        obtain ⟨i0, hi0, hi0t⟩ := F3 idx hidx'
        have hd := hdec idx i0 hidx' hi0 hi0t
        rw [List.getD_eq_getElem _ 0 hidx, hval] at hd
        rw [hd]
        exact hi0
    refine ⟨hxo, hso, hperm, ?_⟩
    intro p hp
    obtain ⟨k, hk, hkp⟩ := List.getElem_of_mem hp
    have hkd : pairs.getD k (0, 0) = p := by
      rw [List.getD_eq_getElem _ _ hk, hkp]
    obtain ⟨j, hj, hν1, hν2⟩ := F5 k hk
    have hjb := adjListL_getD_mem hj
    have hpb := hpairs p hp
    rw [hkd] at hν1 hν2
    exact ⟨((adjListL n adj).getD j (0, 0)).1, ((adjListL n adj).getD j (0, 0)).2,
      hjb.1, hjb.2.1, hjb.2.2,
      hdec _ p.1 hjb.1 (by omega) hν1,
      hdec _ p.2 hjb.2.1 (by omega) hν2⟩
  refine ⟨⟨?_, ?_⟩, hmodel⟩
  · rintro ⟨ν, hν⟩
    obtain ⟨_, _, hperm, hcov⟩ := hmodel ν hν
    exact ⟨decodeArr3 n ν, hperm, hcov⟩
  · rintro ⟨arr3, hp3, hcov⟩
    exact ⟨assignOf n pairs adj arr3, assignOf_sat hpairs hp3 hcov⟩

theorem C3_solveSAT_encoding_witness :
    (∀ p ∈ [((0 : ℕ), (1 : ℕ))], p.1 < p.2 ∧ p.2 < 2)
    ∧ (((∃ ν, cnfSatB ν (solveSATClauses 2 [(0, 1)]
          (fun a b => decide (a ≠ b))) = true)
        ↔ ∃ arr3, permListP 2 arr3 ∧ ∀ p ∈ [((0 : ℕ), (1 : ℕ))], ∃ s1 s2,
            s1 < 2 ∧ s2 < 2 ∧ decide (s1 ≠ s2) = true
            ∧ arr3.getD s1 0 = p.1 ∧ arr3.getD s2 0 = p.2)
      ∧ ∀ ν, cnfSatB ν (solveSATClauses 2 [(0, 1)]
          (fun a b => decide (a ≠ b))) = true →
          (∀ item, item < 2 → ∃! slot, slot < 2 ∧ ν (varIdx 2 item slot) = true)
          ∧ (∀ slot, slot < 2 → ∃! item, item < 2 ∧ ν (varIdx 2 item slot) = true)
          ∧ permListP 2 (decodeArr3 2 ν)
          ∧ ∀ p ∈ [((0 : ℕ), (1 : ℕ))], ∃ s1 s2, s1 < 2 ∧ s2 < 2
              ∧ decide (s1 ≠ s2) = true
              ∧ (decodeArr3 2 ν).getD s1 0 = p.1
              ∧ (decodeArr3 2 ν).getD s2 0 = p.2) :=
  ⟨by decide,
   C3_solveSAT_encoding 2 [(0, 1)] (fun a b => decide (a ≠ b)) (by decide)⟩

end HexClink
